import Mathlib

/-!
Verification of the GitVault codebase-browser core: a shallow embedding of
`buildFileTree`, the search filter, the browser state machine and the
Gateway overview handler (README detection), translated from
`src/components/WalrusCodebaseBrowser.tsx` and `src/pages/dashboard.tsx`.

Strings are modelled by Lean `String` (a wrapped list of chars); JavaScript
`path.split('/')` is modelled character-by-character by `splitChars`, and
`a.path.localeCompare(b.path)` by code-unit lexicographic comparison
(`listLtb`), which is what the specification calls "ordinary lexicographic
string comparison".  `Array.prototype.sort` is stable, so it is modelled by
a stable insertion sort with the same comparator.
-/

namespace GitVault

/-! ### Character-list utilities -/

/-- Strict lexicographic (code-unit) comparison of character lists.
Models `a.localeCompare(b) < 0` of the sort comparator in
`WalrusCodebaseBrowser.tsx` line 139. -/
def listLtb : List Char → List Char → Bool
  | [], [] => false
  | [], _ :: _ => true
  | _ :: _, [] => false
  | a :: as, b :: bs => if a < b then true else if b < a then false else listLtb as bs

/-- Split a character list at every occurrence of `c`.
Models JavaScript `String.prototype.split` with a one-character separator
(`file.path.split('/')`, line 142). -/
def splitChars (c : Char) : List Char → List (List Char)
  | [] => [[]]
  | a :: as =>
    match splitChars c as with
    | [] => [[]]
    | s :: ss => if a = c then [] :: s :: ss else (a :: s) :: ss

/-- Interleave the separator `c` between the groups: inverse of `splitChars`. -/
def joinChars (c : Char) : List (List Char) → List Char
  | [] => []
  | [s] => s
  | s :: t :: ts => s ++ c :: joinChars c (t :: ts)

/-- `'/'`-separated segments of a path: model of `path.split('/')`. -/
def segs (p : String) : List String := (splitChars '/' p.data).map (fun l => ⟨l⟩)

/-- Join segments with `'/'`: spec-side inverse of `segs`. -/
def joinSegs (l : List String) : String := ⟨joinChars '/' (l.map String.data)⟩

/-- Lowercase a string character-wise.
Models JavaScript `String.prototype.toLowerCase`. -/
def toLowerStr (s : String) : String := ⟨s.data.map Char.toLower⟩

/-- `leadsList n h = true` iff `h` starts with `n`. -/
def leadsList {α : Type} [DecidableEq α] : List α → List α → Bool
  | [], _ => true
  | _ :: _, [] => false
  | a :: as, b :: bs => if a = b then leadsList as bs else false

/-- `hasSeq n h = true` iff `n` occurs contiguously inside `h`. -/
def hasSeq {α : Type} [DecidableEq α] : List α → List α → Bool
  | n, [] => n.isEmpty
  | n, b :: bs => leadsList n (b :: bs) || hasSeq n bs

/-- `strIncludes s sub` models JavaScript `s.includes(sub)`. -/
def strIncludes (s sub : String) : Bool := hasSeq sub.data s.data

/-! ### Data model (interfaces of `WalrusCodebaseBrowser.tsx`) -/

/-- The `contentType` enumeration `'text' | 'binary' | 'error'`. -/
inductive ContentType
  | text
  | binary
  | error
deriving DecidableEq, Repr

/-- One row of the flat file list (interface `FileInfo`). -/
structure FileInfo where
  path : String
  size : Nat
  mimeType : String
  contentType : ContentType
  modified : String
deriving DecidableEq, Repr

/-- A tree node is a `'file' | 'folder'` (field `type` of `FileTreeNode`). -/
inductive NodeType
  | file
  | folder
deriving DecidableEq, Repr

/-- A node of the reconstructed tree (interface `FileTreeNode`):
`children` is `none` exactly when the JS object has `children: undefined`. -/
inductive FileTreeNode where
  | mk (name : String) (path : String) (type : NodeType)
       (size : Option Nat) (mimeType : Option String) (contentType : Option ContentType)
       (modified : Option String) (children : Option (List FileTreeNode))

def FileTreeNode.name : FileTreeNode → String
  | .mk n _ _ _ _ _ _ _ => n

def FileTreeNode.path : FileTreeNode → String
  | .mk _ p _ _ _ _ _ _ => p

def FileTreeNode.type : FileTreeNode → NodeType
  | .mk _ _ t _ _ _ _ _ => t

def FileTreeNode.size : FileTreeNode → Option Nat
  | .mk _ _ _ s _ _ _ _ => s

def FileTreeNode.mimeType : FileTreeNode → Option String
  | .mk _ _ _ _ m _ _ _ => m

def FileTreeNode.contentType : FileTreeNode → Option ContentType
  | .mk _ _ _ _ _ c _ _ => c

def FileTreeNode.modified : FileTreeNode → Option String
  | .mk _ _ _ _ _ _ m _ => m

def FileTreeNode.children : FileTreeNode → Option (List FileTreeNode)
  | .mk _ _ _ _ _ _ _ cs => cs

/-! ### The tree builder (`buildFileTree`, lines 134-180)

JavaScript mutates shared node objects through `nodeMap`; the embedding
makes the sharing explicit: `nodes` is the association list behind
`nodeMap` (node fields other than `children`), `childrenOf` holds the
`children` array of exactly those nodes that were created with one
(folders), and `roots` is the top-level `tree` array, all keyed by full
path.  The forest of linked `FileTreeNode` objects is reconstructed from
this state by `buildNode`. -/

/-- The per-node data stored in `nodeMap` (everything except `children`). -/
structure NodeData where
  name : String
  type : NodeType
  size : Option Nat
  mimeType : Option String
  contentType : Option ContentType
  modified : Option String
deriving DecidableEq, Repr

/-- The mutable state of one `buildFileTree` pass. -/
structure BuildState where
  roots : List String
  nodes : List (String × NodeData)
  childrenOf : List (String × List String)
deriving DecidableEq, Repr

def emptyState : BuildState := ⟨[], [], []⟩

/-- `pathLt a b` models `a.path.localeCompare(b.path) < 0`. -/
def pathLt (a b : FileInfo) : Bool := listLtb a.path.data b.path.data

/-- Stable insertion of `x` in front of the first element not below it. -/
def insertSorted (x : FileInfo) : List FileInfo → List FileInfo
  | [] => [x]
  | y :: ys => if pathLt y x then y :: insertSorted x ys else x :: y :: ys

/-- Model of `[...files].sort((a, b) => a.path.localeCompare(b.path))`
(line 139): a stable sort by path. -/
def sortFiles : List FileInfo → List FileInfo
  | [] => []
  | x :: xs => insertSorted x (sortFiles xs)

/-- Append `q` to the children array registered under key `k`. -/
def appendChild (m : List (String × List String)) (k q : String) :
    List (String × List String) :=
  m.map (fun kv => if kv.1 = k then (kv.1, kv.2 ++ [q]) else kv)

/-- The node object created at lines 151-163: `kind = file` gets the
entry's metadata, `kind = folder` gets an empty children array (recorded
in `childrenOf` by `insertPart`). -/
def createdData (file : FileInfo) (part : String) (isFile : Bool) : NodeData :=
  { name := part
    type := if isFile then NodeType.file else NodeType.folder
    size := if isFile then some file.size else none
    mimeType := if isFile then some file.mimeType else none
    contentType := if isFile then some file.contentType else none
    modified := if isFile then some file.modified else none }

/-- The body of the inner `parts.forEach` (lines 145-176): one segment of
the current entry's path.  `currentPath` is the node's full path (the
updated `currentPath` of the source), `previousPath` the value before the
update, `isFile` is `index === parts.length - 1`. -/
def insertPart (file : FileInfo) (previousPath currentPath part : String) (isFile : Bool)
    (st : BuildState) : BuildState :=
  if (st.nodes.lookup currentPath).isSome then st
  else
    let st1 : BuildState :=
      { st with
        nodes := (currentPath, createdData file part isFile) :: st.nodes
        childrenOf := if isFile then st.childrenOf else (currentPath, []) :: st.childrenOf }
    if previousPath = "" then
      { st1 with roots := st1.roots ++ [currentPath] }
    else if (st1.childrenOf.lookup previousPath).isSome then
      { st1 with childrenOf := appendChild st1.childrenOf previousPath currentPath }
    else st1

/-- Walk the remaining segments, threading `currentPath` exactly as the
source does (`currentPath = currentPath ? currentPath + '/' + part : part`,
line 147; the emptiness test models JavaScript string truthiness). -/
def insertParts (file : FileInfo) : String → List String → BuildState → BuildState
  | _, [], st => st
  | currentPath, part :: rest, st =>
    let np := if currentPath = "" then part else currentPath ++ "/" ++ part
    insertParts file np rest (insertPart file currentPath np part rest.isEmpty st)

/-- Process one sorted entry (the body of `sortedFiles.forEach`, line 141). -/
def processEntry (st : BuildState) (file : FileInfo) : BuildState :=
  insertParts file "" (segs file.path) st

/-- The complete state after one `buildFileTree` pass. -/
def buildState (files : List FileInfo) : BuildState :=
  (sortFiles files).foldl processEntry emptyState

/-- The (shared, mutable) children array of the node at `p`, empty when the
node is a file or absent. -/
def childrenList (st : BuildState) (p : String) : List String :=
  (st.childrenOf.lookup p).getD []

/-- Reconstruct the linked node object for path `p` from the final state.
`fuel` dominates the tree depth; `buildFileTree` passes more fuel than any
chain of strictly-lengthening child paths can consume. -/
def buildNode (st : BuildState) : Nat → String → FileTreeNode
  | 0, p => .mk "" p NodeType.folder none none none none none
  | fuel + 1, p =>
    match st.nodes.lookup p with
    | none => .mk "" p NodeType.folder none none none none none
    | some nd =>
      .mk nd.name p nd.type nd.size nd.mimeType nd.contentType nd.modified
        ((st.childrenOf.lookup p).map (fun cs => cs.map (fun q => buildNode st fuel q)))

/-- The embedding of `buildFileTree` (lines 134-180): sort a copy of the
input, build the node table, and return the top-level `tree` array. -/
def buildFileTree (files : List FileInfo) : List FileTreeNode :=
  let st := buildState files
  st.roots.map (buildNode st (st.nodes.length + 1))

/-- The paths of the subtree hanging below `p`, mirroring `buildNode`. -/
def subtreePaths (st : BuildState) : Nat → String → List String
  | 0, p => [p]
  | fuel + 1, p =>
    match st.nodes.lookup p with
    | none => [p]
    | some _ =>
      match st.childrenOf.lookup p with
      | none => [p]
      | some cs => p :: (cs.map (fun q => subtreePaths st fuel q)).flatten

/-- A path is part of the linked forest: it is a root or a registered child
of a path that is. -/
inductive InForest (st : BuildState) : String → Prop where
  | root (r : String) (h : r ∈ st.roots) : InForest st r
  | child (p q : String) (hp : InForest st p) (hq : q ∈ childrenList st p) : InForest st q

/-- The metadata-erased part of the node table (name and kind only). -/
def eraseNodes (nodes : List (String × NodeData)) : List (String × String × NodeType) :=
  nodes.map (fun kv => (kv.1, kv.2.name, kv.2.type))

/-! ### Derived observations on trees -/

mutual

/-- Total number of nodes in a tree (files plus directories). -/
def nodeCount : FileTreeNode → Nat
  | .mk _ _ _ _ _ _ _ none => 1
  | .mk _ _ _ _ _ _ _ (some cs) => 1 + nodeCountList cs

def nodeCountList : List FileTreeNode → Nat
  | [] => 0
  | n :: ns => nodeCount n + nodeCountList ns

end

/-- Total number of nodes in a forest. -/
def forestCount (forest : List FileTreeNode) : Nat := nodeCountList forest

mutual

/-- All full paths occurring in a tree, root first. -/
def nodePaths : FileTreeNode → List String
  | .mk _ p _ _ _ _ _ none => [p]
  | .mk _ p _ _ _ _ _ (some cs) => p :: nodePathsList cs

def nodePathsList : List FileTreeNode → List String
  | [] => []
  | n :: ns => nodePaths n ++ nodePathsList ns

end

/-- All full paths occurring in a forest. -/
def allNodesPaths (forest : List FileTreeNode) : List String := nodePathsList forest

mutual

/-- All nodes of a tree (the node itself and, recursively, its children). -/
def treeNodes : FileTreeNode → List FileTreeNode
  | .mk n p t s m c mo none => [.mk n p t s m c mo none]
  | .mk n p t s m c mo (some cs) => .mk n p t s m c mo (some cs) :: treeNodesList cs

def treeNodesList : List FileTreeNode → List FileTreeNode
  | [] => []
  | n :: ns => treeNodes n ++ treeNodesList ns

end

/-- All nodes of a forest. -/
def allNodes (forest : List FileTreeNode) : List FileTreeNode := treeNodesList forest

mutual

/-- All sibling groups strictly inside a tree (every `children` array). -/
def nodeSibLists : FileTreeNode → List (List FileTreeNode)
  | .mk _ _ _ _ _ _ _ none => []
  | .mk _ _ _ _ _ _ _ (some cs) => cs :: sibListsOf cs

def sibListsOf : List FileTreeNode → List (List FileTreeNode)
  | [] => []
  | n :: ns => nodeSibLists n ++ sibListsOf ns

end

/-- Every sibling group of a forest: the top level and every `children`. -/
def allSiblingLists (forest : List FileTreeNode) : List (List FileTreeNode) :=
  forest :: sibListsOf forest

/-- The metadata-erased shape of a tree. -/
inductive TreeShape where
  | mk (name : String) (path : String) (type : NodeType)
       (children : Option (List TreeShape))

mutual

/-- Erase the file metadata, keeping name, path, kind and structure. -/
def shapeOf : FileTreeNode → TreeShape
  | .mk n p t _ _ _ _ none => .mk n p t none
  | .mk n p t _ _ _ _ (some cs) => .mk n p t (some (shapeListOf cs))

def shapeListOf : List FileTreeNode → List TreeShape
  | [] => []
  | n :: ns => shapeOf n :: shapeListOf ns

end

/-! ### Spec-side path vocabulary -/

/-- The chain of node paths visited while walking one entry path, in the
order the source's `currentPath` takes them (model-derived from
`insertParts`). -/
def runPathsAux : String → List String → List String
  | _, [] => []
  | currentPath, part :: rest =>
    let np := if currentPath = "" then part else currentPath ++ "/" ++ part
    np :: runPathsAux np rest

def runPaths (path : String) : List String := runPathsAux "" (segs path)

/-- The proper `'/'`-separated directory ancestors of a path: the joins of
its proper nonempty segment lists (the spec's "proper directory prefixes"). -/
def dirAncestors (p : String) : List String :=
  (List.range ((segs p).length - 1)).map (fun j => joinSegs ((segs p).take (j + 1)))

/-- A path whose first `'/'`-separated segment is nonempty: it is nonempty
and does not begin with `'/'`. -/
def wfPath (p : String) : Prop := (segs p).headD "" ≠ ""

instance (p : String) : Decidable (wfPath p) := by
  unfold wfPath; infer_instance

/-- Keep the first occurrence of every element, in order of first
occurrence; `seen` are the elements already emitted. -/
def dedupFirstAux (seen : List String) : List String → List String
  | [] => []
  | a :: as => if a ∈ seen then dedupFirstAux seen as else a :: dedupFirstAux (a :: seen) as

def dedupFirst (l : List String) : List String := dedupFirstAux [] l

/-- The node creation order that one `buildFileTree` pass induces: walk the
lexicographically sorted entries, visit each entry's path chain in order,
keep first occurrences. -/
def creationOrder (files : List FileInfo) : List String :=
  dedupFirst ((sortFiles files).flatMap (fun e => runPaths e.path))

/-- The position at which the walk of `e.path` first visits the node
path `p`. -/
def reachIdx (e : FileInfo) (p : String) : Nat :=
  (runPaths e.path).findIdx (fun q => q == p)

/-- The node data `insertPart` creates when `p` is first reached while
processing entry `e` (spec-side mirror used by the invariants). -/
def mkNodeData (e : FileInfo) (p : String) : NodeData :=
  { name := (segs e.path).getD (reachIdx e p) ""
    type := if reachIdx e p = (segs e.path).length - 1 then NodeType.file else NodeType.folder
    size := if reachIdx e p = (segs e.path).length - 1 then some e.size else none
    mimeType := if reachIdx e p = (segs e.path).length - 1 then some e.mimeType else none
    contentType := if reachIdx e p = (segs e.path).length - 1 then some e.contentType else none
    modified := if reachIdx e p = (segs e.path).length - 1 then some e.modified else none }

/-- The first entry of `l` whose path chain visits `p`. -/
def findReacher (l : List FileInfo) (p : String) : Option FileInfo :=
  l.find? (fun e => (runPaths e.path).contains p)

/-! ### The search filter (lines 183-188) -/

/-- Model of `codebaseData?.files.filter(file =>
file.path.toLowerCase().includes(searchTerm.toLowerCase()))`. -/
def filteredFiles (files : List FileInfo) (searchTerm : String) : List FileInfo :=
  files.filter (fun file => strIncludes (toLowerStr file.path) (toLowerStr searchTerm))

/-! ### Component state and transitions (`WalrusCodebaseBrowser`) -/

/-- Interface `CodebaseMetadata`. -/
structure CodebaseMetadata where
  timestamp : String
  repository : String
  branch : String
  commit : String
  total_files : Nat
  total_size : Nat
deriving DecidableEq, Repr

/-- Interface `CodebaseData` (the Gateway overview payload). -/
structure CodebaseData where
  metadata : CodebaseMetadata
  files : List FileInfo
  readmeFile : Option String
  readmeContent : Option String
  totalFiles : Nat
  totalSize : Nat
deriving DecidableEq, Repr

/-- Interface `FileData` (the Gateway single-file payload). -/
structure FileData where
  filePath : String
  content : String
  contentType : ContentType
  mimeType : String
  size : Nat
  modified : String
  metadata : CodebaseMetadata
deriving DecidableEq, Repr

/-- A parsed Gateway response: `{ success: true, data }` or
`{ success: false, error }`. -/
inductive ApiResult (α : Type)
  | success (data : α)
  | failure (error : String)
deriving DecidableEq, Repr

/-- The component's `useState` slots (lines 56-62). -/
structure BrowserState where
  codebaseData : Option CodebaseData
  selectedFile : Option FileData
  isLoading : Bool
  isLoadingFile : Bool
  error : Option String
  searchTerm : String
  expandedFolders : List String
deriving DecidableEq, Repr

/-- Net state change of a completed `handleFileSelect(filePath)` call
(lines 113-131): `setError(null)` before the fetch, then either
`setSelectedFile(result.data)` or `setError(message)`, and
`setIsLoadingFile(false)` in `finally`. -/
def handleFileSelectResult (st : BrowserState) (result : ApiResult FileData) : BrowserState :=
  match result with
  | .success d => { st with error := none, selectedFile := some d, isLoadingFile := false }
  | .failure msg => { st with error := some msg, isLoadingFile := false }

/-- Net state change of a completed overview fetch (lines 65-89). -/
def fetchCodebaseResult (st : BrowserState) (result : ApiResult CodebaseData) : BrowserState :=
  match result with
  | .success d => { st with error := none, codebaseData := some d, isLoading := false }
  | .failure msg => { st with error := some msg, isLoading := false }

/-- Insertion into the `Set<string>` of expanded folders (`Set.add`). -/
def insertSet (s : List String) (x : String) : List String :=
  if x ∈ s then s else s ++ [x]

/-- One step of the root-folder collection (lines 96-106): add the first
segment of every path with at least two segments, and the first two
segments of every path with at least three. -/
def rootFoldersStep (acc : List String) (file : FileInfo) : List String :=
  match segs file.path with
  | [] => acc
  | [_] => acc
  | p0 :: p1 :: rest =>
    let acc1 := insertSet acc p0
    match rest with
    | [] => acc1
    | _ :: _ => insertSet acc1 (p0 ++ "/" ++ p1)

/-- The `rootFolders` set computed by the auto-expand effect (lines 92-110). -/
def rootFolders (files : List FileInfo) : List String :=
  files.foldl rootFoldersStep []

/-- The auto-expand `useEffect` ran after `codebaseData` changes: when data
with a non-empty file list is present, replace `expandedFolders`. -/
def rootFoldersEffect (st : BrowserState) : BrowserState :=
  match st.codebaseData with
  | some d => if d.files.length > 0 then { st with expandedFolders := rootFolders d.files } else st
  | none => st

/-- `setSearchTerm` from the search input's `onChange` (line 352). -/
def setSearch (st : BrowserState) (t : String) : BrowserState :=
  { st with searchTerm := t }

/-! ### The rendered view (the component's return value) -/

/-- What the right-hand pane shows (lines 372-428). -/
inductive ContentPane
  | loadingFile
  | fileText (path content : String)
  | fileBinary (path mime : String)
  | fileError (path : String)
  | readme (content : String)
  | empty
deriving DecidableEq, Repr

/-- The browser layout once data is present: the file tree (left pane), the
highlighted selection, and the content pane. -/
structure BrowserView where
  fileTree : List FileTreeNode
  highlightedPath : Option String
  contentPane : ContentPane

/-- The four top-level screens of the component (lines 296-433): the early
returns for loading, error and missing data replace the whole browser. -/
inductive View
  | loading
  | errorView (msg : String)
  | noData
  | browser (v : BrowserView)

/-- The component's render function: the early returns at lines 296-326,
then the full layout.  `searchTerm ? filteredFiles : codebaseData?.files`
(line 188) and `codebaseData.readmeContent ?` (line 410) model JavaScript
truthiness. -/
def render (st : BrowserState) : View :=
  if st.isLoading then .loading
  else
    match st.error with
    | some msg => .errorView msg
    | none =>
      match st.codebaseData with
      | none => .noData
      | some data =>
        let tree := buildFileTree
          (if st.searchTerm ≠ "" then filteredFiles data.files st.searchTerm else data.files)
        View.browser
          { fileTree := tree
            highlightedPath := st.selectedFile.map FileData.filePath
            contentPane :=
              if st.isLoadingFile then ContentPane.loadingFile
              else
                match st.selectedFile with
                | some f =>
                  match f.contentType with
                  | ContentType.text => ContentPane.fileText f.filePath f.content
                  | ContentType.binary => ContentPane.fileBinary f.filePath f.mimeType
                  | ContentType.error => ContentPane.fileError f.filePath
                | none =>
                  match data.readmeContent with
                  | some c => if c = "" then ContentPane.empty else ContentPane.readme c
                  | none => ContentPane.empty }

/-! ### The Gateway overview handler (`src/pages/dashboard.tsx`) -/

/-- One value of the blob's `files` map (interface `WalrusCodebaseData`). -/
structure WalrusFileEntry where
  content : String
  content_type : ContentType
  mime_type : String
  size : Nat
  modified : String
deriving DecidableEq, Repr

/-- `Object.keys(codebaseData.files).find(path =>
path.toLowerCase().includes('readme') && files[path].content_type === 'text')`
(lines 358-361); the association list carries the map in enumeration
order. -/
def findReadme (files : List (String × WalrusFileEntry)) : Option (String × WalrusFileEntry) :=
  files.find? (fun kv =>
    strIncludes (toLowerStr kv.1) "readme" && kv.2.content_type == ContentType.text)

/-- The `readmeFile` and `readmeContent` fields of the overview response
(lines 368-369): `readmeFile || null` and
`readmeFile ? codebaseData.files[readmeFile].content : null`, with
JavaScript truthiness of the empty string made explicit. -/
def overviewReadme (files : List (String × WalrusFileEntry)) :
    Option String × Option String :=
  match (findReadme files).map Prod.fst with
  | none => (none, none)
  | some k =>
    if k = "" then (none, none)
    else (some k, (files.lookup k).map WalrusFileEntry.content)

/-! ### Spec-side predicates used by the claims -/

/-- Decide whether `h` starts with `n` (as the proposition itself). -/
def decLeads {α : Type} [DecidableEq α] : (n h : List α) → Decidable (∃ t, n ++ t = h)
  | [], h => isTrue ⟨h, rfl⟩
  | _ :: _, [] => isFalse (by rintro ⟨t, ht⟩; simp at ht)
  | a :: as, b :: bs =>
    if hab : a = b then
      match decLeads as bs with
      | isTrue hex => isTrue (by
          obtain ⟨t, ht⟩ := hex
          exact ⟨t, by rw [List.cons_append, ht, hab]⟩)
      | isFalse hf => isFalse (by
          rintro ⟨t, ht⟩
          rw [List.cons_append] at ht
          injection ht with h1 h2
          exact hf ⟨t, h2⟩)
    else
      isFalse (by
        rintro ⟨t, ht⟩
        rw [List.cons_append] at ht
        injection ht with h1 h2
        exact hab h1)

instance {α : Type} [DecidableEq α] (n h : List α) : Decidable (∃ t, n ++ t = h) :=
  decLeads n h

/-- Decide whether `n` occurs contiguously inside `h` (as the proposition). -/
def decSeqIn {α : Type} [DecidableEq α] : (n h : List α) → Decidable (∃ l r, h = l ++ n ++ r)
  | n, [] =>
    if he : n = [] then isTrue ⟨[], [], by simp [he]⟩
    else isFalse (by
      rintro ⟨l, r, hl⟩
      cases l with
      | nil => cases n with
        | nil => exact he rfl
        | cons x xs => simp at hl
      | cons x xs => simp at hl)
  | n, b :: bs =>
    match decLeads n (b :: bs) with
    | isTrue hex => isTrue (by
        obtain ⟨t, ht⟩ := hex
        exact ⟨[], t, by rw [← ht]; simp⟩)
    | isFalse hf =>
      match decSeqIn n bs with
      | isTrue hex => isTrue (by
          obtain ⟨l, r, hr⟩ := hex
          exact ⟨b :: l, r, by rw [hr]; simp⟩)
      | isFalse hg => isFalse (by
          rintro ⟨l, r, hl⟩
          cases l with
          | nil =>
            simp only [List.nil_append] at hl
            exact hf ⟨r, hl.symm⟩
          | cons x l' =>
            rw [List.cons_append, List.cons_append] at hl
            injection hl with h1 h2
            exact hg ⟨l', r, h2⟩)

instance {α : Type} [DecidableEq α] (n h : List α) : Decidable (∃ l r, h = l ++ n ++ r) :=
  decSeqIn n h

/-- `p` is a strict `'/'`-separated prefix of `q`: the segments of `p` are
a proper initial run of the segments of `q`. -/
def segStrictPre (p q : String) : Prop := (∃ t, segs p ++ t = segs q) ∧ p ≠ q

instance (p q : String) : Decidable (segStrictPre p q) := by
  unfold segStrictPre; infer_instance

/-- The hypotheses of the tree-shape claims: unique paths, no entry path a
strict `'/'`-separated prefix of another, and every path has a nonempty
first segment. -/
def goodEntries (files : List FileInfo) : Prop :=
  (files.map FileInfo.path).Nodup
  ∧ (∀ e₁ ∈ files, ∀ e₂ ∈ files, ¬ segStrictPre e₁.path e₂.path)
  ∧ (∀ e ∈ files, wfPath e.path)

instance (files : List FileInfo) : Decidable (goodEntries files) := by
  unfold goodEntries
  infer_instance

/-- `x` is the first segment of some path with at least two segments. -/
def firstLevelDir (files : List FileInfo) (x : String) : Prop :=
  ∃ e ∈ files, ∃ b l, segs e.path = x :: b :: l

/-- `x` joins the first two segments of some path with at least three. -/
def secondLevelDir (files : List FileInfo) (x : String) : Prop :=
  ∃ e ∈ files, ∃ a b c l, segs e.path = a :: b :: c :: l ∧ x = a ++ "/" ++ b

/-- The handler's README predicate, spec-side: the lowercased key contains
`"readme"` as a substring and the entry's content type is text. -/
def isReadmeEntry (kv : String × WalrusFileEntry) : Prop :=
  (∃ l r, (toLowerStr kv.1).data = l ++ "readme".data ++ r)
  ∧ kv.2.content_type = ContentType.text

/-- All node paths attached somewhere: the roots plus every registered
children array. -/
def attachedList (st : BuildState) : List String :=
  st.roots ++ (st.childrenOf.map Prod.snd).flatten

/-- Invariant of the build state after processing the entries `done`
(in order).  `trace` records that the keys of `nodes`, in creation order,
are the first occurrences of the visited path chains; the remaining fields
describe roots, children arrays and node data. -/
structure Inv (done : List FileInfo) (st : BuildState) : Prop where
  trace : (st.nodes.map Prod.fst).reverse
      = dedupFirst (done.flatMap (fun x => runPaths x.path))
  rootsSub : st.roots.Sublist ((st.nodes.map Prod.fst).reverse)
  childSub : ∀ p cs, st.childrenOf.lookup p = some cs →
      cs.Sublist ((st.nodes.map Prod.fst).reverse)
  folderIff : ∀ p, (st.childrenOf.lookup p).isSome = true ↔
      ∃ nd, st.nodes.lookup p = some nd ∧ nd.type = NodeType.folder
  childKeysNodup : (st.childrenOf.map Prod.fst).Nodup
  childShape : ∀ p cs q, st.childrenOf.lookup p = some cs → q ∈ cs →
      (st.nodes.lookup q).isSome = true ∧ ∃ s, q = p ++ "/" ++ s ∧ '/' ∉ s.data
  attachNodup : (attachedList st).Nodup
  attachKeys : ∀ q ∈ attachedList st, (st.nodes.lookup q).isSome = true
  dataChar : ∀ p nd, st.nodes.lookup p = some nd →
      ∃ x, findReacher done p = some x ∧ nd = mkNodeData x p
  rootsFree : ∀ r ∈ st.roots, '/' ∉ r.data
  attachTotal : goodEntries done →
      ∀ q nd, st.nodes.lookup q = some nd → q ∈ attachedList st

/-- The same invariant in the middle of processing entry `e`, after the
chain positions `visited` of `e` have been walked. -/
structure MidInv (done : List FileInfo) (e : FileInfo) (visited : List String)
    (st : BuildState) : Prop where
  trace : (st.nodes.map Prod.fst).reverse
      = dedupFirst (done.flatMap (fun x => runPaths x.path) ++ visited)
  rootsSub : st.roots.Sublist ((st.nodes.map Prod.fst).reverse)
  childSub : ∀ p cs, st.childrenOf.lookup p = some cs →
      cs.Sublist ((st.nodes.map Prod.fst).reverse)
  folderIff : ∀ p, (st.childrenOf.lookup p).isSome = true ↔
      ∃ nd, st.nodes.lookup p = some nd ∧ nd.type = NodeType.folder
  childKeysNodup : (st.childrenOf.map Prod.fst).Nodup
  childShape : ∀ p cs q, st.childrenOf.lookup p = some cs → q ∈ cs →
      (st.nodes.lookup q).isSome = true ∧ ∃ s, q = p ++ "/" ++ s ∧ '/' ∉ s.data
  attachNodup : (attachedList st).Nodup
  attachKeys : ∀ q ∈ attachedList st, (st.nodes.lookup q).isSome = true
  dataChar : ∀ p nd, st.nodes.lookup p = some nd →
      (∃ x, findReacher done p = some x ∧ nd = mkNodeData x p)
      ∨ (findReacher done p = none ∧ p ∈ visited ∧ nd = mkNodeData e p)
  rootsFree : ∀ r ∈ st.roots, '/' ∉ r.data
  attachTotal : goodEntries (done ++ [e]) →
      ∀ q nd, st.nodes.lookup q = some nd → q ∈ attachedList st

/-! ### Concrete fixtures for counterexamples and witnesses -/

/-- Make a text file entry with the given path and size. -/
def mkFi (p : String) (sz : Nat) : FileInfo :=
  { path := p, size := sz, mimeType := "text/plain", contentType := ContentType.text
    modified := "2024-01-01" }

def metaFix : CodebaseMetadata :=
  { timestamp := "2024-01-01", repository := "u/r", branch := "main", commit := "c"
    total_files := 2, total_size := 2 }

/-- Loaded overview data used by the browser-state fixtures. -/
def dataFix : CodebaseData :=
  { metadata := metaFix, files := [mkFi "f.txt" 1, mkFi "g.txt" 1]
    readmeFile := none, readmeContent := none, totalFiles := 2, totalSize := 2 }

/-- A browser state after a successful overview load, nothing selected. -/
def stFix : BrowserState :=
  { codebaseData := some dataFix, selectedFile := none, isLoading := false
    isLoadingFile := false, error := none, searchTerm := ""
    expandedFolders := [] }

/-- The Gateway single-file payload for `f.txt`. -/
def fdFix : FileData :=
  { filePath := "f.txt", content := "hello", contentType := ContentType.text
    mimeType := "text/plain", size := 1, modified := "2024-01-01", metadata := metaFix }

/-- A text entry of the blob file map with the given content. -/
def wEntry (c : String) : WalrusFileEntry :=
  { content := c, content_type := ContentType.text, mime_type := "text/plain"
    size := 1, modified := "2024-01-01" }

/-- A two-entry blob file map whose second key is a README. -/
def wfilesFix : List (String × WalrusFileEntry) :=
  [("a.txt", wEntry "aa"), ("README.md", wEntry "hello")]

/-- A well-formed three-entry fixture used by the counting witnesses. -/
def fixC1 : List FileInfo := [mkFi "src/a.ts" 1, mkFi "src/b.ts" 2, mkFi "README.md" 3]

/-! # Theorems -/

/-! ## Utility lemmas: substring search -/

theorem leadsList_iff {α : Type} [DecidableEq α] (n h : List α) :
    leadsList n h = true ↔ ∃ t, n ++ t = h := by
  induction n generalizing h with
  | nil => simp [leadsList]
  | cons a as ih =>
    cases h with
    | nil =>
      constructor
      · intro hl; exact absurd hl (by simp [leadsList])
      · rintro ⟨t, ht⟩; exact absurd ht (by simp)
    | cons b bs =>
      constructor
      · intro hl
        have hl' : (if a = b then leadsList as bs else false) = true := hl
        by_cases hab : a = b
        · rw [if_pos hab] at hl'
          obtain ⟨t, ht⟩ := (ih bs).mp hl'
          exact ⟨t, by rw [List.cons_append, ht, hab]⟩
        · rw [if_neg hab] at hl'
          exact absurd hl' (by simp)
      · rintro ⟨t, ht⟩
        rw [List.cons_append] at ht
        injection ht with h1 h2
        show (if a = b then leadsList as bs else false) = true
        rw [if_pos h1]
        exact (ih bs).mpr ⟨t, h2⟩

theorem hasSeq_iff {α : Type} [DecidableEq α] (n h : List α) :
    hasSeq n h = true ↔ ∃ l r, h = l ++ n ++ r := by
  induction h with
  | nil =>
    constructor
    · intro he
      have : n.isEmpty = true := he
      exact ⟨[], [], by simp [List.isEmpty_iff.mp this]⟩
    · rintro ⟨l, r, hl⟩
      cases l with
      | nil =>
        cases n with
        | nil => rfl
        | cons x xs => exact absurd hl (by simp)
      | cons x xs => exact absurd hl (by simp)
  | cons b bs ih =>
    constructor
    · intro hh
      have hh' : (leadsList n (b :: bs) || hasSeq n bs) = true := hh
      rcases Bool.or_eq_true_iff.mp hh' with hl | hr
      · obtain ⟨t, ht⟩ := (leadsList_iff n (b :: bs)).mp hl
        exact ⟨[], t, by rw [← ht]; simp⟩
      · obtain ⟨l, r, hr'⟩ := ih.mp hr
        exact ⟨b :: l, r, by rw [hr']; simp⟩
    · rintro ⟨l, r, hl⟩
      show (leadsList n (b :: bs) || hasSeq n bs) = true
      rw [Bool.or_eq_true_iff]
      cases l with
      | nil =>
        left
        simp only [List.nil_append] at hl
        exact (leadsList_iff n (b :: bs)).mpr ⟨r, hl.symm⟩
      | cons x l' =>
        right
        rw [List.cons_append, List.cons_append] at hl
        injection hl with _ h2
        exact ih.mpr ⟨l', r, h2⟩

theorem strIncludes_iff (s sub : String) :
    strIncludes s sub = true ↔ ∃ l r, s.data = l ++ sub.data ++ r := by
  simpa [strIncludes] using hasSeq_iff sub.data s.data

theorem strIncludes_empty (s : String) : strIncludes s "" = true := by
  rw [strIncludes_iff]
  exact ⟨[], s.data, by simp⟩

/-! ## Utility lemmas: splitting and joining paths -/

theorem strEq_of_data {s t : String} (h : s.data = t.data) : s = t :=
  congrArg String.mk h

theorem splitChars_ne_nil (c : Char) (l : List Char) : splitChars c l ≠ [] := by
  cases l with
  | nil => simp [splitChars]
  | cons a as =>
    show (match splitChars c as with
      | [] => [[]]
      | s :: ss => if a = c then [] :: s :: ss else (a :: s) :: ss) ≠ []
    cases splitChars c as with
    | nil => simp
    | cons s ss =>
      by_cases hac : a = c <;> simp [hac]

theorem splitChars_cons_eq (c a : Char) (as s : List Char) (ss : List (List Char))
    (h : splitChars c as = s :: ss) :
    splitChars c (a :: as) = if a = c then [] :: s :: ss else (a :: s) :: ss := by
  show (match splitChars c as with
    | [] => [[]]
    | s :: ss => if a = c then [] :: s :: ss else (a :: s) :: ss) =
    if a = c then [] :: s :: ss else (a :: s) :: ss
  rw [h]

theorem splitChars_dest (c : Char) (as : List Char) :
    ∃ s ss, splitChars c as = s :: ss := by
  cases h : splitChars c as with
  | nil => exact absurd h (splitChars_ne_nil c as)
  | cons s ss => exact ⟨s, ss, rfl⟩

theorem joinChars_cons_cons (c : Char) (s t : List Char) (ts : List (List Char)) :
    joinChars c (s :: t :: ts) = s ++ c :: joinChars c (t :: ts) := rfl

theorem joinChars_splitChars (c : Char) (l : List Char) :
    joinChars c (splitChars c l) = l := by
  induction l with
  | nil => simp [splitChars, joinChars]
  | cons a as ih =>
    obtain ⟨s, ss, h⟩ := splitChars_dest c as
    rw [h] at ih
    rw [splitChars_cons_eq c a as s ss h]
    by_cases hac : a = c
    · rw [if_pos hac, joinChars_cons_cons, hac, ih]
      rfl
    · rw [if_neg hac]
      cases ss with
      | nil =>
        show a :: s = a :: as
        simp only [joinChars] at ih
        rw [ih]
      | cons t ts =>
        rw [joinChars_cons_cons] at ih
        show (a :: s) ++ c :: joinChars c (t :: ts) = a :: as
        rw [List.cons_append, ih]

theorem splitChars_no_sep (c : Char) (l : List Char) :
    ∀ g ∈ splitChars c l, c ∉ g := by
  induction l with
  | nil =>
    intro g hg
    have : g = [] := by simpa [splitChars] using hg
    simp [this]
  | cons a as ih =>
    intro g hg
    obtain ⟨s, ss, h⟩ := splitChars_dest c as
    rw [splitChars_cons_eq c a as s ss h] at hg
    by_cases hac : a = c
    · rw [if_pos hac] at hg
      rcases List.mem_cons.mp hg with hg | hg
      · simp [hg]
      · exact ih g (by rw [h]; exact hg)
    · rw [if_neg hac] at hg
      rcases List.mem_cons.mp hg with hg | hg
      · subst hg
        intro hc
        rcases List.mem_cons.mp hc with hc | hc
        · exact hac hc.symm
        · exact ih s (by rw [h]; exact List.mem_cons_self _ _) hc
      · exact ih g (by rw [h]; exact List.mem_cons_of_mem _ hg)

theorem splitChars_of_no_sep (c : Char) (l : List Char) (h : c ∉ l) :
    splitChars c l = [l] := by
  induction l with
  | nil => simp [splitChars]
  | cons a as ih =>
    have has : c ∉ as := fun hc => h (List.mem_cons_of_mem _ hc)
    have hac : a ≠ c := fun hc => h (by rw [hc]; exact List.mem_cons_self _ _)
    rw [splitChars_cons_eq c a as as [] (ih has), if_neg hac]

theorem splitChars_append_sep (c : Char) (A B : List Char) :
    splitChars c (A ++ c :: B) = splitChars c A ++ splitChars c B := by
  induction A with
  | nil =>
    obtain ⟨s, ss, h⟩ := splitChars_dest c B
    rw [List.nil_append, splitChars_cons_eq c c B s ss h, if_pos rfl, h]
    rfl
  | cons a A' ih =>
    obtain ⟨s, ss, h⟩ := splitChars_dest c A'
    obtain ⟨u, uu, h2⟩ := splitChars_dest c (A' ++ c :: B)
    rw [List.cons_append, splitChars_cons_eq c a (A' ++ c :: B) u uu h2,
      splitChars_cons_eq c a A' s ss h]
    rw [ih, h] at h2
    rw [List.cons_append] at h2
    injection h2 with hu huu
    subst hu; subst huu
    by_cases hac : a = c
    · rw [if_pos hac, if_pos hac]
      rfl
    · rw [if_neg hac, if_neg hac]
      rfl

theorem splitChars_joinChars (c : Char) (gs : List (List Char)) (hne : gs ≠ [])
    (hno : ∀ g ∈ gs, c ∉ g) : splitChars c (joinChars c gs) = gs := by
  induction gs with
  | nil => exact absurd rfl hne
  | cons s ss ih =>
    cases ss with
    | nil =>
      simp only [joinChars]
      exact splitChars_of_no_sep c s (hno s (List.mem_cons_self _ _))
    | cons t ts =>
      simp only [joinChars]
      rw [splitChars_append_sep, splitChars_of_no_sep c s (hno s (List.mem_cons_self _ _))]
      rw [ih (by simp) (fun g hg => hno g (List.mem_cons_of_mem _ hg))]
      rfl

theorem segs_ne_nil (p : String) : segs p ≠ [] := by
  unfold segs
  intro h
  exact splitChars_ne_nil '/' p.data (List.map_eq_nil_iff.mp h)

theorem joinSegs_segs (p : String) : joinSegs (segs p) = p := by
  apply strEq_of_data
  unfold joinSegs segs
  show joinChars '/' ((List.map (fun l => (⟨l⟩ : String)) (splitChars '/' p.data)).map String.data) = p.data
  rw [List.map_map]
  have : (String.data ∘ fun l => (⟨l⟩ : String)) = id := by
    funext l; rfl
  rw [this, List.map_id]
  exact joinChars_splitChars '/' p.data

theorem data_append_slash (a b : String) :
    (a ++ "/" ++ b).data = a.data ++ '/' :: b.data := by
  rw [String.data_append, String.data_append, List.append_assoc]
  rfl

theorem segs_append (a b : String) : segs (a ++ "/" ++ b) = segs a ++ segs b := by
  unfold segs
  rw [data_append_slash, splitChars_append_sep, List.map_append]

theorem no_slash_mem_segs (p : String) : ∀ s ∈ segs p, '/' ∉ s.data := by
  intro s hs
  unfold segs at hs
  obtain ⟨g, hg, hgs⟩ := List.mem_map.mp hs
  rw [← hgs]
  exact splitChars_no_sep '/' p.data g hg

theorem listLtb_cons_iff (a b : Char) (as bs : List Char) :
    listLtb (a :: as) (b :: bs) = true ↔ a < b ∨ (a = b ∧ listLtb as bs = true) := by
  show (if a < b then true else if b < a then false else listLtb as bs) = true ↔ _
  by_cases h1 : a < b
  · simp [h1]
  · by_cases h2 : b < a
    · have : a ≠ b := fun he => absurd h2 (by rw [he]; exact lt_irrefl b)
      simp [h1, h2, this]
    · have hab : a = b := le_antisymm (not_lt.mp h2) (not_lt.mp h1)
      simp [h1, h2, hab]

theorem listLtb_cons_false_iff (a b : Char) (as bs : List Char) :
    listLtb (a :: as) (b :: bs) = false ↔ b < a ∨ (a = b ∧ listLtb as bs = false) := by
  show (if a < b then true else if b < a then false else listLtb as bs) = false ↔ _
  by_cases h1 : a < b
  · have hne : a ≠ b := fun he => absurd h1 (by rw [he]; exact lt_irrefl b)
    have hnb : ¬ b < a := lt_asymm h1
    simp [h1, hnb, hne]
  · by_cases h2 : b < a
    · simp [h1, h2]
    · have hab : a = b := le_antisymm (not_lt.mp h2) (not_lt.mp h1)
      simp [h1, h2, hab]

theorem listLtb_antisymm : ∀ {a b : List Char},
    listLtb a b = false → listLtb b a = false → a = b
  | [], [], _, _ => rfl
  | [], _ :: _, h, _ => by simp [listLtb] at h
  | _ :: _, [], _, h => by simp [listLtb] at h
  | a :: as, b :: bs, h, h2 => by
    rcases (listLtb_cons_false_iff a b as bs).mp h with hba | ⟨hab, htail⟩
    · rcases (listLtb_cons_false_iff b a bs as).mp h2 with hab | ⟨hba2, _⟩
      · exact absurd hba (lt_asymm hab)
      · exact absurd hba (by rw [hba2]; exact lt_irrefl a)
    · rcases (listLtb_cons_false_iff b a bs as).mp h2 with hab2 | ⟨_, htail2⟩
      · exact absurd hab2 (by rw [hab]; exact lt_irrefl b)
      · rw [hab, listLtb_antisymm htail htail2]

theorem listLtb_le_trans : ∀ {a b c : List Char},
    listLtb b a = false → listLtb c b = false → listLtb c a = false
  | [], [], [], _, _ => rfl
  | _ :: _, [], [], h1, _ => by simp [listLtb] at h1
  | [], _ :: _, [], _, h2 => by simp [listLtb] at h2
  | _ :: _, _ :: _, [], h1, h2 => by simp [listLtb] at h2
  | [], [], _ :: _, h1, _ => rfl
  | _ :: _, [], _ :: _, h1, _ => by simp [listLtb] at h1
  | [], _ :: _, _ :: _, _, _ => rfl
  | a :: as, b :: bs, c :: cs, h1, h2 => by
    rcases (listLtb_cons_false_iff b a bs as).mp h1 with hab | ⟨hba, htail1⟩
    · rcases (listLtb_cons_false_iff c b cs bs).mp h2 with hbc | ⟨hcb, _⟩
      · exact (listLtb_cons_false_iff c a cs as).mpr (Or.inl (lt_trans hab hbc))
      · exact (listLtb_cons_false_iff c a cs as).mpr (Or.inl (by rw [hcb]; exact hab))
    · rcases (listLtb_cons_false_iff c b cs bs).mp h2 with hbc | ⟨hcb, htail2⟩
      · exact (listLtb_cons_false_iff c a cs as).mpr (Or.inl (by rw [← hba]; exact hbc))
      · exact (listLtb_cons_false_iff c a cs as).mpr
          (Or.inr ⟨by rw [hcb, hba], listLtb_le_trans htail1 htail2⟩)

theorem listLtb_asymm : ∀ {a b : List Char}, listLtb a b = true → listLtb b a = false
  | [], [], h => by simp [listLtb] at h
  | [], _ :: _, _ => rfl
  | _ :: _, [], h => by simp [listLtb] at h
  | a :: as, b :: bs, h => by
    rcases (listLtb_cons_iff a b as bs).mp h with hab | ⟨heq, htail⟩
    · exact (listLtb_cons_false_iff b a bs as).mpr (Or.inl hab)
    · exact (listLtb_cons_false_iff b a bs as).mpr (Or.inr ⟨heq.symm, listLtb_asymm htail⟩)

/-! ## Sorting lemmas -/

theorem insertSorted_perm (x : FileInfo) (l : List FileInfo) :
    (insertSorted x l).Perm (x :: l) := by
  induction l with
  | nil => exact List.Perm.refl _
  | cons y ys ih =>
    show (if pathLt y x then y :: insertSorted x ys else x :: y :: ys).Perm (x :: y :: ys)
    by_cases h : pathLt y x = true
    · rw [if_pos h]
      exact (List.Perm.cons y ih).trans (List.Perm.swap x y ys)
    · rw [if_neg h]

theorem sortFiles_perm (l : List FileInfo) : (sortFiles l).Perm l := by
  induction l with
  | nil => exact List.Perm.refl _
  | cons x xs ih =>
    show (insertSorted x (sortFiles xs)).Perm (x :: xs)
    exact (insertSorted_perm x (sortFiles xs)).trans (List.Perm.cons x ih)

theorem insertSorted_pairwise (x : FileInfo) :
    ∀ l : List FileInfo, l.Pairwise (fun u v => pathLt v u = false) →
      (insertSorted x l).Pairwise (fun u v => pathLt v u = false) := by
  intro l hl
  induction l with
  | nil => simp [insertSorted]
  | cons y ys ih =>
    rw [List.pairwise_cons] at hl
    obtain ⟨hy, hys⟩ := hl
    show (if pathLt y x then y :: insertSorted x ys else x :: y :: ys).Pairwise _
    by_cases h : pathLt y x = true
    · rw [if_pos h]
      refine List.pairwise_cons.mpr ⟨?_, ih hys⟩
      intro z hz
      have hz' : z ∈ x :: ys := (insertSorted_perm x ys).mem_iff.mp hz
      rcases List.mem_cons.mp hz' with rfl | hz'
      · exact listLtb_asymm h
      · exact hy z hz'
    · rw [if_neg h]
      have hf : pathLt y x = false := by
        cases hb : pathLt y x
        · rfl
        · exact absurd hb h
      refine List.pairwise_cons.mpr ⟨?_, List.pairwise_cons.mpr ⟨hy, hys⟩⟩
      intro z hz
      rcases List.mem_cons.mp hz with rfl | hz
      · exact hf
      · exact listLtb_le_trans hf (hy z hz)

theorem sortFiles_pairwise (l : List FileInfo) :
    (sortFiles l).Pairwise (fun u v => pathLt v u = false) := by
  induction l with
  | nil => simp [sortFiles]
  | cons x xs ih => exact insertSorted_pairwise x (sortFiles xs) ih

theorem sortFiles_map_path_eq {l₁ l₂ : List FileInfo} (h : l₁.Perm l₂) :
    (sortFiles l₁).map FileInfo.path = (sortFiles l₂).map FileInfo.path := by
  refine @List.eq_of_perm_of_sorted String
    (fun u v => listLtb v.data u.data = false)
    ⟨fun a b h1 h2 => strEq_of_data (listLtb_antisymm h2 h1)⟩ _ _ ?_ ?_ ?_
  · exact ((sortFiles_perm l₁).trans (h.trans (sortFiles_perm l₂).symm)).map _
  · exact List.pairwise_map.mpr (sortFiles_pairwise l₁)
  · exact List.pairwise_map.mpr (sortFiles_pairwise l₂)

/-! ## First-occurrence deduplication -/

theorem dedupFirstAux_cons (seen : List String) (b : String) (l : List String) :
    dedupFirstAux seen (b :: l) =
      if b ∈ seen then dedupFirstAux seen l else b :: dedupFirstAux (b :: seen) l := rfl

theorem mem_dedupFirstAux (seen l : List String) (a : String) :
    a ∈ dedupFirstAux seen l ↔ a ∈ l ∧ a ∉ seen := by
  induction l generalizing seen with
  | nil => simp [dedupFirstAux]
  | cons b bs ih =>
    rw [dedupFirstAux_cons]
    by_cases hb : b ∈ seen
    · rw [if_pos hb, ih]
      constructor
      · rintro ⟨hal, has⟩
        exact ⟨List.mem_cons_of_mem _ hal, has⟩
      · rintro ⟨hal, has⟩
        rcases List.mem_cons.mp hal with rfl | hal
        · exact absurd hb has
        · exact ⟨hal, has⟩
    · rw [if_neg hb]
      constructor
      · intro hm
        rcases List.mem_cons.mp hm with rfl | hm
        · exact ⟨List.mem_cons_self _ _, hb⟩
        · obtain ⟨hal, has⟩ := (ih (b :: seen)).mp hm
          exact ⟨List.mem_cons_of_mem _ hal, fun hs => has (List.mem_cons_of_mem _ hs)⟩
      · rintro ⟨hal, has⟩
        rcases List.mem_cons.mp hal with rfl | hal
        · exact List.mem_cons_self _ _
        · by_cases hab : a = b
          · subst hab
            exact List.mem_cons_self _ _
          · exact List.mem_cons_of_mem _
              ((ih _).mpr ⟨hal, fun hs => (List.mem_cons.mp hs).elim hab has⟩)

theorem nodup_dedupFirstAux (seen l : List String) : (dedupFirstAux seen l).Nodup := by
  induction l generalizing seen with
  | nil => simp [dedupFirstAux]
  | cons b bs ih =>
    rw [dedupFirstAux_cons]
    by_cases hb : b ∈ seen
    · rw [if_pos hb]
      exact ih seen
    · rw [if_neg hb]
      refine List.nodup_cons.mpr ⟨?_, ih _⟩
      intro hmem
      exact ((mem_dedupFirstAux _ _ _).mp hmem).2 (List.mem_cons_self _ _)

theorem mem_dedupFirst (l : List String) (a : String) : a ∈ dedupFirst l ↔ a ∈ l := by
  simp [dedupFirst, mem_dedupFirstAux]

theorem nodup_dedupFirst (l : List String) : (dedupFirst l).Nodup :=
  nodup_dedupFirstAux [] l

theorem dedupFirst_length_eq_card (l : List String) :
    (dedupFirst l).length = l.toFinset.card := by
  have h1 : (dedupFirst l).toFinset = l.toFinset := by
    apply Finset.ext
    intro a
    simp [List.mem_toFinset, mem_dedupFirst]
  rw [← h1, List.toFinset_card_of_nodup (nodup_dedupFirst l)]

theorem dedupFirstAux_append (seen l₁ l₂ : List String) :
    ∃ seen', dedupFirstAux seen (l₁ ++ l₂) =
        dedupFirstAux seen l₁ ++ dedupFirstAux seen' l₂
      ∧ ∀ a, a ∈ seen' ↔ a ∈ seen ∨ a ∈ l₁ := by
  induction l₁ generalizing seen with
  | nil => exact ⟨seen, by simp [dedupFirstAux], fun a => by simp⟩
  | cons b bs ih =>
    rw [List.cons_append, dedupFirstAux_cons, dedupFirstAux_cons]
    by_cases hb : b ∈ seen
    · obtain ⟨seen', heq, hmem⟩ := ih seen
      rw [if_pos hb, if_pos hb]
      refine ⟨seen', heq, fun a => ?_⟩
      rw [hmem a]
      constructor
      · rintro (ha | ha)
        · exact Or.inl ha
        · exact Or.inr (List.mem_cons_of_mem _ ha)
      · rintro (ha | ha)
        · exact Or.inl ha
        · rcases List.mem_cons.mp ha with rfl | ha
          · exact Or.inl hb
          · exact Or.inr ha
    · obtain ⟨seen', heq, hmem⟩ := ih (b :: seen)
      rw [if_neg hb, if_neg hb]
      refine ⟨seen', by rw [heq, List.cons_append], fun a => ?_⟩
      rw [hmem a]
      constructor
      · rintro (ha | ha)
        · rcases List.mem_cons.mp ha with rfl | ha
          · exact Or.inr (List.mem_cons_self _ _)
          · exact Or.inl ha
        · exact Or.inr (List.mem_cons_of_mem _ ha)
      · rintro (ha | ha)
        · exact Or.inl (List.mem_cons_of_mem _ ha)
        · rcases List.mem_cons.mp ha with rfl | ha
          · exact Or.inl (List.mem_cons_self _ _)
          · exact Or.inr ha

/-! ## Association-list lookup lemmas -/

theorem lookup_cons {β : Type} (a k : String) (b : β) (m : List (String × β)) :
    List.lookup a ((k, b) :: m) = if a = k then some b else List.lookup a m := by
  show (match a == k with | true => some b | false => List.lookup a m) = _
  by_cases h : a = k
  · rw [if_pos h]
    have : (a == k) = true := beq_iff_eq.mpr h
    rw [this]
  · rw [if_neg h]
    have : (a == k) = false := beq_eq_false_iff_ne.mpr h
    rw [this]

theorem lookup_append_left_none {β : Type} (k : String) (l₁ l₂ : List (String × β))
    (h : k ∉ l₁.map Prod.fst) :
    List.lookup k (l₁ ++ l₂) = List.lookup k l₂ := by
  induction l₁ with
  | nil => rfl
  | cons kv l ih =>
    obtain ⟨a, b⟩ := kv
    rw [List.cons_append, lookup_cons,
      if_neg (fun he => h (by rw [he]; exact List.mem_cons_self _ _))]
    exact ih (fun hm => h (List.mem_cons_of_mem _ hm))

theorem find?_eq_some_split {α : Type} (p : α → Bool) (l : List α) (x : α)
    (h : l.find? p = some x) :
    p x = true ∧ ∃ l₁ l₂, l = l₁ ++ x :: l₂ ∧ ∀ y ∈ l₁, p y = false := by
  induction l with
  | nil => simp [List.find?] at h
  | cons a as ih =>
    by_cases hp : p a = true
    · rw [List.find?_cons_of_pos _ hp] at h
      injection h with h
      subst h
      exact ⟨hp, [], as, rfl, by simp⟩
    · have hp' : p a = false := by
        cases hq : p a
        · rfl
        · exact absurd hq hp
      rw [List.find?_cons_of_neg _ hp] at h
      obtain ⟨hx, l₁, l₂, heq, hall⟩ := ih h
      refine ⟨hx, a :: l₁, l₂, by rw [heq, List.cons_append], ?_⟩
      intro y hy
      rcases List.mem_cons.mp hy with rfl | hy
      · exact hp'
      · exact hall y hy

theorem lookup_isSome_iff {β : Type} (k : String) (m : List (String × β)) :
    (m.lookup k).isSome = true ↔ k ∈ m.map Prod.fst := by
  induction m with
  | nil => simp [List.lookup]
  | cons kv m ih =>
    obtain ⟨a, b⟩ := kv
    rw [lookup_cons]
    by_cases h : k = a
    · simp [h]
    · rw [if_neg h]
      simp only [List.map_cons, List.mem_cons, ih]
      constructor
      · intro hm
        exact Or.inr hm
      · rintro (hm | hm)
        · exact absurd hm h
        · exact hm

theorem segs_joinSegs (l : List String) (hne : l ≠ [])
    (hno : ∀ s ∈ l, '/' ∉ s.data) : segs (joinSegs l) = l := by
  unfold segs joinSegs
  show (splitChars '/' (joinChars '/' (l.map String.data))).map (fun d => (⟨d⟩ : String)) = l
  rw [splitChars_joinChars '/' (l.map String.data)
    (by simpa using hne)
    (by
      intro g hg
      obtain ⟨s, hs, hsg⟩ := List.mem_map.mp hg
      rw [← hsg]
      exact hno s hs)]
  rw [List.map_map]
  have : ((fun d => (⟨d⟩ : String)) ∘ String.data) = id := by
    funext s; cases s; rfl
  rw [this, List.map_id]

/-! ## The visited-path chain of one entry -/

theorem joinSegs_single (s : String) : joinSegs [s] = s := by
  apply strEq_of_data
  rfl

theorem joinSegs_cons (s : String) (l : List String) (h : l ≠ []) :
    joinSegs (s :: l) = s ++ "/" ++ joinSegs l := by
  apply strEq_of_data
  rw [data_append_slash]
  show joinChars '/' (s.data :: l.map String.data) = _
  cases l with
  | nil => exact absurd rfl h
  | cons t ts => rfl

theorem runPathsAux_cons (cp part : String) (rest : List String) :
    runPathsAux cp (part :: rest) =
      (if cp = "" then part else cp ++ "/" ++ part)
        :: runPathsAux (if cp = "" then part else cp ++ "/" ++ part) rest := rfl

theorem runPathsAux_length (cp : String) (l : List String) :
    (runPathsAux cp l).length = l.length := by
  induction l generalizing cp with
  | nil => rfl
  | cons part rest ih =>
    rw [runPathsAux_cons, List.length_cons, ih]
    rfl

theorem append_slash_ne_empty (a b : String) : a ++ "/" ++ b ≠ "" := by
  intro he
  have hd := congrArg String.data he
  rw [data_append_slash] at hd
  exact absurd hd (by simp)

theorem string_append_assoc_slash (a b c : String) :
    (a ++ "/" ++ b) ++ "/" ++ c = a ++ "/" ++ (b ++ "/" ++ c) := by
  apply strEq_of_data
  rw [data_append_slash, data_append_slash, data_append_slash, data_append_slash]
  simp

theorem runPathsAux_of_ne (cp : String) (hcp : cp ≠ "") (l : List String) :
    runPathsAux cp l =
      (List.range l.length).map (fun j => cp ++ "/" ++ joinSegs (l.take (j + 1))) := by
  induction l generalizing cp with
  | nil => rfl
  | cons part rest ih =>
    rw [runPathsAux_cons, if_neg hcp]
    rw [ih (cp ++ "/" ++ part) (append_slash_ne_empty cp part)]
    show _ = (List.range (rest.length + 1)).map _
    rw [List.range_succ_eq_map, List.map_cons, List.map_map]
    refine congrArg₂ List.cons ?_ ?_
    · show cp ++ "/" ++ part = cp ++ "/" ++ joinSegs [part]
      rw [joinSegs_single]
    · apply List.map_congr_left
      intro j hj
      have hjlt : j < rest.length := List.mem_range.mp hj
      show (cp ++ "/" ++ part) ++ "/" ++ joinSegs (rest.take (j + 1)) =
        cp ++ "/" ++ joinSegs (part :: rest.take (j + 1))
      rw [joinSegs_cons part (rest.take (j + 1)) (by
          intro he
          have := congrArg List.length he
          simp only [List.length_take, List.length_nil] at this
          omega),
        string_append_assoc_slash]

theorem runPaths_wf_eq (p : String) (hwf : wfPath p) :
    runPaths p =
      (List.range (segs p).length).map (fun j => joinSegs ((segs p).take (j + 1))) := by
  unfold runPaths
  cases hs : segs p with
  | nil => exact absurd hs (segs_ne_nil p)
  | cons s rest =>
    have hsne : s ≠ "" := by
      unfold wfPath at hwf
      rw [hs] at hwf
      simpa using hwf
    rw [runPathsAux_cons, if_pos rfl, runPathsAux_of_ne s hsne rest]
    show _ = (List.range (rest.length + 1)).map _
    rw [List.range_succ_eq_map, List.map_cons, List.map_map]
    refine congrArg₂ List.cons ?_ ?_
    · show s = joinSegs [s]
      rw [joinSegs_single]
    · apply List.map_congr_left
      intro j hj
      have hjlt : j < rest.length := List.mem_range.mp hj
      show s ++ "/" ++ joinSegs (rest.take (j + 1)) =
        joinSegs (s :: rest.take (j + 1))
      rw [joinSegs_cons s (rest.take (j + 1)) (by
          intro he
          have := congrArg List.length he
          simp only [List.length_take, List.length_nil] at this
          omega)]

theorem runPaths_wf_split (p : String) (hwf : wfPath p) :
    runPaths p = dirAncestors p ++ [p] := by
  rw [runPaths_wf_eq p hwf]
  have hlen : (segs p).length = ((segs p).length - 1) + 1 := by
    have := segs_ne_nil p
    have hpos : 0 < (segs p).length := List.length_pos.mpr this
    omega
  rw [hlen, List.range_succ, List.map_append]
  unfold dirAncestors
  congr 1
  rw [List.map_singleton, ← hlen, List.take_length, joinSegs_segs]

theorem mem_runPaths_iff (p q : String) (hwf : wfPath q) :
    p ∈ runPaths q ↔ ∃ t, segs p ++ t = segs q := by
  rw [runPaths_wf_eq q hwf]
  constructor
  · intro hm
    obtain ⟨j, hj, hpj⟩ := List.mem_map.mp hm
    have hjlt : j < (segs q).length := List.mem_range.mp hj
    have htk : segs (joinSegs ((segs q).take (j + 1))) = (segs q).take (j + 1) := by
      apply segs_joinSegs
      · intro he
        have := congrArg List.length he
        simp only [List.length_take, List.length_nil] at this
        omega
      · intro s hs
        exact no_slash_mem_segs q s (List.mem_of_mem_take hs)
    rw [← hpj, htk]
    exact ⟨(segs q).drop (j + 1), List.take_append_drop _ _⟩
  · rintro ⟨t, ht⟩
    have hlen : (segs p).length ≤ (segs q).length := by
      have := congrArg List.length ht
      simp only [List.length_append] at this
      omega
    have hppos : 0 < (segs p).length := List.length_pos.mpr (segs_ne_nil p)
    refine List.mem_map.mpr ⟨(segs p).length - 1, List.mem_range.mpr (by omega), ?_⟩
    have htake : (segs q).take ((segs p).length - 1 + 1) = segs p := by
      rw [show (segs p).length - 1 + 1 = (segs p).length from by omega]
      rw [← ht, List.take_left]
    rw [htake, joinSegs_segs]

/-! ## Helpers toward the build-state invariant -/

theorem contains_iff_mem (l : List String) (a : String) : l.contains a = true ↔ a ∈ l := by
  induction l with
  | nil => simp [List.contains]
  | cons b bs ih =>
    show (match a == b with | true => true | false => bs.contains a) = true ↔ _
    by_cases h : a = b
    · subst h
      rw [show (a == a) = true from beq_iff_eq.mpr rfl]
      simp
    · rw [show (a == b) = false from beq_eq_false_iff_ne.mpr h]
      rw [List.mem_cons]
      constructor
      · intro hc
        exact Or.inr (ih.mp hc)
      · rintro (rfl | hm)
        · exact absurd rfl h
        · exact ih.mpr hm

theorem findIdx_append_false {α : Type} (p : α → Bool) (l₁ l₂ : List α)
    (h : ∀ x ∈ l₁, p x = false) :
    List.findIdx p (l₁ ++ l₂) = l₁.length + List.findIdx p l₂ := by
  induction l₁ with
  | nil => simp
  | cons a as ih =>
    have ha : p a = false := h a (List.mem_cons_self _ _)
    rw [List.cons_append, List.findIdx_cons, ha, cond_false,
      ih (fun x hx => h x (List.mem_cons_of_mem _ hx))]
    simp only [List.length_cons]
    omega

theorem findIdx_append_lt {α : Type} [DecidableEq α] (a : α) (l₁ l₂ : List α)
    (h : a ∈ l₁) :
    List.findIdx (fun q => q == a) (l₁ ++ l₂) < l₁.length := by
  induction l₁ with
  | nil => exact absurd h (by simp)
  | cons b bs ih =>
    rw [List.cons_append, List.findIdx_cons]
    by_cases hb : b = a
    · rw [show (b == a) = true from beq_iff_eq.mpr hb, cond_true]
      simp
    · rw [show (b == a) = false from beq_eq_false_iff_ne.mpr hb, cond_false]
      have : a ∈ bs := by
        rcases List.mem_cons.mp h with rfl | hm
        · exact absurd rfl hb
        · exact hm
      have := ih this
      simp only [List.length_cons]
      omega

theorem getD_append_length {α : Type} (l₁ : List α) (a : α) (l₂ : List α) (d : α) :
    (l₁ ++ a :: l₂).getD l₁.length d = a := by
  induction l₁ with
  | nil => rfl
  | cons b bs ih => simpa using ih

theorem ne_append_slash_left (cp part : String) : cp ++ "/" ++ part ≠ cp := by
  intro he
  have hd := congrArg (fun s => s.data.length) he
  simp only [data_append_slash, List.length_append, List.length_cons] at hd
  omega

/-! ### `appendChild` lemmas -/

theorem appendChild_map_fst (m : List (String × List String)) (k q : String) :
    (appendChild m k q).map Prod.fst = m.map Prod.fst := by
  unfold appendChild
  rw [List.map_map]
  apply List.map_congr_left
  intro kv _
  by_cases h : kv.1 = k <;> simp [h]

theorem appendChild_of_not_mem (m : List (String × List String)) (k q : String)
    (h : k ∉ m.map Prod.fst) : appendChild m k q = m := by
  induction m with
  | nil => rfl
  | cons kv m' ih =>
    have h1 : kv.1 ≠ k := fun he => h (by rw [← he]; exact List.mem_map_of_mem _ (List.mem_cons_self _ _))
    show (if kv.1 = k then (kv.1, kv.2 ++ [q]) else kv) :: appendChild m' k q = kv :: m'
    rw [if_neg h1, ih (fun hm => h (by
      rw [List.map_cons]
      exact List.mem_cons_of_mem _ hm))]

theorem appendChild_lookup_self (m : List (String × List String)) (k q : String)
    (cs : List String) (hcs : m.lookup k = some cs)
    (hnodup : (m.map Prod.fst).Nodup) :
    (appendChild m k q).lookup k = some (cs ++ [q]) := by
  induction m with
  | nil => simp [List.lookup] at hcs
  | cons kv m' ih =>
    obtain ⟨a, b⟩ := kv
    rw [lookup_cons] at hcs
    rw [List.map_cons] at hnodup
    have hnd := List.nodup_cons.mp hnodup
    by_cases hka : k = a
    · rw [if_pos hka] at hcs
      injection hcs with hb
      subst hb
      subst hka
      show List.lookup k ((if k = k then (k, b ++ [q]) else (k, b)) :: appendChild m' k q) = _
      rw [if_pos rfl, lookup_cons, if_pos rfl]
    · rw [if_neg hka] at hcs
      show List.lookup k ((if a = k then (a, b ++ [q]) else (a, b)) :: appendChild m' k q) = _
      rw [if_neg (fun he => hka he.symm), lookup_cons, if_neg hka]
      exact ih hcs hnd.2

theorem appendChild_lookup_other (m : List (String × List String)) (k q p : String)
    (hne : p ≠ k) : (appendChild m k q).lookup p = m.lookup p := by
  induction m with
  | nil => rfl
  | cons kv m' ih =>
    obtain ⟨a, b⟩ := kv
    by_cases hak : a = k
    · subst hak
      show List.lookup p ((if a = a then (a, b ++ [q]) else (a, b)) :: appendChild m' a q) = _
      rw [if_pos rfl, lookup_cons, if_neg (by exact fun he => hne he), lookup_cons,
        if_neg (fun he => hne he)]
      exact ih
    · show List.lookup p ((if a = k then (a, b ++ [q]) else (a, b)) :: appendChild m' k q) = _
      rw [if_neg hak, lookup_cons, lookup_cons]
      by_cases hpa : p = a
      · rw [if_pos hpa, if_pos hpa]
      · rw [if_neg hpa, if_neg hpa]
        exact ih

theorem appendChild_flatten_perm (m : List (String × List String)) (k q : String)
    (cs : List String) (hcs : m.lookup k = some cs)
    (hnodup : (m.map Prod.fst).Nodup) :
    ((appendChild m k q).map Prod.snd).flatten.Perm
      ((m.map Prod.snd).flatten ++ [q]) := by
  induction m with
  | nil => simp [List.lookup] at hcs
  | cons kv m' ih =>
    obtain ⟨a, b⟩ := kv
    rw [lookup_cons] at hcs
    rw [List.map_cons] at hnodup
    have hnd := List.nodup_cons.mp hnodup
    by_cases hka : k = a
    · subst hka
      have hknot : k ∉ m'.map Prod.fst := hnd.1
      show (((if k = k then (k, b ++ [q]) else (k, b)) :: appendChild m' k q).map Prod.snd).flatten.Perm _
      rw [if_pos rfl, appendChild_of_not_mem m' k q hknot]
      rw [List.map_cons, List.flatten_cons, List.map_cons, List.flatten_cons]
      rw [List.append_assoc, List.append_assoc]
      exact List.Perm.append_left b List.perm_append_comm
    · rw [if_neg hka] at hcs
      show (((if a = k then (a, b ++ [q]) else (a, b)) :: appendChild m' k q).map Prod.snd).flatten.Perm _
      rw [if_neg (fun he => hka he.symm)]
      rw [List.map_cons, List.flatten_cons, List.map_cons, List.flatten_cons, List.append_assoc]
      exact List.Perm.append_left b (ih hcs hnd.2)

/-! ### `mkNodeData` lemmas -/

theorem mkNodeData_creation (e : FileInfo) (consumed : List String) (part : String)
    (rest' : List String) (visited : List String) (np : String)
    (hsegs : segs e.path = consumed ++ part :: rest')
    (hrun : runPaths e.path = visited ++ np :: runPathsAux np rest')
    (hlen : visited.length = consumed.length)
    (hnp : np ∉ visited) :
    mkNodeData e np =
      { name := part
        type := if rest'.isEmpty then NodeType.file else NodeType.folder
        size := if rest'.isEmpty then some e.size else none
        mimeType := if rest'.isEmpty then some e.mimeType else none
        contentType := if rest'.isEmpty then some e.contentType else none
        modified := if rest'.isEmpty then some e.modified else none } := by
  have hidx : reachIdx e np = consumed.length := by
    unfold reachIdx
    rw [hrun, findIdx_append_false _ _ _
      (fun x hx => beq_eq_false_iff_ne.mpr (fun he => hnp (by rw [← he]; exact hx)))]
    rw [List.findIdx_cons, show (np == np) = true from beq_iff_eq.mpr rfl, cond_true, hlen]
    omega
  have hname : (segs e.path).getD (reachIdx e np) "" = part := by
    rw [hidx, hsegs, getD_append_length]
  have hlentot : (segs e.path).length = consumed.length + 1 + rest'.length := by
    rw [hsegs]
    simp only [List.length_append, List.length_cons]
    omega
  cases rest' with
  | nil =>
    have hcond : reachIdx e np = (segs e.path).length - 1 := by
      rw [hidx, hlentot]
      simp
    unfold mkNodeData
    rw [hname, hcond]
    simp
  | cons r rs =>
    have hcond : ¬ reachIdx e np = (segs e.path).length - 1 := by
      rw [hidx, hlentot]
      simp only [List.length_cons]
      omega
    unfold mkNodeData
    rw [hname, if_neg hcond, if_neg hcond, if_neg hcond, if_neg hcond, if_neg hcond]
    simp [List.isEmpty]

theorem mem_dirAncestors_segs (q p : String) (hp : p ∈ dirAncestors q) :
    ∃ j, j + 1 < (segs q).length ∧ segs p = (segs q).take (j + 1) := by
  unfold dirAncestors at hp
  obtain ⟨j, hj, hpj⟩ := List.mem_map.mp hp
  have hjlt : j < (segs q).length - 1 := List.mem_range.mp hj
  have hpos : 0 < (segs q).length := List.length_pos.mpr (segs_ne_nil q)
  refine ⟨j, by omega, ?_⟩
  rw [← hpj]
  apply segs_joinSegs
  · intro he
    have := congrArg List.length he
    simp only [List.length_take, List.length_nil] at this
    omega
  · intro s hs
    exact no_slash_mem_segs q s (List.mem_of_mem_take hs)

theorem mem_dirAncestors_ne (q p : String) (hp : p ∈ dirAncestors q) : p ≠ q := by
  obtain ⟨j, hj, hsegs⟩ := mem_dirAncestors_segs q p hp
  intro he
  subst he
  have := congrArg List.length hsegs
  simp only [List.length_take] at this
  omega

theorem dirAncestors_length (p : String) :
    (dirAncestors p).length = (segs p).length - 1 := by
  unfold dirAncestors
  simp

theorem mkNodeData_type_wf (x : FileInfo) (p : String) (hwf : wfPath x.path)
    (hmem : p ∈ runPaths x.path) :
    ((mkNodeData x p).type = NodeType.file ↔ p = x.path) := by
  have hsplit := runPaths_wf_split x.path hwf
  rw [hsplit] at hmem
  unfold mkNodeData
  simp only
  rcases List.mem_append.mp hmem with hanc | hlast
  · have hne : p ≠ x.path := mem_dirAncestors_ne x.path p hanc
    have hlt : reachIdx x p < (dirAncestors x.path).length := by
      unfold reachIdx
      rw [hsplit]
      exact findIdx_append_lt p _ _ hanc
    rw [dirAncestors_length] at hlt
    have hcond : ¬ reachIdx x p = (segs x.path).length - 1 := by omega
    rw [if_neg hcond]
    constructor
    · intro h
      exact absurd h (by simp)
    · intro h
      exact absurd h hne
  · have hpe : p = x.path := List.mem_singleton.mp hlast
    have hnot : p ∉ dirAncestors x.path := fun hm => mem_dirAncestors_ne x.path p hm hpe
    have hidx : reachIdx x p = (dirAncestors x.path).length := by
      unfold reachIdx
      rw [hsplit, findIdx_append_false _ _ _
        (fun y hy => beq_eq_false_iff_ne.mpr (fun he => hnot (by rw [← he]; exact hy)))]
      rw [List.findIdx_cons, show (x.path == p) = true from beq_iff_eq.mpr hpe.symm, cond_true]
      omega
    have hpos : 0 < (segs x.path).length := List.length_pos.mpr (segs_ne_nil x.path)
    have hcond : reachIdx x p = (segs x.path).length - 1 := by
      rw [hidx, dirAncestors_length]
    rw [if_pos hcond]
    simp [hpe]

theorem mkNodeData_file_fields (x : FileInfo) (p : String)
    (h : (mkNodeData x p).type = NodeType.file) :
    (mkNodeData x p).size = some x.size ∧ (mkNodeData x p).mimeType = some x.mimeType
      ∧ (mkNodeData x p).contentType = some x.contentType
      ∧ (mkNodeData x p).modified = some x.modified := by
  unfold mkNodeData at h ⊢
  simp only at h ⊢
  by_cases hc : reachIdx x p = (segs x.path).length - 1
  · rw [if_pos hc, if_pos hc, if_pos hc, if_pos hc]
    exact ⟨rfl, rfl, rfl, rfl⟩
  · rw [if_neg hc] at h
    exact absurd h (by simp)

theorem lookup_some_mem_snd {β : Type} (m : List (String × β)) (k : String) (v : β)
    (h : m.lookup k = some v) : v ∈ m.map Prod.snd := by
  induction m with
  | nil => simp [List.lookup] at h
  | cons kv m' ih =>
    obtain ⟨a, b⟩ := kv
    rw [lookup_cons] at h
    by_cases hka : k = a
    · rw [if_pos hka] at h
      injection h with h
      rw [List.map_cons]
      exact h ▸ List.mem_cons_self _ _
    · rw [if_neg hka] at h
      rw [List.map_cons]
      exact List.mem_cons_of_mem _ (ih h)

/-! ## The one-step invariant preservation -/

/-- Under `goodEntries`, a freshly created node's parent can never be a
file node: reaching the drop branch of `insertPart` is impossible. -/
theorem drop_impossible
    (done : List FileInfo) (e : FileInfo) (visited : List String) (cp : String)
    (tail : List String) (htail : tail ≠ [])
    (st : BuildState)
    (hGood : goodEntries (done ++ [e]))
    (hrunsplit : runPaths e.path = visited ++ tail)
    (hcpv : cp ∈ visited)
    (hcpfile : ∃ nd, st.nodes.lookup cp = some nd ∧ nd.type = NodeType.file)
    (hdata : ∀ p nd, st.nodes.lookup p = some nd →
      (∃ x, findReacher done p = some x ∧ nd = mkNodeData x p)
      ∨ (findReacher done p = none ∧ p ∈ visited ∧ nd = mkNodeData e p)) :
    False := by
  have hwfe : wfPath e.path := hGood.2.2 e (List.mem_append_right _ (List.mem_singleton.mpr rfl))
  have hsplit := runPaths_wf_split e.path hwfe
  have hvt : visited ++ tail = dirAncestors e.path ++ [e.path] := hrunsplit.symm.trans hsplit
  have hlenv : visited.length ≤ (dirAncestors e.path).length := by
    have h1 : visited.length + tail.length = (dirAncestors e.path).length + 1 := by
      have := congrArg List.length hvt
      simpa using this
    have h2 : 0 < tail.length := List.length_pos.mpr htail
    omega
  have hvis_take : visited = (dirAncestors e.path).take visited.length := by
    have h2 := congrArg (List.take visited.length) hvt
    rw [List.take_left, List.take_append_of_le_length hlenv] at h2
    exact h2
  have hcpanc : cp ∈ dirAncestors e.path := by
    rw [hvis_take] at hcpv
    exact List.mem_of_mem_take hcpv
  have hcne : cp ≠ e.path := mem_dirAncestors_ne e.path cp hcpanc
  have hcp_pre : segStrictPre cp e.path := by
    obtain ⟨j, hj, hsegcp⟩ := mem_dirAncestors_segs e.path cp hcpanc
    exact ⟨⟨(segs e.path).drop (j + 1), by rw [hsegcp, List.take_append_drop]⟩, hcne⟩
  have hcp_run_e : cp ∈ runPaths e.path := by
    rw [hrunsplit]
    exact List.mem_append_left _ hcpv
  obtain ⟨ndc, hndc, hfile⟩ := hcpfile
  rcases hdata cp ndc hndc with ⟨x, hfx, hmk⟩ | ⟨_, _, hmk⟩
  · have hx_mem : x ∈ done := List.mem_of_find?_eq_some hfx
    have hx_pred := List.find?_some hfx
    have hx_reach : cp ∈ runPaths x.path := (contains_iff_mem _ _).mp hx_pred
    have hwfx : wfPath x.path := hGood.2.2 x (List.mem_append_left _ hx_mem)
    have hxcp : cp = x.path := by
      rw [hmk] at hfile
      exact (mkNodeData_type_wf x cp hwfx hx_reach).mp hfile
    exact hGood.2.1 x (List.mem_append_left _ hx_mem) e
      (List.mem_append_right _ (List.mem_singleton.mpr rfl))
      (by rw [← hxcp]; exact hcp_pre)
  · rw [hmk] at hfile
    exact hcne ((mkNodeData_type_wf e cp hwfe hcp_run_e).mp hfile)

/-- One `insertPart` step preserves the mid-entry invariant. -/
theorem insertPart_mid
    (done : List FileInfo) (e : FileInfo) (visited consumed : List String)
    (cp np part : String) (rest' : List String) (st : BuildState)
    (hinv : MidInv done e visited st)
    (hsegs : segs e.path = consumed ++ part :: rest')
    (hrun : runPaths e.path = visited ++ runPathsAux cp (part :: rest'))
    (hlen : visited.length = consumed.length)
    (hcpv : cp = "" ∨ cp ∈ visited)
    (hnp : np = if cp = "" then part else cp ++ "/" ++ part) :
    MidInv done e (visited ++ [np]) (insertPart e cp np part rest'.isEmpty st) := by
  have hrun' : runPaths e.path = visited ++ np :: runPathsAux np rest' := by
    rw [hrun, runPathsAux_cons, ← hnp]
  have hDmem : ∀ p, p ∈ st.nodes.map Prod.fst ↔
      (p ∈ done.flatMap (fun x => runPaths x.path) ∨ p ∈ visited) := by
    intro p
    rw [← List.mem_reverse, hinv.trace, mem_dedupFirst, List.mem_append]
  by_cases hex : (st.nodes.lookup np).isSome = true
  · -- the node already exists: the step is a no-op
    have hstep : insertPart e cp np part rest'.isEmpty st = st := by
      unfold insertPart
      rw [if_pos hex]
    rw [hstep]
    have hnpmem : np ∈ done.flatMap (fun x => runPaths x.path) ∨ np ∈ visited :=
      (hDmem np).mp ((lookup_isSome_iff np st.nodes).mp hex)
    have htrace' : dedupFirst (done.flatMap (fun x => runPaths x.path) ++ (visited ++ [np]))
        = dedupFirst (done.flatMap (fun x => runPaths x.path) ++ visited) := by
      rw [← List.append_assoc]
      obtain ⟨seen', heq, hm⟩ :=
        dedupFirstAux_append [] (done.flatMap (fun x => runPaths x.path) ++ visited) [np]
      unfold dedupFirst
      rw [heq, dedupFirstAux_cons,
        if_pos ((hm np).mpr (Or.inr (List.mem_append.mpr hnpmem)))]
      simp [dedupFirstAux]
    exact
      { trace := by rw [htrace']; exact hinv.trace
        rootsSub := hinv.rootsSub
        childSub := hinv.childSub
        folderIff := hinv.folderIff
        childKeysNodup := hinv.childKeysNodup
        childShape := hinv.childShape
        attachNodup := hinv.attachNodup
        attachKeys := hinv.attachKeys
        dataChar := by
          intro p nd hp
          rcases hinv.dataChar p nd hp with h | ⟨h1, h2, h3⟩
          · exact Or.inl h
          · exact Or.inr ⟨h1, List.mem_append.mpr (Or.inl h2), h3⟩
        rootsFree := hinv.rootsFree
        attachTotal := hinv.attachTotal }
  · -- a fresh node is created
    have hfresh : np ∉ st.nodes.map Prod.fst := by
      intro hm
      exact hex ((lookup_isSome_iff np st.nodes).mpr hm)
    obtain ⟨hnpD, hnpv⟩ : np ∉ done.flatMap (fun x => runPaths x.path) ∧ np ∉ visited := by
      constructor
      · intro h
        exact hfresh ((hDmem np).mpr (Or.inl h))
      · intro h
        exact hfresh ((hDmem np).mpr (Or.inr h))
    have hmkeq : mkNodeData e np = createdData e part rest'.isEmpty :=
      mkNodeData_creation e consumed part rest' visited np hsegs hrun' hlen hnpv
    have hnpChildNone : st.childrenOf.lookup np = none := by
      cases hc : st.childrenOf.lookup np with
      | none => rfl
      | some cs =>
        obtain ⟨nd, hnd, _⟩ := (hinv.folderIff np).mp (by rw [hc]; rfl)
        exact absurd (by rw [hnd]; rfl) hex
    have hnpChildKeys : np ∉ st.childrenOf.map Prod.fst := by
      intro hm
      obtain ⟨v, hv⟩ := Option.isSome_iff_exists.mp ((lookup_isSome_iff np st.childrenOf).mpr hm)
      rw [hv] at hnpChildNone
      exact Option.noConfusion hnpChildNone
    have htrace' : dedupFirst (done.flatMap (fun x => runPaths x.path) ++ (visited ++ [np]))
        = dedupFirst (done.flatMap (fun x => runPaths x.path) ++ visited) ++ [np] := by
      rw [← List.append_assoc]
      obtain ⟨seen', heq, hm⟩ :=
        dedupFirstAux_append [] (done.flatMap (fun x => runPaths x.path) ++ visited) [np]
      unfold dedupFirst
      rw [heq, dedupFirstAux_cons, if_neg (by
        intro hmem
        rcases (hm np).mp hmem with h | h
        · exact absurd h (by simp)
        · rcases List.mem_append.mp h with h | h
          · exact hnpD h
          · exact hnpv h)]
      simp [dedupFirstAux]
    -- the children table of the intermediate state st1
    have hchild1_other : ∀ p, p ≠ np →
        (if rest'.isEmpty then st.childrenOf else (np, []) :: st.childrenOf).lookup p
          = st.childrenOf.lookup p := by
      intro p hpne
      by_cases h : rest'.isEmpty = true
      · rw [if_pos h]
      · rw [if_neg h, lookup_cons, if_neg hpne]
    have hchild1_np :
        (if rest'.isEmpty then st.childrenOf else (np, []) :: st.childrenOf).lookup np
          = if rest'.isEmpty then none else some [] := by
      by_cases h : rest'.isEmpty = true
      · rw [if_pos h, if_pos h]
        exact hnpChildNone
      · rw [if_neg h, if_neg h, lookup_cons, if_pos rfl]
    have hchild1_fst :
        ((if rest'.isEmpty then st.childrenOf else (np, []) :: st.childrenOf).map Prod.fst).Nodup := by
      by_cases h : rest'.isEmpty = true
      · rw [if_pos h]
        exact hinv.childKeysNodup
      · rw [if_neg h, List.map_cons]
        exact List.nodup_cons.mpr ⟨hnpChildKeys, hinv.childKeysNodup⟩
    have hchild1_flatten :
        (((if rest'.isEmpty then st.childrenOf else (np, []) :: st.childrenOf).map Prod.snd).flatten)
          = ((st.childrenOf.map Prod.snd).flatten) := by
      by_cases h : rest'.isEmpty = true
      · rw [if_pos h]
      · rw [if_neg h, List.map_cons, List.flatten_cons]
        rfl
    have hnodes'_np : ((np, createdData e part rest'.isEmpty) :: st.nodes).lookup np
        = some (createdData e part rest'.isEmpty) := by
      rw [lookup_cons, if_pos rfl]
    have hnodes'_other : ∀ p, p ≠ np →
        ((np, createdData e part rest'.isEmpty) :: st.nodes).lookup p = st.nodes.lookup p := by
      intro p hpne
      rw [lookup_cons, if_neg hpne]
    have hkeys' : (((np, createdData e part rest'.isEmpty) :: st.nodes).map Prod.fst).reverse
        = (st.nodes.map Prod.fst).reverse ++ [np] := by
      rw [List.map_cons, List.reverse_cons]
    have hfindNone : findReacher done np = none := by
      apply List.find?_eq_none.mpr
      intro x hx hcont
      exact hnpD (List.mem_flatMap.mpr ⟨x, hx, (contains_iff_mem _ _).mp hcont⟩)
    have hdataChar' : ∀ p nd,
        ((np, createdData e part rest'.isEmpty) :: st.nodes).lookup p = some nd →
        (∃ x, findReacher done p = some x ∧ nd = mkNodeData x p)
        ∨ (findReacher done p = none ∧ p ∈ visited ++ [np] ∧ nd = mkNodeData e p) := by
      intro p nd hp
      by_cases hpe : p = np
      · subst hpe
        rw [hnodes'_np] at hp
        injection hp with hp
        exact Or.inr ⟨hfindNone, List.mem_append.mpr (Or.inr (List.mem_singleton.mpr rfl)),
          by rw [← hp, hmkeq]⟩
      · rw [hnodes'_other p hpe] at hp
        rcases hinv.dataChar p nd hp with h | ⟨h1, h2, h3⟩
        · exact Or.inl h
        · exact Or.inr ⟨h1, List.mem_append.mpr (Or.inl h2), h3⟩
    have hattachKeys_lift : ∀ q, (st.nodes.lookup q).isSome = true →
        (((np, createdData e part rest'.isEmpty) :: st.nodes).lookup q).isSome = true := by
      intro q hq
      by_cases hqe : q = np
      · subst hqe
        rw [hnodes'_np]
        rfl
      · rw [hnodes'_other q hqe]
        exact hq
    have hpart_free : '/' ∉ part.data := by
      apply no_slash_mem_segs e.path
      rw [hsegs]
      exact List.mem_append_right _ (List.mem_cons_self _ _)
    -- shared sub-proofs about the node freshly registered at np
    have hfolder_np :
        ((if rest'.isEmpty then st.childrenOf else (np, []) :: st.childrenOf).lookup np).isSome = true
          ↔ ∃ nd, ((np, createdData e part rest'.isEmpty) :: st.nodes).lookup np = some nd
              ∧ nd.type = NodeType.folder := by
      rw [hchild1_np, hnodes'_np]
      by_cases h : rest'.isEmpty = true
      · rw [if_pos h]
        constructor
        · intro hfalse
          exact absurd hfalse (by simp)
        · rintro ⟨nd, hnd, hty⟩
          injection hnd with hnd
          rw [← hnd] at hty
          have hty' : (if rest'.isEmpty = true then NodeType.file else NodeType.folder)
              = NodeType.folder := hty
          rw [if_pos h] at hty'
          exact absurd hty' (by simp)
      · rw [if_neg h]
        constructor
        · intro _
          refine ⟨createdData e part rest'.isEmpty, rfl, ?_⟩
          show (if rest'.isEmpty = true then NodeType.file else NodeType.folder)
            = NodeType.folder
          rw [if_neg h]
        · intro _
          rfl
    have hchildval_np : ∀ cs,
        (if rest'.isEmpty then st.childrenOf else (np, []) :: st.childrenOf).lookup np = some cs →
          cs = [] := by
      intro cs hp
      rw [hchild1_np] at hp
      by_cases h : rest'.isEmpty = true
      · rw [if_pos h] at hp
        exact Option.noConfusion hp
      · rw [if_neg h] at hp
        injection hp with hp
        exact hp.symm
    -- now the three branches of insertPart
    by_cases hcp0 : cp = ""
    · -- root branch
      have hstep : insertPart e cp np part rest'.isEmpty st =
          { roots := st.roots ++ [np]
            nodes := (np, createdData e part rest'.isEmpty) :: st.nodes
            childrenOf := if rest'.isEmpty then st.childrenOf else (np, []) :: st.childrenOf } := by
        unfold insertPart
        rw [if_neg hex, if_pos hcp0]
      rw [hstep]
      have hnppart : np = part := by rw [hnp, if_pos hcp0]
      have hattached' : attachedList
          { roots := st.roots ++ [np]
            nodes := (np, createdData e part rest'.isEmpty) :: st.nodes
            childrenOf := if rest'.isEmpty then st.childrenOf else (np, []) :: st.childrenOf }
          = (st.roots ++ [np]) ++ (st.childrenOf.map Prod.snd).flatten := by
        unfold attachedList
        rw [hchild1_flatten]
      have hnp_notattach : np ∉ attachedList st := by
        intro hm
        exact hex (hinv.attachKeys np hm)
      refine
        { trace := ?_
          rootsSub := ?_
          childSub := ?_
          folderIff := ?_
          childKeysNodup := hchild1_fst
          childShape := ?_
          attachNodup := ?_
          attachKeys := ?_
          dataChar := hdataChar'
          rootsFree := ?_
          attachTotal := ?_ }
      · show (((np, createdData e part rest'.isEmpty) :: st.nodes).map Prod.fst).reverse = _
        rw [hkeys', htrace', hinv.trace]
      · show (st.roots ++ [np]).Sublist _
        rw [hkeys']
        exact List.Sublist.append hinv.rootsSub (List.Sublist.refl _)
      · intro p cs hp
        rw [hkeys']
        by_cases hpe : p = np
        · subst hpe
          rw [hchildval_np cs hp]
          exact List.nil_sublist _
        · rw [hchild1_other p hpe] at hp
          exact (hinv.childSub p cs hp).trans (List.sublist_append_left _ _)
      · intro p
        by_cases hpe : p = np
        · subst hpe
          exact hfolder_np
        · rw [hchild1_other p hpe, hnodes'_other p hpe]
          exact hinv.folderIff p
      · intro p cs q hp hq
        by_cases hpe : p = np
        · subst hpe
          rw [hchildval_np cs hp] at hq
          exact absurd hq (by simp)
        · rw [hchild1_other p hpe] at hp
          obtain ⟨hq1, hq2⟩ := hinv.childShape p cs q hp hq
          exact ⟨hattachKeys_lift q hq1, hq2⟩
      · rw [hattached']
        have hperm : ((st.roots ++ [np]) ++ (st.childrenOf.map Prod.snd).flatten).Perm
            (attachedList st ++ [np]) := by
          unfold attachedList
          rw [List.append_assoc, List.append_assoc]
          exact List.Perm.append_left st.roots List.perm_append_comm
        rw [List.Perm.nodup_iff hperm, List.nodup_append]
        exact ⟨hinv.attachNodup, List.nodup_singleton _,
          fun a ha hb => hnp_notattach (List.mem_singleton.mp hb ▸ ha)⟩
      · intro q hq
        rw [hattached'] at hq
        rcases List.mem_append.mp hq with hq | hq
        · rcases List.mem_append.mp hq with hq | hq
          · exact hattachKeys_lift q
              (hinv.attachKeys q (List.mem_append.mpr (Or.inl hq)))
          · rw [List.mem_singleton.mp hq, hnodes'_np]
            rfl
        · exact hattachKeys_lift q
            (hinv.attachKeys q (List.mem_append.mpr (Or.inr hq)))
      · intro r hr
        rcases List.mem_append.mp hr with hr | hr
        · exact hinv.rootsFree r hr
        · rw [List.mem_singleton.mp hr, hnppart]
          exact hpart_free
      · intro hGood q nd hq
        rw [hattached']
        by_cases hqe : q = np
        · subst hqe
          exact List.mem_append.mpr (Or.inl (List.mem_append.mpr
            (Or.inr (List.mem_singleton.mpr rfl))))
        · rw [hnodes'_other q hqe] at hq
          have hold := hinv.attachTotal hGood q nd hq
          unfold attachedList at hold
          rcases List.mem_append.mp hold with h | h
          · exact List.mem_append.mpr (Or.inl (List.mem_append.mpr (Or.inl h)))
          · exact List.mem_append.mpr (Or.inr h)
    · -- non-root: attach or drop
      have hnpcp : np = cp ++ "/" ++ part := by rw [hnp, if_neg hcp0]
      have hcpvv : cp ∈ visited := by
        rcases hcpv with h | h
        · exact absurd h hcp0
        · exact h
      have hcpnp : cp ≠ np := by
        rw [hnpcp]
        exact fun he => ne_append_slash_left cp part he.symm
      by_cases hatt : ((if rest'.isEmpty then st.childrenOf
          else (np, []) :: st.childrenOf).lookup cp).isSome = true
      · -- attach branch
        obtain ⟨cs₀, hcs₀⟩ := Option.isSome_iff_exists.mp hatt
        have hcs₀' : st.childrenOf.lookup cp = some cs₀ := by
          rw [← hchild1_other cp (fun he => hcpnp he)]
          exact hcs₀
        have hstep : insertPart e cp np part rest'.isEmpty st =
            { roots := st.roots
              nodes := (np, createdData e part rest'.isEmpty) :: st.nodes
              childrenOf := appendChild
                (if rest'.isEmpty then st.childrenOf else (np, []) :: st.childrenOf) cp np } := by
          unfold insertPart
          rw [if_neg hex, if_neg hcp0, if_pos hatt]
        rw [hstep]
        have happend_self : (appendChild
            (if rest'.isEmpty then st.childrenOf else (np, []) :: st.childrenOf) cp np).lookup cp
            = some (cs₀ ++ [np]) :=
          appendChild_lookup_self _ cp np cs₀ hcs₀ hchild1_fst
        have happend_other : ∀ p, p ≠ cp →
            (appendChild
              (if rest'.isEmpty then st.childrenOf else (np, []) :: st.childrenOf) cp np).lookup p
            = (if rest'.isEmpty then st.childrenOf else (np, []) :: st.childrenOf).lookup p :=
          fun p hpne => appendChild_lookup_other _ cp np p hpne
        have hflat_perm : ((appendChild
            (if rest'.isEmpty then st.childrenOf else (np, []) :: st.childrenOf) cp np).map
              Prod.snd).flatten.Perm
            ((st.childrenOf.map Prod.snd).flatten ++ [np]) := by
          have h1 := appendChild_flatten_perm _ cp np cs₀ hcs₀ hchild1_fst
          rw [hchild1_flatten] at h1
          exact h1
        have hnp_notattach : np ∉ attachedList st := by
          intro hm
          exact hex (hinv.attachKeys np hm)
        have hattperm : (attachedList
            { roots := st.roots
              nodes := (np, createdData e part rest'.isEmpty) :: st.nodes
              childrenOf := appendChild
                (if rest'.isEmpty then st.childrenOf else (np, []) :: st.childrenOf) cp np }).Perm
            (attachedList st ++ [np]) := by
          unfold attachedList
          refine (List.Perm.append_left st.roots hflat_perm).trans ?_
          rw [← List.append_assoc]
        refine
          { trace := ?_
            rootsSub := ?_
            childSub := ?_
            folderIff := ?_
            childKeysNodup := ?_
            childShape := ?_
            attachNodup := ?_
            attachKeys := ?_
            dataChar := hdataChar'
            rootsFree := hinv.rootsFree
            attachTotal := ?_ }
        · show (((np, createdData e part rest'.isEmpty) :: st.nodes).map Prod.fst).reverse = _
          rw [hkeys', htrace', hinv.trace]
        · rw [hkeys']
          exact hinv.rootsSub.trans (List.sublist_append_left _ _)
        · intro p cs hp
          rw [hkeys']
          by_cases hpc : p = cp
          · subst hpc
            rw [happend_self] at hp
            injection hp with hp
            rw [← hp]
            exact List.Sublist.append (hinv.childSub p cs₀ hcs₀') (List.Sublist.refl _)
          · rw [happend_other p hpc] at hp
            by_cases hpe : p = np
            · subst hpe
              rw [hchildval_np cs hp]
              exact List.nil_sublist _
            · rw [hchild1_other p hpe] at hp
              exact (hinv.childSub p cs hp).trans (List.sublist_append_left _ _)
        · intro p
          by_cases hpc : p = cp
          · subst hpc
            rw [happend_self, hnodes'_other p (fun he => hcpnp he)]
            obtain ⟨ndp, hndp, hty⟩ := (hinv.folderIff p).mp (by rw [hcs₀']; rfl)
            rw [hndp]
            simp only [Option.isSome_some, true_iff]
            exact ⟨ndp, rfl, hty⟩
          · rw [happend_other p hpc]
            by_cases hpe : p = np
            · subst hpe
              exact hfolder_np
            · rw [hchild1_other p hpe, hnodes'_other p hpe]
              exact hinv.folderIff p
        · show ((appendChild _ cp np).map Prod.fst).Nodup
          rw [appendChild_map_fst]
          exact hchild1_fst
        · intro p cs q hp hq
          by_cases hpc : p = cp
          · subst hpc
            rw [happend_self] at hp
            injection hp with hp
            rw [← hp] at hq
            rcases List.mem_append.mp hq with hq | hq
            · obtain ⟨hq1, hq2⟩ := hinv.childShape p cs₀ q hcs₀' hq
              exact ⟨hattachKeys_lift q hq1, hq2⟩
            · rw [List.mem_singleton.mp hq]
              exact ⟨by rw [hnodes'_np]; rfl, part, hnpcp, hpart_free⟩
          · rw [happend_other p hpc] at hp
            by_cases hpe : p = np
            · subst hpe
              rw [hchildval_np cs hp] at hq
              exact absurd hq (by simp)
            · rw [hchild1_other p hpe] at hp
              obtain ⟨hq1, hq2⟩ := hinv.childShape p cs q hp hq
              exact ⟨hattachKeys_lift q hq1, hq2⟩
        · rw [List.Perm.nodup_iff hattperm, List.nodup_append]
          exact ⟨hinv.attachNodup, List.nodup_singleton _,
            fun a ha hb => hnp_notattach (List.mem_singleton.mp hb ▸ ha)⟩
        · intro q hq
          have hq' : q ∈ attachedList st ++ [np] := hattperm.mem_iff.mp hq
          rcases List.mem_append.mp hq' with hq' | hq'
          · exact hattachKeys_lift q (hinv.attachKeys q hq')
          · rw [List.mem_singleton.mp hq', hnodes'_np]
            rfl
        · intro hGood q nd hq
          by_cases hqe : q = np
          · subst hqe
            apply hattperm.mem_iff.mpr
            exact List.mem_append.mpr (Or.inr (List.mem_singleton.mpr rfl))
          · rw [hnodes'_other q hqe] at hq
            apply hattperm.mem_iff.mpr
            exact List.mem_append.mpr (Or.inl (hinv.attachTotal hGood q nd hq))
      · -- drop branch: the node is created but attached nowhere
        have hstep : insertPart e cp np part rest'.isEmpty st =
            { roots := st.roots
              nodes := (np, createdData e part rest'.isEmpty) :: st.nodes
              childrenOf := if rest'.isEmpty then st.childrenOf else (np, []) :: st.childrenOf } := by
          unfold insertPart
          rw [if_neg hex, if_neg hcp0, if_neg hatt]
        rw [hstep]
        have hattached' : attachedList
            { roots := st.roots
              nodes := (np, createdData e part rest'.isEmpty) :: st.nodes
              childrenOf := if rest'.isEmpty then st.childrenOf else (np, []) :: st.childrenOf }
            = attachedList st := by
          unfold attachedList
          rw [hchild1_flatten]
        have hdropGood : goodEntries (done ++ [e]) → False := by
          intro hGood
          have hcpKeys : cp ∈ st.nodes.map Prod.fst :=
            (hDmem cp).mpr (Or.inr hcpvv)
          obtain ⟨ndc, hndc⟩ := Option.isSome_iff_exists.mp
            ((lookup_isSome_iff cp st.nodes).mpr hcpKeys)
          have hnotfolder : ndc.type ≠ NodeType.folder := by
            intro hty
            have hso : (st.childrenOf.lookup cp).isSome = true :=
              (hinv.folderIff cp).mpr ⟨ndc, hndc, hty⟩
            rw [← hchild1_other cp (fun he => hcpnp he)] at hso
            exact absurd hso hatt
          have hfile : ndc.type = NodeType.file := by
            cases h : ndc.type
            · rfl
            · exact absurd h hnotfolder
          exact drop_impossible done e visited cp
            (runPathsAux cp (part :: rest')) (by rw [runPathsAux_cons]; simp)
            st hGood hrun hcpvv ⟨ndc, hndc, hfile⟩ hinv.dataChar
        refine
          { trace := ?_
            rootsSub := ?_
            childSub := ?_
            folderIff := ?_
            childKeysNodup := hchild1_fst
            childShape := ?_
            attachNodup := by rw [hattached']; exact hinv.attachNodup
            attachKeys := ?_
            dataChar := hdataChar'
            rootsFree := hinv.rootsFree
            attachTotal := fun hGood => absurd hGood (fun h => hdropGood h) }
        · show (((np, createdData e part rest'.isEmpty) :: st.nodes).map Prod.fst).reverse = _
          rw [hkeys', htrace', hinv.trace]
        · rw [hkeys']
          exact hinv.rootsSub.trans (List.sublist_append_left _ _)
        · intro p cs hp
          rw [hkeys']
          by_cases hpe : p = np
          · subst hpe
            rw [hchildval_np cs hp]
            exact List.nil_sublist _
          · rw [hchild1_other p hpe] at hp
            exact (hinv.childSub p cs hp).trans (List.sublist_append_left _ _)
        · intro p
          by_cases hpe : p = np
          · subst hpe
            exact hfolder_np
          · rw [hchild1_other p hpe, hnodes'_other p hpe]
            exact hinv.folderIff p
        · intro p cs q hp hq
          by_cases hpe : p = np
          · subst hpe
            rw [hchildval_np cs hp] at hq
            exact absurd hq (by simp)
          · rw [hchild1_other p hpe] at hp
            obtain ⟨hq1, hq2⟩ := hinv.childShape p cs q hp hq
            exact ⟨hattachKeys_lift q hq1, hq2⟩
        · intro q hq
          rw [hattached'] at hq
          exact hattachKeys_lift q (hinv.attachKeys q hq)

/-- Unfolding one step of `insertParts`. -/
theorem insertParts_cons (e : FileInfo) (cp part : String) (rest : List String)
    (st : BuildState) :
    insertParts e cp (part :: rest) st =
      insertParts e (if cp = "" then part else cp ++ "/" ++ part) rest
        (insertPart e cp (if cp = "" then part else cp ++ "/" ++ part) part
          rest.isEmpty st) := rfl

/-- Walking the remaining segments preserves the mid-entry invariant. -/
theorem insertParts_mid (done : List FileInfo) (e : FileInfo) (rest : List String) :
    ∀ (visited consumed : List String) (cp : String) (st : BuildState),
    MidInv done e visited st →
    segs e.path = consumed ++ rest →
    runPaths e.path = visited ++ runPathsAux cp rest →
    visited.length = consumed.length →
    (cp = "" ∨ cp ∈ visited) →
    MidInv done e (visited ++ runPathsAux cp rest) (insertParts e cp rest st) := by
  induction rest with
  | nil =>
    intro visited consumed cp st hinv _ _ _ _
    show MidInv done e (visited ++ []) st
    rw [List.append_nil]
    exact hinv
  | cons part rest' ih =>
    intro visited consumed cp st hinv hsegs hrun hlen hcpv
    rw [insertParts_cons]
    obtain ⟨np, hnp⟩ : ∃ np, np = if cp = "" then part else cp ++ "/" ++ part := ⟨_, rfl⟩
    rw [← hnp]
    have hmid := insertPart_mid done e visited consumed cp np part rest' st hinv hsegs hrun
      hlen hcpv hnp
    have hrunsplit : visited ++ runPathsAux cp (part :: rest')
        = (visited ++ [np]) ++ runPathsAux np rest' := by
      rw [runPathsAux_cons, ← hnp, List.append_assoc]
      rfl
    rw [hrunsplit]
    exact ih (visited ++ [np]) (consumed ++ [part]) np _ hmid
      (by rw [hsegs, List.append_assoc]; rfl)
      (by rw [hrun]; exact hrunsplit)
      (by rw [List.length_append, List.length_append, hlen]; rfl)
      (Or.inr (List.mem_append.mpr (Or.inr (List.mem_singleton.mpr rfl))))

/-- `goodEntries` restricts to a prefix of the entry list. -/
theorem goodEntries_of_append_left (l₁ l₂ : List FileInfo)
    (h : goodEntries (l₁ ++ l₂)) : goodEntries l₁ := by
  obtain ⟨h1, h2, h3⟩ := h
  refine ⟨?_, ?_, ?_⟩
  · rw [List.map_append] at h1
    exact h1.of_append_left
  · intro e₁ he₁ e₂ he₂
    exact h2 e₁ (List.mem_append_left _ he₁) e₂ (List.mem_append_left _ he₂)
  · intro e he
    exact h3 e (List.mem_append_left _ he)

/-- Starting an entry: the end-of-entry invariant gives the mid-entry
invariant with nothing visited. -/
theorem midInv_start (done : List FileInfo) (e : FileInfo) (st : BuildState)
    (hinv : Inv done st) : MidInv done e [] st :=
  { trace := by rw [List.append_nil]; exact hinv.trace
    rootsSub := hinv.rootsSub
    childSub := hinv.childSub
    folderIff := hinv.folderIff
    childKeysNodup := hinv.childKeysNodup
    childShape := hinv.childShape
    attachNodup := hinv.attachNodup
    attachKeys := hinv.attachKeys
    dataChar := fun p nd hp => Or.inl (hinv.dataChar p nd hp)
    rootsFree := hinv.rootsFree
    attachTotal := fun hGood q nd hq =>
      hinv.attachTotal (goodEntries_of_append_left done [e] hGood) q nd hq }

theorem find?_append_some {α : Type} (f : α → Bool) (l₁ l₂ : List α) (x : α)
    (h : l₁.find? f = some x) : (l₁ ++ l₂).find? f = some x := by
  induction l₁ with
  | nil => exact absurd h (by simp)
  | cons a as ih =>
    rw [List.cons_append]
    cases hf : f a
    · rw [List.find?_cons_of_neg _ (by rw [hf]; simp)] at h
      rw [List.find?_cons_of_neg _ (by rw [hf]; simp)]
      exact ih h
    · rw [List.find?_cons_of_pos _ hf] at h
      rw [List.find?_cons_of_pos _ hf]
      exact h

theorem find?_append_none {α : Type} (f : α → Bool) (l₁ l₂ : List α)
    (h : l₁.find? f = none) : (l₁ ++ l₂).find? f = l₂.find? f := by
  induction l₁ with
  | nil => rfl
  | cons a as ih =>
    rw [List.cons_append]
    cases hf : f a
    · rw [List.find?_cons_of_neg _ (by rw [hf]; simp)] at h
      rw [List.find?_cons_of_neg _ (by rw [hf]; simp)]
      exact ih h
    · rw [List.find?_cons_of_pos _ hf] at h
      exact absurd h (by simp)

theorem flatMap_append_strs (l₁ l₂ : List FileInfo) (f : FileInfo → List String) :
    (l₁ ++ l₂).flatMap f = l₁.flatMap f ++ l₂.flatMap f := by
  induction l₁ with
  | nil => rfl
  | cons a as ih =>
    rw [List.cons_append, List.flatMap_cons, List.flatMap_cons, ih, List.append_assoc]

/-- Finishing an entry: after walking the whole chain, the mid-entry
invariant becomes the end-of-entry invariant for `done ++ [e]`. -/
theorem midInv_finish (done : List FileInfo) (e : FileInfo) (st : BuildState)
    (hinv : MidInv done e (runPaths e.path) st) : Inv (done ++ [e]) st :=
  have hflat : (done ++ [e]).flatMap (fun x => runPaths x.path)
      = done.flatMap (fun x => runPaths x.path) ++ runPaths e.path := by
    rw [flatMap_append_strs, List.flatMap_cons, List.flatMap_nil, List.append_nil]
  { trace := by rw [hflat]; exact hinv.trace
    rootsSub := hinv.rootsSub
    childSub := hinv.childSub
    folderIff := hinv.folderIff
    childKeysNodup := hinv.childKeysNodup
    childShape := hinv.childShape
    attachNodup := hinv.attachNodup
    attachKeys := hinv.attachKeys
    dataChar := by
      intro p nd hp
      rcases hinv.dataChar p nd hp with ⟨x, hx, hmk⟩ | ⟨hnone, hmem, hmk⟩
      · refine ⟨x, ?_, hmk⟩
        unfold findReacher at hx ⊢
        exact find?_append_some _ done [e] x hx
      · refine ⟨e, ?_, hmk⟩
        unfold findReacher at hnone ⊢
        rw [find?_append_none _ done [e] hnone]
        exact List.find?_cons_of_pos [] ((contains_iff_mem _ _).mpr hmem)
    rootsFree := hinv.rootsFree
    attachTotal := fun hGood q nd hq => hinv.attachTotal hGood q nd hq }

/-- Processing one entry advances the invariant. -/
theorem processEntry_inv (done : List FileInfo) (st : BuildState) (e : FileInfo)
    (hinv : Inv done st) : Inv (done ++ [e]) (processEntry st e) := by
  have h := insertParts_mid done e (segs e.path) [] [] "" st
    (midInv_start done e st hinv) rfl (by rw [List.nil_append]; rfl) rfl (Or.inl rfl)
  rw [List.nil_append] at h
  exact midInv_finish done e _ h

/-- The invariant holds before any entry is processed. -/
theorem inv_empty : Inv [] emptyState :=
  { trace := rfl
    rootsSub := List.nil_sublist _
    childSub := fun _ cs hp =>
      Option.noConfusion (show (none : Option (List String)) = some cs from hp)
    folderIff := fun _ =>
      ⟨fun h => absurd (show (false : Bool) = true from h) (by simp),
       fun ⟨nd, hnd, _⟩ =>
         Option.noConfusion (show (none : Option NodeData) = some nd from hnd)⟩
    childKeysNodup := List.nodup_nil
    childShape := fun _ cs _ hp _ =>
      Option.noConfusion (show (none : Option (List String)) = some cs from hp)
    attachNodup := List.nodup_nil
    attachKeys := fun q hq =>
      absurd (show q ∈ ([] : List String) from hq) (List.not_mem_nil q)
    dataChar := fun _ nd hp =>
      Option.noConfusion (show (none : Option NodeData) = some nd from hp)
    rootsFree := fun r hr =>
      absurd (show r ∈ ([] : List String) from hr) (List.not_mem_nil r)
    attachTotal := fun _ _ nd hq =>
      Option.noConfusion (show (none : Option NodeData) = some nd from hq) }

theorem foldl_inv (l : List FileInfo) :
    ∀ (done : List FileInfo) (st : BuildState), Inv done st →
    Inv (done ++ l) (l.foldl processEntry st) := by
  induction l with
  | nil =>
    intro done st hinv
    rw [List.append_nil]
    exact hinv
  | cons a as ih =>
    intro done st hinv
    rw [List.foldl_cons]
    have h := ih (done ++ [a]) (processEntry st a) (processEntry_inv done st a hinv)
    rw [List.append_assoc] at h
    exact h

/-- The complete build pass satisfies the invariant for the sorted entries. -/
theorem buildState_inv (files : List FileInfo) :
    Inv (sortFiles files) (buildState files) := by
  have h := foldl_inv (sortFiles files) [] emptyState inv_empty
  rw [List.nil_append] at h
  exact h

/-! ## Forest reconstruction lemmas -/

theorem buildFileTree_eq (files : List FileInfo) :
    buildFileTree files = (buildState files).roots.map
      (fun q => buildNode (buildState files) ((buildState files).nodes.length + 1) q) := rfl

theorem buildNode_path (st : BuildState) (fuel : Nat) (q : String) :
    (buildNode st fuel q).path = q := by
  cases fuel with
  | zero => rfl
  | succ f =>
    unfold buildNode
    cases st.nodes.lookup q with
    | none => rfl
    | some nd => rfl

theorem segs_of_no_slash (s : String) (h : '/' ∉ s.data) : segs s = [s] := by
  unfold segs
  rw [splitChars_of_no_sep '/' s.data h]
  rfl

theorem segs_append_single (p s : String) (hs : '/' ∉ s.data) :
    segs (p ++ "/" ++ s) = segs p ++ [s] := by
  rw [segs_append, segs_of_no_slash s hs]

theorem joinSegs_append (A B : List String) (hA : A ≠ []) (hB : B ≠ []) :
    joinSegs (A ++ B) = joinSegs A ++ "/" ++ joinSegs B := by
  induction A with
  | nil => exact absurd rfl hA
  | cons a A' ih =>
    cases A' with
    | nil =>
      show joinSegs (a :: B) = joinSegs [a] ++ "/" ++ joinSegs B
      rw [joinSegs_cons a B hB, joinSegs_single]
    | cons b bs =>
      show joinSegs (a :: (b :: bs ++ B)) = joinSegs (a :: b :: bs) ++ "/" ++ joinSegs B
      rw [joinSegs_cons a (b :: bs ++ B) (by intro he; exact List.noConfusion he),
        ih (by intro he; exact List.noConfusion he),
        joinSegs_cons a (b :: bs) (by intro he; exact List.noConfusion he),
        string_append_assoc_slash]

theorem split_slash_inj (p s p' s' : String) (hs : '/' ∉ s.data) (hs' : '/' ∉ s'.data)
    (h : p ++ "/" ++ s = p' ++ "/" ++ s') : p = p' ∧ s = s' := by
  have h1 : segs p ++ [s] = segs p' ++ [s'] := by
    rw [← segs_append_single p s hs, ← segs_append_single p' s' hs', h]
  have hlen : (segs p).length = (segs p').length := by
    have := congrArg List.length h1
    simp only [List.length_append, List.length_singleton] at this
    omega
  obtain ⟨h2, h3⟩ := List.append_inj h1 hlen
  refine ⟨?_, ?_⟩
  · rw [← joinSegs_segs p, ← joinSegs_segs p', h2]
  · injection h3

theorem lookup_of_mem_nodup {β : Type} (m : List (String × β)) (k : String) (v : β)
    (hnd : (m.map Prod.fst).Nodup) (h : (k, v) ∈ m) : m.lookup k = some v := by
  induction m with
  | nil => exact absurd h (List.not_mem_nil _)
  | cons kv m' ih =>
    obtain ⟨a, b⟩ := kv
    rw [List.map_cons] at hnd
    rw [lookup_cons]
    rcases List.mem_cons.mp h with he | hm
    · injection he with he1 he2
      rw [if_pos he1, he2]
    · by_cases hka : k = a
      · exfalso
        apply (List.nodup_cons.mp hnd).1
        rw [← hka]
        exact List.mem_map.mpr ⟨(k, v), hm, rfl⟩
      · rw [if_neg hka]
        exact ih (List.nodup_cons.mp hnd).2 hm

theorem sublist_flatten_of_mem {α : Type} (L : List (List α)) (l : List α) (h : l ∈ L) :
    l.Sublist L.flatten := by
  induction L with
  | nil => exact absurd h (List.not_mem_nil l)
  | cons a as ih =>
    rw [List.flatten_cons]
    rcases List.mem_cons.mp h with rfl | h'
    · exact List.sublist_append_left _ _
    · exact (ih h').trans (List.sublist_append_right _ _)

theorem nodup_flatten_of {α : Type} :
    ∀ (L : List (List α)), (∀ l ∈ L, l.Nodup) →
      L.Pairwise (fun l₁ l₂ => ∀ x ∈ l₁, x ∉ l₂) → L.flatten.Nodup := by
  intro L
  induction L with
  | nil =>
    intro _ _
    exact List.nodup_nil
  | cons a as ih =>
    intro h1 h2
    rw [List.flatten_cons]
    rw [List.pairwise_cons] at h2
    refine List.Nodup.append (h1 a (List.mem_cons_self _ _))
      (ih (fun l hl => h1 l (List.mem_cons_of_mem _ hl)) h2.2) ?_
    intro x hxa hxf
    obtain ⟨l, hl, hxl⟩ := List.mem_flatten.mp hxf
    exact h2.1 l hl x hxa hxl

theorem mem_subtreePaths_self (st : BuildState) : ∀ (fuel : Nat) (q : String),
    q ∈ subtreePaths st fuel q := by
  intro fuel q
  cases fuel with
  | zero => exact List.mem_singleton.mpr rfl
  | succ f =>
    unfold subtreePaths
    cases st.nodes.lookup q with
    | none => exact List.mem_singleton.mpr rfl
    | some nd =>
      cases st.childrenOf.lookup q with
      | none => exact List.mem_singleton.mpr rfl
      | some cs => exact List.mem_cons_self _ _

theorem subtreePaths_cone (st : BuildState)
    (hshape : ∀ p cs q, st.childrenOf.lookup p = some cs → q ∈ cs →
      (st.nodes.lookup q).isSome = true ∧ ∃ s, q = p ++ "/" ++ s ∧ '/' ∉ s.data) :
    ∀ (fuel : Nat) (q x : String), x ∈ subtreePaths st fuel q →
      ∃ t, segs x = segs q ++ t := by
  intro fuel
  induction fuel with
  | zero =>
    intro q x hx
    exact ⟨[], by rw [List.mem_singleton.mp hx, List.append_nil]⟩
  | succ f ih =>
    intro q x hx
    unfold subtreePaths at hx
    cases hnd : st.nodes.lookup q with
    | none =>
      rw [hnd] at hx
      exact ⟨[], by rw [List.mem_singleton.mp hx, List.append_nil]⟩
    | some nd =>
      rw [hnd] at hx
      cases hcs : st.childrenOf.lookup q with
      | none =>
        rw [hcs] at hx
        exact ⟨[], by rw [List.mem_singleton.mp hx, List.append_nil]⟩
      | some cs =>
        rw [hcs] at hx
        rcases List.mem_cons.mp hx with rfl | hx'
        · exact ⟨[], (List.append_nil _).symm⟩
        · obtain ⟨l, hl, hxl⟩ := List.mem_flatten.mp hx'
          obtain ⟨q', hq', hql⟩ := List.mem_map.mp hl
          obtain ⟨_, s, hqs, hsfree⟩ := hshape q cs q' hcs hq'
          obtain ⟨t, ht⟩ := ih q' x (by rw [hql]; exact hxl)
          refine ⟨[s] ++ t, ?_⟩
          rw [ht, hqs, segs_append_single q s hsfree, List.append_assoc]

theorem subtreePaths_stable (st : BuildState)
    (hshape : ∀ p cs q, st.childrenOf.lookup p = some cs → q ∈ cs →
      (st.nodes.lookup q).isSome = true ∧ ∃ s, q = p ++ "/" ++ s ∧ '/' ∉ s.data)
    (hbound : ∀ q, (st.nodes.lookup q).isSome = true →
      (segs q).length ≤ st.nodes.length) :
    ∀ (fuel fuel' : Nat) (q : String), (st.nodes.lookup q).isSome = true →
      st.nodes.length + 1 ≤ fuel + (segs q).length →
      st.nodes.length + 1 ≤ fuel' + (segs q).length →
      subtreePaths st fuel q = subtreePaths st fuel' q := by
  intro fuel
  induction fuel with
  | zero =>
    intro fuel' q hq hb _
    exact absurd hb (by have := hbound q hq; omega)
  | succ f ih =>
    intro fuel' q hq hb hb'
    cases fuel' with
    | zero => exact absurd hb' (by have := hbound q hq; omega)
    | succ f' =>
      unfold subtreePaths
      cases hnd : st.nodes.lookup q with
      | none => rfl
      | some nd =>
        cases hcs : st.childrenOf.lookup q with
        | none => rfl
        | some cs =>
          refine congrArg (fun l => q :: List.flatten l) ?_
          apply List.map_congr_left
          intro q' hq'
          obtain ⟨hq'some, s, hqs, hsfree⟩ := hshape q cs q' hcs hq'
          have hlen : (segs q').length = (segs q).length + 1 := by
            rw [hqs, segs_append_single q s hsfree, List.length_append]
            rfl
          exact ih f' q' hq'some (by omega) (by omega)

theorem nodePaths_buildNode (st : BuildState) :
    ∀ (fuel : Nat) (q : String),
      nodePaths (buildNode st fuel q) = subtreePaths st fuel q := by
  intro fuel
  induction fuel with
  | zero =>
    intro q
    rfl
  | succ f ih =>
    intro q
    unfold buildNode subtreePaths
    cases hnd : st.nodes.lookup q with
    | none => rfl
    | some nd =>
      cases hcs : st.childrenOf.lookup q with
      | none => rfl
      | some cs =>
        show q :: nodePathsList (cs.map (fun q' => buildNode st f q'))
          = q :: (cs.map (fun q' => subtreePaths st f q')).flatten
        refine congrArg (List.cons q) ?_
        clear hcs hnd
        induction cs with
        | nil => rfl
        | cons c cs' ihc =>
          show nodePaths (buildNode st f c) ++ _ = subtreePaths st f c ++ _
          rw [ih c, ihc]

theorem nodeCount_buildNode (st : BuildState) :
    ∀ (fuel : Nat) (q : String),
      nodeCount (buildNode st fuel q) = (subtreePaths st fuel q).length := by
  intro fuel
  induction fuel with
  | zero =>
    intro q
    rfl
  | succ f ih =>
    intro q
    unfold buildNode subtreePaths
    cases hnd : st.nodes.lookup q with
    | none => rfl
    | some nd =>
      cases hcs : st.childrenOf.lookup q with
      | none => rfl
      | some cs =>
        show 1 + nodeCountList (cs.map (fun q' => buildNode st f q'))
          = (q :: (cs.map (fun q' => subtreePaths st f q')).flatten).length
        rw [List.length_cons]
        have hinner : nodeCountList (cs.map (fun q' => buildNode st f q'))
            = ((cs.map (fun q' => subtreePaths st f q')).flatten).length := by
          clear hcs hnd
          induction cs with
          | nil => rfl
          | cons c cs' ihc =>
            show nodeCount (buildNode st f c) + _ = _
            rw [List.map_cons, List.flatten_cons, List.length_append, ih c, ihc]
        rw [hinner]
        omega

theorem nodePathsList_map (st : BuildState) (fuel : Nat) (rs : List String) :
    nodePathsList (rs.map (fun q => buildNode st fuel q))
      = (rs.map (fun q => subtreePaths st fuel q)).flatten := by
  induction rs with
  | nil => rfl
  | cons r rs' ih =>
    show nodePaths (buildNode st fuel r) ++ _ = subtreePaths st fuel r ++ _
    rw [nodePaths_buildNode, ih]

theorem nodeCountList_map (st : BuildState) (fuel : Nat) (rs : List String) :
    nodeCountList (rs.map (fun q => buildNode st fuel q))
      = ((rs.map (fun q => subtreePaths st fuel q)).flatten).length := by
  induction rs with
  | nil => rfl
  | cons r rs' ih =>
    show nodeCount (buildNode st fuel r) + _ = _
    rw [List.map_cons, List.flatten_cons, List.length_append, nodeCount_buildNode, ih]

theorem mem_sibListsOf_map (st : BuildState) (fuel : Nat) :
    ∀ (cs : List String) (L : List FileTreeNode),
      L ∈ sibListsOf (cs.map (fun q => buildNode st fuel q)) →
      ∃ q' ∈ cs, L ∈ nodeSibLists (buildNode st fuel q') := by
  intro cs
  induction cs with
  | nil =>
    intro L hL
    exact absurd hL (List.not_mem_nil L)
  | cons c cs' ih =>
    intro L hL
    have hL' : L ∈ nodeSibLists (buildNode st fuel c)
        ++ sibListsOf (cs'.map (fun q => buildNode st fuel q)) := hL
    rcases List.mem_append.mp hL' with h | h
    · exact ⟨c, List.mem_cons_self _ _, h⟩
    · obtain ⟨q', hq', hL''⟩ := ih L h
      exact ⟨q', List.mem_cons_of_mem _ hq', hL''⟩

theorem map_path_buildNode (st : BuildState) (fuel : Nat) (cs : List String) :
    (cs.map (fun q => buildNode st fuel q)).map FileTreeNode.path = cs := by
  rw [List.map_map]
  have h : ∀ x ∈ cs, (FileTreeNode.path ∘ fun q => buildNode st fuel q) x = id x :=
    fun x _ => buildNode_path st fuel x
  rw [List.map_congr_left h, List.map_id]

theorem nodeSibLists_buildNode (st : BuildState) :
    ∀ (fuel : Nat) (q : String) (L : List FileTreeNode),
      L ∈ nodeSibLists (buildNode st fuel q) →
      ∃ p cs, st.childrenOf.lookup p = some cs ∧ L.map FileTreeNode.path = cs := by
  intro fuel
  induction fuel with
  | zero =>
    intro q L hL
    exact absurd hL (List.not_mem_nil L)
  | succ f ih =>
    intro q L hL
    unfold buildNode at hL
    cases hnd : st.nodes.lookup q with
    | none =>
      rw [hnd] at hL
      exact absurd hL (List.not_mem_nil L)
    | some nd =>
      rw [hnd] at hL
      cases hcs : st.childrenOf.lookup q with
      | none =>
        rw [hcs] at hL
        exact absurd hL (List.not_mem_nil L)
      | some cs =>
        rw [hcs] at hL
        rcases List.mem_cons.mp hL with rfl | hL'
        · exact ⟨q, cs, hcs, map_path_buildNode st f cs⟩
        · obtain ⟨q', _, hL''⟩ := mem_sibListsOf_map st f cs L hL'
          exact ih q' L hL''

theorem mem_treeNodesList_map (st : BuildState) (fuel : Nat) :
    ∀ (cs : List String) (n : FileTreeNode),
      n ∈ treeNodesList (cs.map (fun q => buildNode st fuel q)) →
      ∃ q' ∈ cs, n ∈ treeNodes (buildNode st fuel q') := by
  intro cs
  induction cs with
  | nil =>
    intro n hn
    exact absurd hn (List.not_mem_nil n)
  | cons c cs' ih =>
    intro n hn
    have hn' : n ∈ treeNodes (buildNode st fuel c)
        ++ treeNodesList (cs'.map (fun q => buildNode st fuel q)) := hn
    rcases List.mem_append.mp hn' with h | h
    · exact ⟨c, List.mem_cons_self _ _, h⟩
    · obtain ⟨q', hq', hn''⟩ := ih n h
      exact ⟨q', List.mem_cons_of_mem _ hq', hn''⟩

theorem mem_subtreePaths_attached (st : BuildState) :
    ∀ (fuel : Nat) (q x : String), x ∈ subtreePaths st fuel q →
      x = q ∨ x ∈ (st.childrenOf.map Prod.snd).flatten := by
  intro fuel
  induction fuel with
  | zero =>
    intro q x hx
    exact Or.inl (List.mem_singleton.mp hx)
  | succ f ih =>
    intro q x hx
    unfold subtreePaths at hx
    cases hnd : st.nodes.lookup q with
    | none =>
      rw [hnd] at hx
      exact Or.inl (List.mem_singleton.mp hx)
    | some nd =>
      rw [hnd] at hx
      cases hcs : st.childrenOf.lookup q with
      | none =>
        rw [hcs] at hx
        exact Or.inl (List.mem_singleton.mp hx)
      | some cs =>
        rw [hcs] at hx
        rcases List.mem_cons.mp hx with rfl | hx'
        · exact Or.inl rfl
        · obtain ⟨l, hl, hxl⟩ := List.mem_flatten.mp hx'
          obtain ⟨q', hq', hql⟩ := List.mem_map.mp hl
          rcases ih q' x (by rw [hql]; exact hxl) with rfl | hmem
          · refine Or.inr (List.mem_flatten.mpr ⟨cs, ?_, hq'⟩)
            exact lookup_some_mem_snd st.childrenOf q cs hcs
          · exact Or.inr hmem

theorem subtreePaths_nodup (st : BuildState)
    (hshape : ∀ p cs q, st.childrenOf.lookup p = some cs → q ∈ cs →
      (st.nodes.lookup q).isSome = true ∧ ∃ s, q = p ++ "/" ++ s ∧ '/' ∉ s.data)
    (hcsnodup : ∀ p cs, st.childrenOf.lookup p = some cs → cs.Nodup) :
    ∀ (fuel : Nat) (q : String), (subtreePaths st fuel q).Nodup := by
  intro fuel
  induction fuel with
  | zero =>
    intro q
    exact List.nodup_singleton q
  | succ f ih =>
    intro q
    unfold subtreePaths
    cases hnd : st.nodes.lookup q with
    | none => exact List.nodup_singleton q
    | some nd =>
      cases hcs : st.childrenOf.lookup q with
      | none => exact List.nodup_singleton q
      | some cs =>
        refine List.nodup_cons.mpr ⟨?_, ?_⟩
        · intro hq
          obtain ⟨l, hl, hql⟩ := List.mem_flatten.mp hq
          obtain ⟨q', hq', hmap⟩ := List.mem_map.mp hl
          obtain ⟨_, s, hqs, hsfree⟩ := hshape q cs q' hcs hq'
          obtain ⟨t, ht⟩ := subtreePaths_cone st hshape f q' q (by rw [hmap]; exact hql)
          have h1 : (segs q).length = (segs q').length + t.length := by
            rw [ht, List.length_append]
          have h2 : (segs q').length = (segs q).length + 1 := by
            rw [hqs, segs_append_single q s hsfree, List.length_append]
            rfl
          omega
        · apply nodup_flatten_of
          · intro l hl
            obtain ⟨q', _, hmap⟩ := List.mem_map.mp hl
            rw [← hmap]
            exact ih q'
          · rw [List.pairwise_map]
            refine List.Pairwise.imp_of_mem ?_ (hcsnodup q cs hcs)
            intro q₁ q₂ h₁ h₂ hne x hx1 hx2
            obtain ⟨_, s₁, hq₁s, hs₁⟩ := hshape q cs q₁ hcs h₁
            obtain ⟨_, s₂, hq₂s, hs₂⟩ := hshape q cs q₂ hcs h₂
            obtain ⟨t₁, ht₁⟩ := subtreePaths_cone st hshape f q₁ x hx1
            obtain ⟨t₂, ht₂⟩ := subtreePaths_cone st hshape f q₂ x hx2
            have hseq : segs q₁ ++ t₁ = segs q₂ ++ t₂ := by rw [← ht₁, ← ht₂]
            have hl₁ : (segs q₁).length = (segs q).length + 1 := by
              rw [hq₁s, segs_append_single q s₁ hs₁, List.length_append]
              rfl
            have hl₂ : (segs q₂).length = (segs q).length + 1 := by
              rw [hq₂s, segs_append_single q s₂ hs₂, List.length_append]
              rfl
            have heq : segs q₁ = segs q₂ := (List.append_inj hseq (by omega)).1
            exact hne (by rw [← joinSegs_segs q₁, ← joinSegs_segs q₂, heq])

theorem forest_paths_nodup (st : BuildState)
    (hshape : ∀ p cs q, st.childrenOf.lookup p = some cs → q ∈ cs →
      (st.nodes.lookup q).isSome = true ∧ ∃ s, q = p ++ "/" ++ s ∧ '/' ∉ s.data)
    (hcsnodup : ∀ p cs, st.childrenOf.lookup p = some cs → cs.Nodup)
    (hrootsnodup : st.roots.Nodup)
    (hrootsfree : ∀ r ∈ st.roots, '/' ∉ r.data) (fuel : Nat) :
    ((st.roots.map (fun q => subtreePaths st fuel q)).flatten).Nodup := by
  apply nodup_flatten_of
  · intro l hl
    obtain ⟨r, _, hmap⟩ := List.mem_map.mp hl
    rw [← hmap]
    exact subtreePaths_nodup st hshape hcsnodup fuel r
  · rw [List.pairwise_map]
    refine List.Pairwise.imp_of_mem ?_ hrootsnodup
    intro r₁ r₂ h₁ h₂ hne x hx1 hx2
    obtain ⟨t₁, ht₁⟩ := subtreePaths_cone st hshape fuel r₁ x hx1
    obtain ⟨t₂, ht₂⟩ := subtreePaths_cone st hshape fuel r₂ x hx2
    have hr₁ : segs r₁ = [r₁] := segs_of_no_slash r₁ (hrootsfree r₁ h₁)
    have hr₂ : segs r₂ = [r₂] := segs_of_no_slash r₂ (hrootsfree r₂ h₂)
    have hcc : segs r₁ ++ t₁ = segs r₂ ++ t₂ := ht₁.symm.trans ht₂
    rw [hr₁, hr₂] at hcc
    have hcc' : r₁ :: t₁ = r₂ :: t₂ := hcc
    injection hcc' with hh _
    exact hne hh

theorem mem_subtree_step (st : BuildState)
    (hshape : ∀ p cs q, st.childrenOf.lookup p = some cs → q ∈ cs →
      (st.nodes.lookup q).isSome = true ∧ ∃ s, q = p ++ "/" ++ s ∧ '/' ∉ s.data)
    (hbound : ∀ q, (st.nodes.lookup q).isSome = true →
      (segs q).length ≤ st.nodes.length) :
    ∀ (fuel : Nat) (q p : String) (cs : List String) (x : String),
      st.nodes.length + 1 ≤ fuel + (segs q).length →
      (st.nodes.lookup q).isSome = true →
      p ∈ subtreePaths st fuel q →
      st.childrenOf.lookup p = some cs → x ∈ cs →
      x ∈ subtreePaths st fuel q := by
  intro fuel
  induction fuel with
  | zero =>
    intro q p cs x hb hq _ _ _
    exact absurd hb (by have := hbound q hq; omega)
  | succ f ih =>
    intro q p cs x hb hq hp hcs hx
    unfold subtreePaths at hp ⊢
    cases hnd : st.nodes.lookup q with
    | none =>
      rw [hnd] at hq
      exact absurd hq (by simp)
    | some nd =>
      rw [hnd] at hp
      cases hcs0 : st.childrenOf.lookup q with
      | none =>
        rw [hcs0] at hp
        have hpq : p = q := List.mem_singleton.mp hp
        rw [hpq] at hcs
        rw [hcs] at hcs0
        exact Option.noConfusion hcs0
      | some cs0 =>
        rw [hcs0] at hp
        rcases List.mem_cons.mp hp with rfl | hp'
        · have hcseq : cs = cs0 := by
            rw [hcs] at hcs0
            injection hcs0 with h
          refine List.mem_cons.mpr (Or.inr (List.mem_flatten.mpr
            ⟨subtreePaths st f x, List.mem_map.mpr ⟨x, ?_, rfl⟩,
              mem_subtreePaths_self st f x⟩))
          rw [← hcseq]
          exact hx
        · obtain ⟨l, hl, hpl⟩ := List.mem_flatten.mp hp'
          obtain ⟨q', hq', hmap⟩ := List.mem_map.mp hl
          obtain ⟨hq'some, s, hqs, hsfree⟩ := hshape q cs0 q' hcs0 hq'
          have hlen : (segs q').length = (segs q).length + 1 := by
            rw [hqs, segs_append_single q s hsfree, List.length_append]
            rfl
          have hx' : x ∈ subtreePaths st f q' :=
            ih q' p cs x (by omega) hq'some (by rw [hmap]; exact hpl) hcs hx
          refine List.mem_cons.mpr (Or.inr (List.mem_flatten.mpr ⟨l, hl, ?_⟩))
          rw [← hmap]
          exact hx'

theorem attached_mem_forest (st : BuildState)
    (hshape : ∀ p cs q, st.childrenOf.lookup p = some cs → q ∈ cs →
      (st.nodes.lookup q).isSome = true ∧ ∃ s, q = p ++ "/" ++ s ∧ '/' ∉ s.data)
    (hbound : ∀ q, (st.nodes.lookup q).isSome = true →
      (segs q).length ≤ st.nodes.length)
    (hfolder : ∀ p, (st.childrenOf.lookup p).isSome = true →
      (st.nodes.lookup p).isSome = true)
    (hchildkeys : (st.childrenOf.map Prod.fst).Nodup)
    (hrootkeys : ∀ r ∈ st.roots, (st.nodes.lookup r).isSome = true)
    (hattach : ∀ q, (st.nodes.lookup q).isSome = true → q ∈ attachedList st) :
    ∀ (n : Nat) (x : String), (segs x).length ≤ n → x ∈ attachedList st →
      x ∈ ((st.roots.map (fun q => subtreePaths st (st.nodes.length + 1) q)).flatten) := by
  intro n
  induction n with
  | zero =>
    intro x hn _
    have := List.length_pos.mpr (segs_ne_nil x)
    omega
  | succ n ih =>
    intro x hn hx
    rcases List.mem_append.mp hx with hroot | hchild
    · exact List.mem_flatten.mpr ⟨_, List.mem_map.mpr ⟨x, hroot, rfl⟩,
        mem_subtreePaths_self st _ x⟩
    · obtain ⟨l, hl, hxl⟩ := List.mem_flatten.mp hchild
      obtain ⟨pc, hpcs, hsnd⟩ := List.mem_map.mp hl
      have hlk : st.childrenOf.lookup pc.1 = some pc.2 :=
        lookup_of_mem_nodup st.childrenOf pc.1 pc.2 hchildkeys hpcs
      have hxc : x ∈ pc.2 := by
        rw [hsnd]
        exact hxl
      obtain ⟨hxkey, s, hxs, hsfree⟩ := hshape pc.1 pc.2 x hlk hxc
      have hpkey : (st.nodes.lookup pc.1).isSome = true := hfolder pc.1 (by rw [hlk]; rfl)
      have hpattached : pc.1 ∈ attachedList st := hattach pc.1 hpkey
      have hlenx : (segs x).length = (segs pc.1).length + 1 := by
        rw [hxs, segs_append_single _ _ hsfree, List.length_append]
        rfl
      have hpfor := ih pc.1 (by omega) hpattached
      obtain ⟨l', hl', hpl'⟩ := List.mem_flatten.mp hpfor
      obtain ⟨r, hr, hmap⟩ := List.mem_map.mp hl'
      have hmap' : subtreePaths st (st.nodes.length + 1) r = l' := hmap
      have hstep := mem_subtree_step st hshape hbound (st.nodes.length + 1) r pc.1 pc.2 x
        (by omega) (hrootkeys r hr) (by rw [hmap']; exact hpl') hlk hxc
      refine List.mem_flatten.mpr ⟨l', hl', ?_⟩
      rw [← hmap']
      exact hstep

theorem treeNodes_fields (st : BuildState)
    (hshape : ∀ p cs q, st.childrenOf.lookup p = some cs → q ∈ cs →
      (st.nodes.lookup q).isSome = true ∧ ∃ s, q = p ++ "/" ++ s ∧ '/' ∉ s.data)
    (hbound : ∀ q, (st.nodes.lookup q).isSome = true →
      (segs q).length ≤ st.nodes.length) :
    ∀ (fuel : Nat) (q : String), (st.nodes.lookup q).isSome = true →
      st.nodes.length + 1 ≤ fuel + (segs q).length →
      ∀ n ∈ treeNodes (buildNode st fuel q),
        ∃ nd, st.nodes.lookup n.path = some nd ∧ n.name = nd.name ∧ n.type = nd.type
          ∧ n.size = nd.size ∧ n.mimeType = nd.mimeType
          ∧ n.contentType = nd.contentType ∧ n.modified = nd.modified := by
  intro fuel
  induction fuel with
  | zero =>
    intro q hq hb
    exact absurd hb (by have := hbound q hq; omega)
  | succ f ih =>
    intro q hq hb n hn
    unfold buildNode at hn
    cases hnd : st.nodes.lookup q with
    | none =>
      rw [hnd] at hq
      exact absurd hq (by simp)
    | some nd =>
      rw [hnd] at hn
      cases hcs : st.childrenOf.lookup q with
      | none =>
        rw [hcs] at hn
        have hn' : n = FileTreeNode.mk nd.name q nd.type nd.size nd.mimeType
            nd.contentType nd.modified none := List.mem_singleton.mp hn
        subst hn'
        exact ⟨nd, hnd, rfl, rfl, rfl, rfl, rfl, rfl⟩
      | some cs =>
        rw [hcs] at hn
        rcases List.mem_cons.mp hn with rfl | hn''
        · exact ⟨nd, hnd, rfl, rfl, rfl, rfl, rfl, rfl⟩
        · obtain ⟨q', hq', hnq'⟩ := mem_treeNodesList_map st f cs n hn''
          obtain ⟨hq'some, s, hqs, hsfree⟩ := hshape q cs q' hcs hq'
          have hlen : (segs q').length = (segs q).length + 1 := by
            rw [hqs, segs_append_single q s hsfree, List.length_append]
            rfl
          exact ih q' hq'some (by omega) n hnq'

theorem goodEntries_perm {l₁ l₂ : List FileInfo} (hp : l₁.Perm l₂)
    (h : goodEntries l₁) : goodEntries l₂ := by
  obtain ⟨h1, h2, h3⟩ := h
  refine ⟨?_, ?_, ?_⟩
  · exact ((hp.map FileInfo.path).nodup_iff).mp h1
  · intro e₁ he₁ e₂ he₂
    exact h2 e₁ (hp.mem_iff.mpr he₁) e₂ (hp.mem_iff.mpr he₂)
  · intro e he
    exact h3 e (hp.mem_iff.mpr he)


/-! ## The build state of a concrete entry list -/

theorem allNodesPaths_eq (files : List FileInfo) :
    allNodesPaths (buildFileTree files)
      = (((buildState files).roots.map
          (fun q => subtreePaths (buildState files)
            ((buildState files).nodes.length + 1) q)).flatten) := by
  rw [buildFileTree_eq]
  exact nodePathsList_map _ _ _

theorem forestCount_eq_length (files : List FileInfo) :
    forestCount (buildFileTree files) = (allNodesPaths (buildFileTree files)).length := by
  rw [buildFileTree_eq]
  show nodeCountList _ = (nodePathsList _).length
  rw [nodeCountList_map, nodePathsList_map]

/-- Structural facts of the final build state that hold for every input. -/
theorem buildState_facts (files : List FileInfo) :
    (∀ p cs q, (buildState files).childrenOf.lookup p = some cs → q ∈ cs →
      ((buildState files).nodes.lookup q).isSome = true
        ∧ ∃ s, q = p ++ "/" ++ s ∧ '/' ∉ s.data)
    ∧ (∀ p cs, (buildState files).childrenOf.lookup p = some cs → cs.Nodup)
    ∧ (buildState files).roots.Nodup
    ∧ (∀ r ∈ (buildState files).roots, '/' ∉ r.data)
    ∧ (∀ p, ((buildState files).childrenOf.lookup p).isSome = true →
        ((buildState files).nodes.lookup p).isSome = true)
    ∧ (∀ r ∈ (buildState files).roots, ((buildState files).nodes.lookup r).isSome = true)
    ∧ ((buildState files).nodes.map Prod.fst).Nodup := by
  have hinv := buildState_inv files
  have hkeysnodup : (((buildState files).nodes.map Prod.fst).reverse).Nodup := by
    rw [hinv.trace]
    exact nodup_dedupFirst _
  refine ⟨hinv.childShape, ?_, ?_, hinv.rootsFree, ?_, ?_, ?_⟩
  · intro p cs hp
    have h1 : cs ∈ (buildState files).childrenOf.map Prod.snd :=
      lookup_some_mem_snd _ p cs hp
    have h2 : cs.Sublist (((buildState files).childrenOf.map Prod.snd).flatten) :=
      sublist_flatten_of_mem _ cs h1
    have h3 : ((buildState files).roots
        ++ (((buildState files).childrenOf.map Prod.snd).flatten)).Nodup :=
      hinv.attachNodup
    exact List.Nodup.sublist h2 (List.Nodup.of_append_right h3)
  · exact List.Nodup.sublist hinv.rootsSub hkeysnodup
  · intro p hp
    obtain ⟨nd, hnd, _⟩ := (hinv.folderIff p).mp hp
    rw [hnd]
    rfl
  · intro r hr
    exact hinv.attachKeys r (List.mem_append.mpr (Or.inl hr))
  · exact (List.nodup_reverse).mp hkeysnodup

/-- Under well-formed paths, every node key has at most as many segments as
there are keys: all its segment-prefix joins are themselves keys. -/
theorem buildState_keyBound (files : List FileInfo)
    (hwf : ∀ e ∈ files, wfPath e.path) :
    ∀ q, ((buildState files).nodes.lookup q).isSome = true →
      (segs q).length ≤ (buildState files).nodes.length := by
  intro q hq
  have hinv := buildState_inv files
  have hqmem : q ∈ (buildState files).nodes.map Prod.fst :=
    (lookup_isSome_iff q _).mp hq
  have hqmem' : q ∈ dedupFirst ((sortFiles files).flatMap (fun e => runPaths e.path)) := by
    rw [← hinv.trace]
    exact List.mem_reverse.mpr hqmem
  obtain ⟨e, he, hqe⟩ := List.mem_flatMap.mp ((mem_dedupFirst _ _).mp hqmem')
  have hwfe : wfPath e.path := hwf e ((sortFiles_perm files).mem_iff.mp he)
  obtain ⟨t, ht⟩ := (mem_runPaths_iff q e.path hwfe).mp hqe
  have hqlen : (segs q).length ≤ (segs e.path).length := by
    have := congrArg List.length ht
    simp only [List.length_append] at this
    omega
  have hjoin : ∀ k, k < (segs q).length →
      segs (joinSegs ((segs e.path).take (k + 1))) = (segs e.path).take (k + 1) := by
    intro k hk
    apply segs_joinSegs
    · intro hemp
      have := congrArg List.length hemp
      simp only [List.length_take, List.length_nil] at this
      omega
    · intro s hs
      exact no_slash_mem_segs e.path s (List.mem_of_mem_take hs)
  have hpremem : ∀ i, i < (segs q).length →
      joinSegs ((segs e.path).take (i + 1)) ∈ (buildState files).nodes.map Prod.fst := by
    intro i hi
    have hmem : joinSegs ((segs e.path).take (i + 1)) ∈ runPaths e.path := by
      apply (mem_runPaths_iff _ e.path hwfe).mpr
      rw [hjoin i hi]
      exact ⟨(segs e.path).drop (i + 1), List.take_append_drop _ _⟩
    have hmem2 : joinSegs ((segs e.path).take (i + 1))
        ∈ dedupFirst ((sortFiles files).flatMap (fun x => runPaths x.path)) :=
      (mem_dedupFirst _ _).mpr (List.mem_flatMap.mpr ⟨e, he, hmem⟩)
    rw [← hinv.trace] at hmem2
    exact List.mem_reverse.mp hmem2
  have hprenodup : ((List.range (segs q).length).map
      (fun i => joinSegs ((segs e.path).take (i + 1)))).Nodup := by
    apply List.Nodup.map_on ?_ (List.nodup_range _)
    intro i hi j hj hij
    have hi' : i < (segs q).length := List.mem_range.mp hi
    have hj' : j < (segs q).length := List.mem_range.mp hj
    have h1 := congrArg segs hij
    rw [hjoin i hi', hjoin j hj'] at h1
    have h2 := congrArg List.length h1
    simp only [List.length_take] at h2
    omega
  have hsub : ((List.range (segs q).length).map
      (fun i => joinSegs ((segs e.path).take (i + 1)))).toFinset
      ⊆ ((buildState files).nodes.map Prod.fst).toFinset := by
    intro a ha
    rw [List.mem_toFinset] at ha ⊢
    obtain ⟨i, hi, hia⟩ := List.mem_map.mp ha
    rw [← hia]
    exact hpremem i (List.mem_range.mp hi)
  have h1 : ((List.range (segs q).length).map
      (fun i => joinSegs ((segs e.path).take (i + 1)))).toFinset.card
      = (segs q).length := by
    rw [List.toFinset_card_of_nodup hprenodup, List.length_map, List.length_range]
  have h2 := Finset.card_le_card hsub
  have h3 := List.toFinset_card_le ((buildState files).nodes.map Prod.fst)
  rw [h1] at h2
  rw [List.length_map] at h3
  omega

/-- The paths of the returned forest never repeat, whatever the input. -/
theorem forest_nodup (files : List FileInfo) :
    (allNodesPaths (buildFileTree files)).Nodup := by
  obtain ⟨hshape, hcsnodup, hrootsnodup, hrootsfree, _, _, _⟩ := buildState_facts files
  rw [allNodesPaths_eq]
  exact forest_paths_nodup _ hshape hcsnodup hrootsnodup hrootsfree _

/-- Every forest path is attached in the final state. -/
theorem forest_sub_attached (files : List FileInfo) :
    ∀ x ∈ allNodesPaths (buildFileTree files), x ∈ attachedList (buildState files) := by
  intro x hx
  rw [allNodesPaths_eq] at hx
  obtain ⟨l, hl, hxl⟩ := List.mem_flatten.mp hx
  obtain ⟨r, hr, hmap⟩ := List.mem_map.mp hl
  have hmap' : subtreePaths (buildState files)
      ((buildState files).nodes.length + 1) r = l := hmap
  rcases mem_subtreePaths_attached (buildState files) _ r x
      (by rw [hmap']; exact hxl) with rfl | hm
  · exact List.mem_append.mpr (Or.inl hr)
  · exact List.mem_append.mpr (Or.inr hm)

/-- When every key is attached and paths are well formed, the forest shows
exactly the keys of the node table. -/
theorem forest_mem_iff_key (files : List FileInfo)
    (hwf : ∀ e ∈ files, wfPath e.path)
    (hattach : ∀ q, ((buildState files).nodes.lookup q).isSome = true →
      q ∈ attachedList (buildState files)) :
    ∀ x, x ∈ allNodesPaths (buildFileTree files) ↔
      x ∈ ((buildState files).nodes.map Prod.fst) := by
  obtain ⟨hshape, _, _, _, hfolder, hrootkeys, _⟩ := buildState_facts files
  have hinv := buildState_inv files
  have hbound := buildState_keyBound files hwf
  intro x
  constructor
  · intro hx
    exact (lookup_isSome_iff _ _).mp (hinv.attachKeys x (forest_sub_attached files x hx))
  · intro hx
    have hxatt := hattach x ((lookup_isSome_iff _ _).mpr hx)
    rw [allNodesPaths_eq]
    exact attached_mem_forest (buildState files) hshape hbound hfolder
      hinv.childKeysNodup hrootkeys hattach (segs x).length x (le_refl _) hxatt

/-! ## Claim C4: the search filter -/

/-- C4: for every entry list and search term, the filter keeps exactly the
entries whose path, lowercased, contains the lowercased term as a
substring; the empty term filters nothing; a term matching no path gives
the empty list, whose tree build is the empty forest. -/
theorem filter_matches_spec (files : List FileInfo) (term : String) :
    (∀ e, e ∈ filteredFiles files term ↔
        e ∈ files ∧ ∃ l r, (toLowerStr e.path).data = l ++ (toLowerStr term).data ++ r)
    ∧ filteredFiles files "" = files
    ∧ ((∀ e ∈ files, ¬ ∃ l r, (toLowerStr e.path).data = l ++ (toLowerStr term).data ++ r) →
        filteredFiles files term = [] ∧ buildFileTree (filteredFiles files term) = []) := by
  refine ⟨?_, ?_, ?_⟩
  · intro e
    rw [filteredFiles, List.mem_filter, strIncludes_iff]
  · rw [filteredFiles, List.filter_eq_self.mpr]
    intro e _
    exact strIncludes_empty _
  · intro hnone
    have h0 : filteredFiles files term = [] := by
      rw [filteredFiles, List.filter_eq_nil_iff]
      intro e he hs
      exact hnone e he ((strIncludes_iff _ _).mp hs)
    exact ⟨h0, by rw [h0]; rfl⟩

/-- Witness for C4 at a concrete input: no path contains `"zzz"`, so the
filter result and its tree are empty. -/
theorem filter_matches_spec_witness :
    filteredFiles [mkFi "a.txt" 1] "zzz" = []
    ∧ buildFileTree (filteredFiles [mkFi "a.txt" 1] "zzz") = [] :=
  (filter_matches_spec [mkFi "a.txt" 1] "zzz").2.2 (by decide)

/-! ## Claim C7: purity of the tree builder -/

/-- C7: `buildFileTree` is a pure function of its input: the same input
value always yields the same (value-equal) forest, and what is sorted is
a copy — a permutation of the input list, which itself is untouched. -/
theorem buildFileTree_pure (files : List FileInfo) :
    buildFileTree files = buildFileTree files ∧ (sortFiles files).Perm files :=
  ⟨rfl, sortFiles_perm files⟩

/-! ## Claim C6: the auto-expanded folder set -/

theorem mem_insertSet (s : List String) (y x : String) :
    x ∈ insertSet s y ↔ x ∈ s ∨ x = y := by
  unfold insertSet
  by_cases h : y ∈ s
  · rw [if_pos h]
    constructor
    · exact Or.inl
    · rintro (hx | rfl)
      · exact hx
      · exact h
  · rw [if_neg h]
    simp [List.mem_append]

theorem mem_rootFoldersStep (acc : List String) (f : FileInfo) (x : String) :
    x ∈ rootFoldersStep acc f ↔
      x ∈ acc ∨ (∃ b l, segs f.path = x :: b :: l)
        ∨ (∃ a b c l, segs f.path = a :: b :: c :: l ∧ x = a ++ "/" ++ b) := by
  unfold rootFoldersStep
  cases hs : segs f.path with
  | nil =>
    simp only [hs]
    constructor
    · exact fun h => Or.inl h
    · rintro (h | ⟨b, l, hl⟩ | ⟨a, b, c, l, hl, _⟩)
      · exact h
      · exact absurd hl (by simp)
      · exact absurd hl (by simp)
  | cons p0 rest0 =>
    cases rest0 with
    | nil =>
      simp only [hs]
      constructor
      · exact fun h => Or.inl h
      · rintro (h | ⟨b, l, hl⟩ | ⟨a, b, c, l, hl, _⟩)
        · exact h
        · exact absurd hl (by simp)
        · exact absurd hl (by simp)
    | cons p1 rest =>
      cases rest with
      | nil =>
        simp only [hs, mem_insertSet]
        constructor
        · rintro (h | rfl)
          · exact Or.inl h
          · exact Or.inr (Or.inl ⟨p1, [], rfl⟩)
        · rintro (h | ⟨b, l, hl⟩ | ⟨a, b, c, l, hl, _⟩)
          · exact Or.inl h
          · injection hl with h1 _
            exact Or.inr h1.symm
          · exact absurd hl (by simp)
      | cons p2 rest2 =>
        simp only [hs, mem_insertSet]
        constructor
        · rintro ((h | rfl) | rfl)
          · exact Or.inl h
          · exact Or.inr (Or.inl ⟨p1, p2 :: rest2, rfl⟩)
          · exact Or.inr (Or.inr ⟨p0, p1, p2, rest2, rfl, rfl⟩)
        · rintro (h | ⟨b, l, hl⟩ | ⟨a, b, c, l, hl, hx⟩)
          · exact Or.inl (Or.inl h)
          · injection hl with h1 _
            exact Or.inl (Or.inr h1.symm)
          · injection hl with h1 h2
            injection h2 with h2 _
            exact Or.inr (by rw [hx, h1, h2])

theorem mem_rootFolders_foldl (files : List FileInfo) (acc : List String) (x : String) :
    x ∈ files.foldl rootFoldersStep acc ↔
      x ∈ acc ∨ firstLevelDir files x ∨ secondLevelDir files x := by
  induction files generalizing acc with
  | nil =>
    simp only [List.foldl_nil, firstLevelDir, secondLevelDir]
    constructor
    · exact fun h => Or.inl h
    · rintro (h | ⟨e, he, _⟩ | ⟨e, he, _⟩)
      · exact h
      · exact absurd he (by simp)
      · exact absurd he (by simp)
  | cons f fs ih =>
    rw [List.foldl_cons, ih, mem_rootFoldersStep]
    unfold firstLevelDir secondLevelDir
    constructor
    · rintro ((h | ⟨b, l, hl⟩ | ⟨a, b, c, l, hl, hx⟩) | h | h)
      · exact Or.inl h
      · exact Or.inr (Or.inl ⟨f, List.mem_cons_self _ _, b, l, hl⟩)
      · exact Or.inr (Or.inr ⟨f, List.mem_cons_self _ _, a, b, c, l, hl, hx⟩)
      · obtain ⟨e, he, hrest⟩ := h
        exact Or.inr (Or.inl ⟨e, List.mem_cons_of_mem _ he, hrest⟩)
      · obtain ⟨e, he, hrest⟩ := h
        exact Or.inr (Or.inr ⟨e, List.mem_cons_of_mem _ he, hrest⟩)
    · rintro (h | ⟨e, he, b, l, hl⟩ | ⟨e, he, a, b, c, l, hl, hx⟩)
      · exact Or.inl (Or.inl h)
      · rcases List.mem_cons.mp he with rfl | he
        · exact Or.inl (Or.inr (Or.inl ⟨b, l, hl⟩))
        · exact Or.inr (Or.inl ⟨e, he, b, l, hl⟩)
      · rcases List.mem_cons.mp he with rfl | he
        · exact Or.inl (Or.inr (Or.inr ⟨a, b, c, l, hl, hx⟩))
        · exact Or.inr (Or.inr ⟨e, he, a, b, c, l, hl, hx⟩)

/-- C6: after a fresh successful overview load with a non-empty file list,
the expanded set is exactly the first-level directory paths united with
the second-level directory paths of the full file list, and changing the
search term leaves it untouched. -/
theorem autoExpand_matches_spec (st : BrowserState) (d : CodebaseData) (t : String)
    (hne : d.files ≠ []) :
    (∀ x, x ∈ (rootFoldersEffect (fetchCodebaseResult st (ApiResult.success d))).expandedFolders
        ↔ firstLevelDir d.files x ∨ secondLevelDir d.files x)
    ∧ (setSearch (rootFoldersEffect (fetchCodebaseResult st (ApiResult.success d))) t).expandedFolders
        = (rootFoldersEffect (fetchCodebaseResult st (ApiResult.success d))).expandedFolders := by
  have hlen : 0 < d.files.length := List.length_pos.mpr hne
  have heff : (rootFoldersEffect (fetchCodebaseResult st (ApiResult.success d))).expandedFolders
      = rootFolders d.files := by
    simp only [rootFoldersEffect, fetchCodebaseResult]
    rw [if_pos hlen]
  refine ⟨?_, rfl⟩
  intro x
  rw [heff]
  unfold rootFolders
  rw [mem_rootFolders_foldl]
  simp

/-- Witness for C6 at a concrete input. -/
theorem autoExpand_witness :
    (setSearch (rootFoldersEffect (fetchCodebaseResult stFix (ApiResult.success dataFix))) "q").expandedFolders
      = (rootFoldersEffect (fetchCodebaseResult stFix (ApiResult.success dataFix))).expandedFolders :=
  (autoExpand_matches_spec stFix dataFix "q" (by decide)).2

/-! ## Claim C10: README detection in the overview handler -/

theorem isReadme_bool_iff (kv : String × WalrusFileEntry) :
    (strIncludes (toLowerStr kv.1) "readme" && (kv.2.content_type == ContentType.text)) = true
      ↔ isReadmeEntry kv := by
  rw [Bool.and_eq_true, strIncludes_iff, beq_iff_eq]
  rfl

theorem isReadme_key_ne_empty {kv : String × WalrusFileEntry} (h : isReadmeEntry kv) :
    kv.1 ≠ "" := by
  obtain ⟨⟨l, r, hl⟩, _⟩ := h
  intro he
  rw [he] at hl
  have : (toLowerStr "").data = [] := rfl
  rw [this] at hl
  exact absurd hl.symm (by simp)

/-- C10: in the overview response, `readmeFile` is the first key of the
blob's file map whose lowercased path contains `"readme"` and whose
content type is text, `readmeContent` is that entry's `content`, and both
are null exactly when no such key exists. -/
theorem overviewReadme_spec (files : List (String × WalrusFileEntry)) :
    ((overviewReadme files = (none, none)) ↔ ∀ kv ∈ files, ¬ isReadmeEntry kv)
    ∧ (∀ k, (overviewReadme files).1 = some k →
        ∃ v l₁ l₂, files = l₁ ++ (k, v) :: l₂ ∧ isReadmeEntry (k, v)
          ∧ (∀ kv ∈ l₁, ¬ isReadmeEntry kv)
          ∧ ((files.map Prod.fst).Nodup → (overviewReadme files).2 = some v.content)) := by
  cases hf : (findReadme files).map Prod.fst with
  | none =>
    have hnone : findReadme files = none := by
      cases hg : findReadme files
      · rfl
      · rw [hg] at hf
        exact absurd hf (by simp)
    have hover : overviewReadme files = (none, none) := by
      unfold overviewReadme
      rw [hf]
    rw [hover]
    constructor
    · constructor
      · intro _ kv hkv hr
        unfold findReadme at hnone
        have := List.find?_eq_none.mp hnone kv hkv
        exact this ((isReadme_bool_iff kv).mpr hr)
      · intro _
        rfl
    · intro k hk
      exact absurd hk (by simp)
  | some k0 =>
    obtain ⟨kv0, hkv0, hfst⟩ : ∃ kv, findReadme files = some kv ∧ kv.1 = k0 := by
      cases hg : findReadme files with
      | none => rw [hg] at hf; exact absurd hf (by simp)
      | some kv =>
        rw [hg] at hf
        have hf' : some kv.1 = some k0 := hf
        exact ⟨kv, rfl, by injection hf' with h⟩
    have hkv0' : files.find? (fun kv =>
        strIncludes (toLowerStr kv.1) "readme" && kv.2.content_type == ContentType.text)
        = some kv0 := hkv0
    obtain ⟨hp, l₁, l₂, hsplit, hearly⟩ := find?_eq_some_split _ _ _ hkv0'
    have hread : isReadmeEntry kv0 := (isReadme_bool_iff kv0).mp hp
    have hk0ne : k0 ≠ "" := hfst ▸ isReadme_key_ne_empty hread
    have hover : overviewReadme files
        = (some k0, (files.lookup k0).map WalrusFileEntry.content) := by
      unfold overviewReadme
      rw [hf]
      exact if_neg hk0ne
    rw [hover]
    constructor
    · constructor
      · intro he
        exact absurd (congrArg Prod.fst he) (by simp)
      · intro hall
        exact absurd hread (hall kv0
          (by rw [hsplit]; exact List.mem_append_right _ (List.mem_cons_self _ _)))
    · intro k hk
      have hkk : k0 = k := by
        have hk' : some k0 = some k := hk
        injection hk' with h
      subst hkk
      obtain ⟨kk, vv⟩ := kv0
      have hkk0 : kk = k0 := hfst
      subst hkk0
      refine ⟨vv, l₁, l₂, hsplit, hread, ?_, ?_⟩
      · intro kv hkv hr
        have hfalse := hearly kv hkv
        have htrue := (isReadme_bool_iff kv).mpr hr
        rw [hfalse] at htrue
        exact absurd htrue (by simp)
      · intro hnodup
        have hnotin : kk ∉ l₁.map Prod.fst := by
          rw [hsplit, List.map_append] at hnodup
          have hdisj := (List.nodup_append.mp hnodup).2.2
          intro hmem
          exact hdisj hmem (by simp)
        show (List.lookup kk files).map WalrusFileEntry.content = some vv.content
        rw [hsplit, lookup_append_left_none _ _ _ hnotin, lookup_cons, if_pos rfl]
        rfl

/-- Witness for C10 at a concrete file map containing a README. -/
theorem overviewReadme_witness :
    ∃ v l₁ l₂, wfilesFix = l₁ ++ ("README.md", v) :: l₂ ∧ isReadmeEntry ("README.md", v)
      ∧ (∀ kv ∈ l₁, ¬ isReadmeEntry kv)
      ∧ ((wfilesFix.map Prod.fst).Nodup → (overviewReadme wfilesFix).2 = some v.content) :=
  (overviewReadme_spec wfilesFix).2 "README.md" (by decide)

/-! ## Claim C5: file selection, success and failure -/

/-- Counterexample to C5 as stated: on a `success: false` response the
component's top-level `error` early-return replaces the whole browser —
the file list is gone and nothing is highlighted, rather than an error
confined to the content pane with the selection still shown. -/
theorem fileSelect_fail_counterexample :
    render (handleFileSelectResult stFix (ApiResult.failure "boom")) = View.errorView "boom"
    ∧ ¬ ∃ v : BrowserView,
        render (handleFileSelectResult stFix (ApiResult.failure "boom")) = View.browser v
          ∧ v.highlightedPath = some "f.txt" := by
  have h : render (handleFileSelectResult stFix (ApiResult.failure "boom"))
      = View.errorView "boom" := rfl
  refine ⟨h, ?_⟩
  rintro ⟨v, hv, _⟩
  rw [h] at hv
  exact View.noConfusion hv

/-- C5 (amended): on a successful content fetch the selected-file state
records the payload (hence path P) and, when overview data is present and
the overview is not still loading, the rendered browser highlights P and
shows exactly the returned content for text files; on `success: false`,
the error message replaces the entire component (no file list is
rendered) and the selection state is left unchanged. -/
theorem fileSelect_spec (st : BrowserState) (fd : FileData) (msg : String) :
    ((handleFileSelectResult st (ApiResult.success fd)).selectedFile = some fd)
    ∧ (st.isLoading = false → ∀ d, st.codebaseData = some d →
        ∃ v, render (handleFileSelectResult st (ApiResult.success fd)) = View.browser v
          ∧ v.highlightedPath = some fd.filePath
          ∧ (fd.contentType = ContentType.text →
              v.contentPane = ContentPane.fileText fd.filePath fd.content))
    ∧ ((handleFileSelectResult st (ApiResult.failure msg)).selectedFile = st.selectedFile)
    ∧ (st.isLoading = false →
        render (handleFileSelectResult st (ApiResult.failure msg)) = View.errorView msg) := by
  refine ⟨rfl, ?_, rfl, ?_⟩
  · intro hload d hdata
    obtain ⟨cd, sel, il, ilf, err, sterm, exp⟩ := st
    have hil : il = false := hload
    have hcd : cd = some d := hdata
    subst hil
    subst hcd
    obtain ⟨fp, co, ct, mi, sz, mo, me⟩ := fd
    refine ⟨_, rfl, rfl, fun hct => ?_⟩
    have hctt : ct = ContentType.text := hct
    subst hctt
    rfl
  · intro hload
    obtain ⟨cd, sel, il, ilf, err, sterm, exp⟩ := st
    have hil : il = false := hload
    subst hil
    rfl

/-- Witness for C5 (amended) at a concrete state and payload. -/
theorem fileSelect_witness :
    render (handleFileSelectResult stFix (ApiResult.failure "m")) = View.errorView "m" :=
  (fileSelect_spec stFix fdFix "m").2.2.2 rfl

/-! ## Counterexamples for the tree-shape claims -/

/-- Counterexample to C1 as stated: the single entry `"/"` has unique,
prefix-free paths, one proper directory ancestor (`""`), and one entry, yet
the built forest has a single node, not `1 + 1 = 2`: the leading separator
makes the walk revisit the node `""` and the file node is never created. -/
theorem nodeCount_counterexample :
    (List.map FileInfo.path [mkFi "/" 1]).Nodup
    ∧ (∀ e₁ ∈ [mkFi "/" 1], ∀ e₂ ∈ [mkFi "/" 1], ¬ segStrictPre e₁.path e₂.path)
    ∧ forestCount (buildFileTree [mkFi "/" 1]) ≠
        List.length [mkFi "/" 1]
          + (dedupFirst (([mkFi "/" 1]).flatMap (fun e => dirAncestors e.path))).length := by
  decide

/-- Counterexample to C3 as stated: for the single entry `"/a"` (unique and
prefix-free) the forest contains a file node with full path `"a"`, but no
entry's path equals `"a"`. -/
theorem nodeKind_counterexample :
    (List.map FileInfo.path [mkFi "/a" 1]).Nodup
    ∧ (∀ e₁ ∈ [mkFi "/a" 1], ∀ e₂ ∈ [mkFi "/a" 1], ¬ segStrictPre e₁.path e₂.path)
    ∧ (allNodes (buildFileTree [mkFi "/a" 1])).map (fun n => (n.path, n.type))
        = [("", NodeType.folder), ("a", NodeType.file)]
    ∧ (∀ e ∈ [mkFi "/a" 1], e.path ≠ "a") := by
  decide

/-- Counterexample to C8 as stated: the input contains the file entry
`"a"` and the extending entry `"a/x"`, yet the node `"a/x"` (strictly
below `"a"`) appears in the returned forest, because the entry `"/a/b"`
sorts first and creates the node at `"a"` as a folder. -/
theorem belowFile_counterexample :
    mkFi "a" 1 ∈ [mkFi "/a/b" 1, mkFi "a" 1, mkFi "a/x" 1]
    ∧ mkFi "a/x" 1 ∈ [mkFi "/a/b" 1, mkFi "a" 1, mkFi "a/x" 1]
    ∧ (mkFi "a/x" 1).path = "a" ++ "/" ++ "x"
    ∧ "a" ++ "/" ++ "x"
        ∈ allNodesPaths (buildFileTree [mkFi "/a/b" 1, mkFi "a" 1, mkFi "a/x" 1]) := by
  decide

/-- Counterexample to C9 as stated: the input has two entries with the same
path `"a/b"`, but the returned forest contains no node at all for that
path (the parent `"a"` is a file, so the node is created in the lookup
table and then dropped), not "exactly one node". -/
theorem duplicate_counterexample :
    (List.filter (fun e => e.path == "a/b")
        [mkFi "a" 1, mkFi "a/b" 1, mkFi "a/b" 2]).length = 2
    ∧ List.count "a/b"
        (allNodesPaths (buildFileTree [mkFi "a" 1, mkFi "a/b" 1, mkFi "a/b" 2])) = 0 := by
  decide

/-- C1 (amended): for entries with unique, prefix-free, well-formed paths
(nonempty first segment, so no leading `'/'`), the total node count of the
forest equals the number of entries plus the number of distinct proper
directory prefixes across all entry paths; and `buildFileTree []` is empty.
The well-formedness condition is required: see the counterexample. -/
theorem nodeCount_amended (files : List FileInfo) (h : goodEntries files) :
    buildFileTree [] = [] ∧
    forestCount (buildFileTree files)
      = files.length + ((files.flatMap (fun e => dirAncestors e.path)).toFinset).card := by
  refine ⟨rfl, ?_⟩
  have hGoodS : goodEntries (sortFiles files) :=
    goodEntries_perm (sortFiles_perm files).symm h
  have hinv := buildState_inv files
  have hwf : ∀ e ∈ files, wfPath e.path := h.2.2
  have hattach : ∀ q, ((buildState files).nodes.lookup q).isSome = true →
      q ∈ attachedList (buildState files) := by
    intro q hq
    obtain ⟨nd, hnd⟩ := Option.isSome_iff_exists.mp hq
    exact hinv.attachTotal hGoodS q nd hnd
  have hmemiff := forest_mem_iff_key files hwf hattach
  have hkeysnodup : (((buildState files).nodes.map Prod.fst)).Nodup :=
    (buildState_facts files).2.2.2.2.2.2
  have hperm : (allNodesPaths (buildFileTree files)).Perm
      ((buildState files).nodes.map Prod.fst) :=
    (List.perm_ext_iff_of_nodup (forest_nodup files) hkeysnodup).mpr hmemiff
  have hlen1 : forestCount (buildFileTree files) = (buildState files).nodes.length := by
    rw [forestCount_eq_length, hperm.length_eq, List.length_map]
  have hlen2 : (buildState files).nodes.length
      = (dedupFirst ((sortFiles files).flatMap (fun e => runPaths e.path))).length := by
    have hh := congrArg List.length hinv.trace
    rw [List.length_reverse, List.length_map] at hh
    exact hh
  rw [hlen1, hlen2, dedupFirst_length_eq_card]
  have hset : ((sortFiles files).flatMap (fun e => runPaths e.path)).toFinset
      = (files.map FileInfo.path).toFinset
        ∪ ((files.flatMap (fun e => dirAncestors e.path)).toFinset) := by
    apply Finset.ext
    intro a
    rw [Finset.mem_union, List.mem_toFinset, List.mem_toFinset, List.mem_toFinset]
    constructor
    · intro ha
      obtain ⟨e, he, hae⟩ := List.mem_flatMap.mp ha
      have he' : e ∈ files := (sortFiles_perm files).mem_iff.mp he
      rw [runPaths_wf_split e.path (hwf e he')] at hae
      rcases List.mem_append.mp hae with hanc | hlast
      · exact Or.inr (List.mem_flatMap.mpr ⟨e, he', hanc⟩)
      · exact Or.inl (List.mem_map.mpr ⟨e, he', (List.mem_singleton.mp hlast).symm⟩)
    · intro ha
      rcases ha with hpath | hanc
      · obtain ⟨e, he, hae⟩ := List.mem_map.mp hpath
        refine List.mem_flatMap.mpr ⟨e, (sortFiles_perm files).mem_iff.mpr he, ?_⟩
        rw [runPaths_wf_split e.path (hwf e he), ← hae]
        exact List.mem_append.mpr (Or.inr (List.mem_singleton.mpr rfl))
      · obtain ⟨e, he, hae⟩ := List.mem_flatMap.mp hanc
        refine List.mem_flatMap.mpr ⟨e, (sortFiles_perm files).mem_iff.mpr he, ?_⟩
        rw [runPaths_wf_split e.path (hwf e he)]
        exact List.mem_append.mpr (Or.inl hae)
  have hdisj : Disjoint ((files.map FileInfo.path).toFinset)
      ((files.flatMap (fun e => dirAncestors e.path)).toFinset) := by
    rw [Finset.disjoint_left]
    intro a ha hb
    rw [List.mem_toFinset] at ha hb
    obtain ⟨e₁, he₁, hae₁⟩ := List.mem_map.mp ha
    obtain ⟨e₂, he₂, hae₂⟩ := List.mem_flatMap.mp hb
    obtain ⟨j, hj, hsegsa⟩ := mem_dirAncestors_segs e₂.path a hae₂
    have hne : a ≠ e₂.path := mem_dirAncestors_ne e₂.path a hae₂
    refine h.2.1 e₁ he₁ e₂ he₂ ⟨⟨(segs e₂.path).drop (j + 1), ?_⟩, ?_⟩
    · rw [hae₁, hsegsa, List.take_append_drop]
    · rw [hae₁]
      exact hne
  rw [hset, Finset.card_union_of_disjoint hdisj,
    List.toFinset_card_of_nodup h.1, List.length_map]

theorem nodeCount_amended_witness :
    goodEntries fixC1 ∧
    (buildFileTree [] = [] ∧
      forestCount (buildFileTree fixC1)
        = fixC1.length + ((fixC1.flatMap (fun e => dirAncestors e.path)).toFinset).card) :=
  ⟨by decide, nodeCount_amended fixC1 (by decide)⟩

/-- C3 (amended): for entries with unique, prefix-free, well-formed paths,
every node of the forest is a file exactly when its full path is an entry
path (and then carries that entry's metadata), is a directory exactly when
some entry path strictly extends its path followed by `'/'`, and no path
appears at two nodes. The well-formedness condition is required: see the
counterexample. -/
theorem nodeKind_amended (files : List FileInfo) (h : goodEntries files) :
    (allNodesPaths (buildFileTree files)).Nodup
    ∧ ∀ n ∈ allNodes (buildFileTree files),
      (n.type = NodeType.file ↔ ∃ e ∈ files, e.path = n.path)
      ∧ (n.type = NodeType.file → ∃ e ∈ files, e.path = n.path
          ∧ n.size = some e.size ∧ n.mimeType = some e.mimeType
          ∧ n.contentType = some e.contentType ∧ n.modified = some e.modified)
      ∧ (n.type = NodeType.folder ↔ ∃ e ∈ files, ∃ r, e.path = n.path ++ "/" ++ r) := by
  refine ⟨forest_nodup files, ?_⟩
  intro n hn
  obtain ⟨hshape, _, _, _, _, hrootkeys, _⟩ := buildState_facts files
  have hinv := buildState_inv files
  have hwf : ∀ e ∈ files, wfPath e.path := h.2.2
  have hbound := buildState_keyBound files hwf
  have hn' : n ∈ treeNodesList (((buildState files).roots).map
      (fun q => buildNode (buildState files) ((buildState files).nodes.length + 1) q)) := by
    rw [buildFileTree_eq] at hn
    exact hn
  obtain ⟨r, hr, hnr⟩ := mem_treeNodesList_map _ _ _ n hn'
  obtain ⟨nd, hlk, hname, htype, hsize, hmime, hct, hmod⟩ :=
    treeNodes_fields (buildState files) hshape hbound _ r (hrootkeys r hr)
      (Nat.le_add_right _ _) n hnr
  obtain ⟨x, hfx, hmk⟩ := hinv.dataChar n.path nd hlk
  have hx_sorted : x ∈ sortFiles files := List.mem_of_find?_eq_some hfx
  have hx_files : x ∈ files := (sortFiles_perm files).mem_iff.mp hx_sorted
  have hx_pred := List.find?_some hfx
  have hx_reach : n.path ∈ runPaths x.path := (contains_iff_mem _ _).mp hx_pred
  have hwfx : wfPath x.path := hwf x hx_files
  have hfileiff : nd.type = NodeType.file ↔ n.path = x.path := by
    rw [hmk]
    exact mkNodeData_type_wf x n.path hwfx hx_reach
  have hrsplit := runPaths_wf_split x.path hwfx
  refine ⟨?_, ?_, ?_⟩
  · rw [htype, hfileiff]
    constructor
    · intro hpe
      exact ⟨x, hx_files, hpe.symm⟩
    · rintro ⟨e, he, hep⟩
      by_contra hne
      have hanc : n.path ∈ dirAncestors x.path := by
        rw [hrsplit] at hx_reach
        rcases List.mem_append.mp hx_reach with hh | hh
        · exact hh
        · exact absurd (List.mem_singleton.mp hh) hne
      obtain ⟨j, hj, hsg⟩ := mem_dirAncestors_segs x.path n.path hanc
      refine h.2.1 e he x hx_files ⟨⟨(segs x.path).drop (j + 1), ?_⟩, ?_⟩
      · rw [hep, hsg, List.take_append_drop]
      · rw [hep]
        exact hne
  · intro hfile
    have hndfile : nd.type = NodeType.file := by
      rw [← htype]
      exact hfile
    have hpe : n.path = x.path := hfileiff.mp hndfile
    obtain ⟨hs, hm, hc, hmo⟩ := mkNodeData_file_fields x n.path (by rw [← hmk]; exact hndfile)
    exact ⟨x, hx_files, hpe.symm,
      by rw [hsize, hmk]; exact hs,
      by rw [hmime, hmk]; exact hm,
      by rw [hct, hmk]; exact hc,
      by rw [hmod, hmk]; exact hmo⟩
  · have hfoldiff : nd.type = NodeType.folder ↔ n.path ≠ x.path := by
      constructor
      · intro hf hpe
        have hff : nd.type = NodeType.file := by
          rw [hmk]
          exact (mkNodeData_type_wf x n.path hwfx hx_reach).mpr hpe
        rw [hff] at hf
        exact NodeType.noConfusion hf
      · intro hne
        cases hnd : nd.type
        · exact absurd (hfileiff.mp hnd) hne
        · rfl
    rw [htype, hfoldiff]
    constructor
    · intro hne
      have hanc : n.path ∈ dirAncestors x.path := by
        rw [hrsplit] at hx_reach
        rcases List.mem_append.mp hx_reach with hh | hh
        · exact hh
        · exact absurd (List.mem_singleton.mp hh) hne
      obtain ⟨j, hj, hsg⟩ := mem_dirAncestors_segs x.path n.path hanc
      refine ⟨x, hx_files, joinSegs ((segs x.path).drop (j + 1)), ?_⟩
      have hdrop_ne : (segs x.path).drop (j + 1) ≠ [] := by
        intro hemp
        have := congrArg List.length hemp
        simp only [List.length_drop, List.length_nil] at this
        omega
      have htk_ne : (segs x.path).take (j + 1) ≠ [] := by
        intro hemp
        have := congrArg List.length hemp
        simp only [List.length_take, List.length_nil] at this
        omega
      calc x.path = joinSegs (segs x.path) := (joinSegs_segs x.path).symm
        _ = joinSegs ((segs x.path).take (j + 1) ++ (segs x.path).drop (j + 1)) := by
              rw [List.take_append_drop]
        _ = joinSegs ((segs x.path).take (j + 1)) ++ "/"
              ++ joinSegs ((segs x.path).drop (j + 1)) :=
              joinSegs_append _ _ htk_ne hdrop_ne
        _ = n.path ++ "/" ++ joinSegs ((segs x.path).drop (j + 1)) := by
              rw [← hsg, joinSegs_segs]
    · rintro ⟨e, he, rr, hext⟩ hpe
      rw [hpe] at hext
      refine h.2.1 x hx_files e he ⟨⟨segs rr, ?_⟩, ?_⟩
      · rw [hext, segs_append]
      · intro hxe
        have hh : x.path = x.path ++ "/" ++ rr := hxe.trans hext
        have hd := congrArg String.data hh
        rw [data_append_slash] at hd
        have hlen := congrArg List.length hd
        simp only [List.length_append, List.length_cons] at hlen
        omega

theorem nodeKind_amended_witness :
    goodEntries fixC1 ∧
    ((allNodesPaths (buildFileTree fixC1)).Nodup
    ∧ ∀ n ∈ allNodes (buildFileTree fixC1),
      (n.type = NodeType.file ↔ ∃ e ∈ fixC1, e.path = n.path)
      ∧ (n.type = NodeType.file → ∃ e ∈ fixC1, e.path = n.path
          ∧ n.size = some e.size ∧ n.mimeType = some e.mimeType
          ∧ n.contentType = some e.contentType ∧ n.modified = some e.modified)
      ∧ (n.type = NodeType.folder ↔ ∃ e ∈ fixC1, ∃ r, e.path = n.path ++ "/" ++ r)) :=
  ⟨by decide, nodeKind_amended fixC1 (by decide)⟩

/-! ## Shape invariance under input permutation -/

theorem insertPart_eq_noop (f : FileInfo) (cp np part : String) (b : Bool)
    (st : BuildState) (hx : (st.nodes.lookup np).isSome = true) :
    insertPart f cp np part b st = st := by
  unfold insertPart
  rw [if_pos hx]

theorem insertPart_eq_root (f : FileInfo) (cp np part : String) (b : Bool)
    (st : BuildState) (hx : ¬ (st.nodes.lookup np).isSome = true) (hcp : cp = "") :
    insertPart f cp np part b st =
      { roots := st.roots ++ [np]
        nodes := (np, createdData f part b) :: st.nodes
        childrenOf := if b then st.childrenOf else (np, []) :: st.childrenOf } := by
  unfold insertPart
  rw [if_neg hx, if_pos hcp]

theorem insertPart_eq_attach (f : FileInfo) (cp np part : String) (b : Bool)
    (st : BuildState) (hx : ¬ (st.nodes.lookup np).isSome = true) (hcp : ¬ cp = "")
    (hat : ((if b then st.childrenOf else (np, []) :: st.childrenOf).lookup cp).isSome
      = true) :
    insertPart f cp np part b st =
      { roots := st.roots
        nodes := (np, createdData f part b) :: st.nodes
        childrenOf := appendChild
          (if b then st.childrenOf else (np, []) :: st.childrenOf) cp np } := by
  unfold insertPart
  rw [if_neg hx, if_neg hcp, if_pos hat]

theorem insertPart_eq_drop (f : FileInfo) (cp np part : String) (b : Bool)
    (st : BuildState) (hx : ¬ (st.nodes.lookup np).isSome = true) (hcp : ¬ cp = "")
    (hat : ¬ ((if b then st.childrenOf else (np, []) :: st.childrenOf).lookup cp).isSome
      = true) :
    insertPart f cp np part b st =
      { roots := st.roots
        nodes := (np, createdData f part b) :: st.nodes
        childrenOf := if b then st.childrenOf else (np, []) :: st.childrenOf } := by
  unfold insertPart
  rw [if_neg hx, if_neg hcp, if_neg hat]

theorem eraseNodes_map_fst (m : List (String × NodeData)) :
    (eraseNodes m).map Prod.fst = m.map Prod.fst := by
  unfold eraseNodes
  rw [List.map_map]
  apply List.map_congr_left
  intro kv _
  rfl

theorem lookup_isSome_congr (m m' : List (String × NodeData))
    (h : eraseNodes m = eraseNodes m') (k : String) :
    (m.lookup k).isSome = (m'.lookup k).isSome := by
  have hf : m.map Prod.fst = m'.map Prod.fst := by
    rw [← eraseNodes_map_fst, h, eraseNodes_map_fst]
  by_cases hk : k ∈ m.map Prod.fst
  · rw [(lookup_isSome_iff k m).mpr hk, (lookup_isSome_iff k m').mpr (by rw [← hf]; exact hk)]
  · have hk' : k ∉ m'.map Prod.fst := by
      rw [← hf]
      exact hk
    have h1 : ¬ (m.lookup k).isSome = true := fun hs => hk ((lookup_isSome_iff k m).mp hs)
    have h2 : ¬ (m'.lookup k).isSome = true := fun hs => hk' ((lookup_isSome_iff k m').mp hs)
    rw [Bool.not_eq_true] at h1 h2
    rw [h1, h2]

theorem lookup_erase_congr (m : List (String × NodeData)) :
    ∀ (m' : List (String × NodeData)), eraseNodes m = eraseNodes m' → ∀ k,
    (m.lookup k).map (fun nd => (nd.name, nd.type))
      = (m'.lookup k).map (fun nd => (nd.name, nd.type)) := by
  induction m with
  | nil =>
    intro m' h k
    cases m' with
    | nil => rfl
    | cons kv t => exact List.noConfusion h
  | cons kv t ih =>
    intro m' h k
    cases m' with
    | nil => exact List.noConfusion h
    | cons kv' t' =>
      obtain ⟨a, b⟩ := kv
      obtain ⟨a', b'⟩ := kv'
      have h' : (a, b.name, b.type) :: eraseNodes t
          = (a', b'.name, b'.type) :: eraseNodes t' := h
      injection h' with h1 h2
      injection h1 with h11 h12
      rw [lookup_cons, lookup_cons, h11]
      by_cases hk : k = a'
      · rw [if_pos hk, if_pos hk]
        exact congrArg some h12
      · rw [if_neg hk, if_neg hk]
        exact ih t' h2 k

theorem insertPart_shape (e e' : FileInfo) (cp np part : String) (b : Bool)
    (st st' : BuildState)
    (hr : st.roots = st'.roots) (hc : st.childrenOf = st'.childrenOf)
    (hn : eraseNodes st.nodes = eraseNodes st'.nodes) :
    (insertPart e cp np part b st).roots = (insertPart e' cp np part b st').roots
    ∧ (insertPart e cp np part b st).childrenOf
        = (insertPart e' cp np part b st').childrenOf
    ∧ eraseNodes (insertPart e cp np part b st).nodes
        = eraseNodes (insertPart e' cp np part b st').nodes := by
  have hsome := lookup_isSome_congr st.nodes st'.nodes hn np
  have hn1 : eraseNodes ((np, createdData e part b) :: st.nodes)
      = eraseNodes ((np, createdData e' part b) :: st'.nodes) := by
    show (np, (createdData e part b).name, (createdData e part b).type)
        :: eraseNodes st.nodes = _
    rw [hn]
    rfl
  have hc1 : (if b then st.childrenOf else (np, []) :: st.childrenOf)
      = (if b then st'.childrenOf else (np, []) :: st'.childrenOf) := by
    rw [hc]
  by_cases hx : (st.nodes.lookup np).isSome = true
  · rw [insertPart_eq_noop e cp np part b st hx,
      insertPart_eq_noop e' cp np part b st' (by rw [← hsome]; exact hx)]
    exact ⟨hr, hc, hn⟩
  · have hx' : ¬ (st'.nodes.lookup np).isSome = true := by
      rw [← hsome]
      exact hx
    by_cases hcp : cp = ""
    · rw [insertPart_eq_root e cp np part b st hx hcp,
        insertPart_eq_root e' cp np part b st' hx' hcp]
      exact ⟨by rw [hr], hc1, hn1⟩
    · have hsome2 : ((if b then st.childrenOf else (np, []) :: st.childrenOf).lookup cp).isSome
          = ((if b then st'.childrenOf else (np, []) :: st'.childrenOf).lookup cp).isSome := by
        rw [hc1]
      by_cases hat : ((if b then st.childrenOf
          else (np, []) :: st.childrenOf).lookup cp).isSome = true
      · rw [insertPart_eq_attach e cp np part b st hx hcp hat,
          insertPart_eq_attach e' cp np part b st' hx' hcp (by rw [← hsome2]; exact hat)]
        exact ⟨hr, by rw [hc1], hn1⟩
      · rw [insertPart_eq_drop e cp np part b st hx hcp hat,
          insertPart_eq_drop e' cp np part b st' hx' hcp (by rw [← hsome2]; exact hat)]
        exact ⟨hr, hc1, hn1⟩

theorem insertParts_shape (e e' : FileInfo) :
    ∀ (rest : List String) (cp : String) (st st' : BuildState),
    st.roots = st'.roots → st.childrenOf = st'.childrenOf →
    eraseNodes st.nodes = eraseNodes st'.nodes →
    (insertParts e cp rest st).roots = (insertParts e' cp rest st').roots
    ∧ (insertParts e cp rest st).childrenOf = (insertParts e' cp rest st').childrenOf
    ∧ eraseNodes (insertParts e cp rest st).nodes
        = eraseNodes (insertParts e' cp rest st').nodes := by
  intro rest
  induction rest with
  | nil =>
    intro cp st st' hr hc hn
    exact ⟨hr, hc, hn⟩
  | cons part rest' ih =>
    intro cp st st' hr hc hn
    rw [insertParts_cons, insertParts_cons]
    obtain ⟨h1, h2, h3⟩ := insertPart_shape e e' cp _ part rest'.isEmpty st st' hr hc hn
    exact ih _ _ _ h1 h2 h3

theorem processEntry_shape (e e' : FileInfo) (hpath : e.path = e'.path)
    (st st' : BuildState)
    (hr : st.roots = st'.roots) (hc : st.childrenOf = st'.childrenOf)
    (hn : eraseNodes st.nodes = eraseNodes st'.nodes) :
    (processEntry st e).roots = (processEntry st' e').roots
    ∧ (processEntry st e).childrenOf = (processEntry st' e').childrenOf
    ∧ eraseNodes (processEntry st e).nodes = eraseNodes (processEntry st' e').nodes := by
  unfold processEntry
  rw [hpath]
  exact insertParts_shape e e' (segs e'.path) "" st st' hr hc hn

theorem foldl_shape :
    ∀ (l l' : List FileInfo), l.map FileInfo.path = l'.map FileInfo.path →
    ∀ (st st' : BuildState), st.roots = st'.roots → st.childrenOf = st'.childrenOf →
    eraseNodes st.nodes = eraseNodes st'.nodes →
    (l.foldl processEntry st).roots = (l'.foldl processEntry st').roots
    ∧ (l.foldl processEntry st).childrenOf = (l'.foldl processEntry st').childrenOf
    ∧ eraseNodes (l.foldl processEntry st).nodes
        = eraseNodes (l'.foldl processEntry st').nodes := by
  intro l
  induction l with
  | nil =>
    intro l' hmap st st' hr hc hn
    cases l' with
    | nil => exact ⟨hr, hc, hn⟩
    | cons a t => exact List.noConfusion hmap
  | cons a t ih =>
    intro l' hmap st st' hr hc hn
    cases l' with
    | nil => exact List.noConfusion hmap
    | cons a' t' =>
      have hmap' : a.path :: t.map FileInfo.path = a'.path :: t'.map FileInfo.path := hmap
      injection hmap' with hp ht
      rw [List.foldl_cons, List.foldl_cons]
      obtain ⟨h1, h2, h3⟩ := processEntry_shape a a' hp st st' hr hc hn
      exact ih t' ht _ _ h1 h2 h3

theorem buildState_shape (l l' : List FileInfo) (hp : l.Perm l') :
    (buildState l).roots = (buildState l').roots
    ∧ (buildState l).childrenOf = (buildState l').childrenOf
    ∧ eraseNodes (buildState l).nodes = eraseNodes (buildState l').nodes :=
  foldl_shape (sortFiles l) (sortFiles l') (sortFiles_map_path_eq hp)
    emptyState emptyState rfl rfl rfl

theorem shapeOf_buildNode_congr (st st' : BuildState)
    (hc : st.childrenOf = st'.childrenOf)
    (hn : eraseNodes st.nodes = eraseNodes st'.nodes) :
    ∀ (fuel : Nat) (q : String),
      shapeOf (buildNode st fuel q) = shapeOf (buildNode st' fuel q) := by
  intro fuel
  induction fuel with
  | zero =>
    intro q
    rfl
  | succ f ih =>
    intro q
    have hl := lookup_erase_congr st.nodes st'.nodes hn q
    unfold buildNode
    cases hnd : st.nodes.lookup q with
    | none =>
      cases hnd' : st'.nodes.lookup q with
      | none => rfl
      | some nd' =>
        rw [hnd, hnd'] at hl
        exact Option.noConfusion hl
    | some nd =>
      cases hnd' : st'.nodes.lookup q with
      | none =>
        rw [hnd, hnd'] at hl
        exact Option.noConfusion hl
      | some nd' =>
        rw [hnd, hnd'] at hl
        have hl2 : some (nd.name, nd.type) = some (nd'.name, nd'.type) := hl
        injection hl2 with hl3
        injection hl3 with hname htype
        rw [← hc]
        cases hcs : st.childrenOf.lookup q with
        | none =>
          show TreeShape.mk nd.name q nd.type none = TreeShape.mk nd'.name q nd'.type none
          rw [hname, htype]
        | some cs =>
          show TreeShape.mk nd.name q nd.type
              (some (shapeListOf (cs.map (fun q' => buildNode st f q'))))
            = TreeShape.mk nd'.name q nd'.type
              (some (shapeListOf (cs.map (fun q' => buildNode st' f q'))))
          rw [hname, htype]
          refine congrArg (fun L => TreeShape.mk nd'.name q nd'.type (some L)) ?_
          clear hcs
          induction cs with
          | nil => rfl
          | cons c cs' ihc =>
            show shapeOf (buildNode st f c) :: _ = shapeOf (buildNode st' f c) :: _
            rw [ih c, ihc]

theorem buildFileTree_shape (l l' : List FileInfo) (hp : l.Perm l') :
    shapeListOf (buildFileTree l) = shapeListOf (buildFileTree l') := by
  obtain ⟨hr, hc, hn⟩ := buildState_shape l l' hp
  have hlen : (buildState l).nodes.length = (buildState l').nodes.length := by
    have hh := congrArg List.length hn
    unfold eraseNodes at hh
    rw [List.length_map, List.length_map] at hh
    exact hh
  rw [buildFileTree_eq, buildFileTree_eq, ← hr, ← hlen]
  have hall : ∀ rs : List String,
      shapeListOf (rs.map (fun q =>
        buildNode (buildState l) ((buildState l).nodes.length + 1) q))
      = shapeListOf (rs.map (fun q =>
        buildNode (buildState l') ((buildState l).nodes.length + 1) q)) := by
    intro rs
    induction rs with
    | nil => rfl
    | cons r rs' ihr =>
      show shapeOf (buildNode (buildState l) _ r) :: _
        = shapeOf (buildNode (buildState l') _ r) :: _
      rw [shapeOf_buildNode_congr (buildState l) (buildState l') hc hn _ r, ihr]
  exact hall _

/-- C2: every sibling group of the forest lists its members in the node
creation order induced by the lexicographic full-path sort of the entries;
the tree shape is invariant under permuting the input list; and for the
input paths `["b.txt", "a.txt"]` the top level is `["a.txt", "b.txt"]`. -/
theorem siblingOrder_spec (files : List FileInfo) :
    (∀ L ∈ allSiblingLists (buildFileTree files),
      (L.map FileTreeNode.path).Sublist (creationOrder files))
    ∧ (∀ files', files.Perm files' →
        shapeListOf (buildFileTree files) = shapeListOf (buildFileTree files'))
    ∧ (buildFileTree [mkFi "b.txt" 1, mkFi "a.txt" 1]).map FileTreeNode.path
        = ["a.txt", "b.txt"] := by
  have hinv := buildState_inv files
  have hkeys : ((buildState files).nodes.map Prod.fst).reverse = creationOrder files :=
    hinv.trace
  refine ⟨?_, fun files' hp => buildFileTree_shape files files' hp, by decide⟩
  intro L hL
  rcases List.mem_cons.mp hL with rfl | hL'
  · have hm : (buildFileTree files).map FileTreeNode.path = (buildState files).roots := by
      rw [buildFileTree_eq]
      exact map_path_buildNode _ _ _
    rw [hm, ← hkeys]
    exact hinv.rootsSub
  · rw [buildFileTree_eq] at hL'
    obtain ⟨r, hr, hLr⟩ := mem_sibListsOf_map _ _ _ L hL'
    obtain ⟨p, cs, hlk, hmapL⟩ := nodeSibLists_buildNode _ _ r L hLr
    rw [hmapL, ← hkeys]
    exact hinv.childSub p cs hlk

theorem siblingOrder_witness :
    ([mkFi "b.txt" 1, mkFi "a.txt" 1] : List FileInfo).Perm
      [mkFi "a.txt" 1, mkFi "b.txt" 1]
    ∧ shapeListOf (buildFileTree [mkFi "b.txt" 1, mkFi "a.txt" 1])
        = shapeListOf (buildFileTree [mkFi "a.txt" 1, mkFi "b.txt" 1]) := by
  have hperm : ([mkFi "b.txt" 1, mkFi "a.txt" 1] : List FileInfo).Perm
      [mkFi "a.txt" 1, mkFi "b.txt" 1] := List.Perm.swap _ _ _
  exact ⟨hperm, (siblingOrder_spec [mkFi "b.txt" 1, mkFi "a.txt" 1]).2.1 _ hperm⟩

/-! ## Shadowing and duplicate paths -/

theorem listLtb_self_append : ∀ (l t : List Char), t ≠ [] → listLtb l (l ++ t) = true := by
  intro l
  induction l with
  | nil =>
    intro t ht
    cases t with
    | nil => exact absurd rfl ht
    | cons c cs => rfl
  | cons a as ih =>
    intro t ht
    show listLtb (a :: as) (a :: (as ++ t)) = true
    unfold listLtb
    rw [if_neg (lt_irrefl a), if_neg (lt_irrefl a)]
    exact ih t ht

/-- On the sorted entry list, the first entry whose chain visits an actual
entry path `P` has path exactly `P`: prefixes sort before their extensions. -/
theorem findReacher_self (files : List FileInfo) (P : String)
    (hwf : ∀ e ∈ files, wfPath e.path)
    (e₀ : FileInfo) (he₀ : e₀ ∈ files) (hP₀ : e₀.path = P) :
    ∃ x l₁ l₂, findReacher (sortFiles files) P = some x ∧ x.path = P
      ∧ sortFiles files = l₁ ++ x :: l₂ ∧ ∀ y ∈ l₁, y.path ≠ P := by
  have he₀s : e₀ ∈ sortFiles files := (sortFiles_perm files).mem_iff.mpr he₀
  have hwfe₀ : wfPath e₀.path := hwf e₀ he₀
  have hreach₀ : (runPaths e₀.path).contains P = true := by
    apply (contains_iff_mem _ _).mpr
    exact (mem_runPaths_iff P e₀.path hwfe₀).mpr ⟨[], by rw [List.append_nil, hP₀]⟩
  cases hfind : findReacher (sortFiles files) P with
  | none =>
    exact absurd hreach₀ (List.find?_eq_none.mp hfind e₀ he₀s)
  | some x =>
    obtain ⟨hx_pred, l₁, l₂, hsplit, hbefore⟩ := find?_eq_some_split _ _ x hfind
    have hx_mem : x ∈ sortFiles files := List.mem_of_find?_eq_some hfind
    have hwfx : wfPath x.path := hwf x ((sortFiles_perm files).mem_iff.mp hx_mem)
    obtain ⟨t, ht⟩ := (mem_runPaths_iff P x.path hwfx).mp ((contains_iff_mem _ _).mp hx_pred)
    by_cases hxP : x.path = P
    · refine ⟨x, l₁, l₂, rfl, hxP, hsplit, ?_⟩
      intro y hy hyP
      have hyfalse := hbefore y hy
      have hymem : y ∈ files := (sortFiles_perm files).mem_iff.mp
        (by rw [hsplit]; exact List.mem_append_left _ hy)
      have hyreach : (runPaths y.path).contains P = true := by
        apply (contains_iff_mem _ _).mpr
        exact (mem_runPaths_iff P y.path (hwf y hymem)).mpr
          ⟨[], by rw [List.append_nil, hyP]⟩
      rw [hyreach] at hyfalse
      exact Bool.noConfusion hyfalse
    · exfalso
      have htne : t ≠ [] := by
        intro ht0
        rw [ht0, List.append_nil] at ht
        exact hxP (by rw [← joinSegs_segs x.path, ← ht, joinSegs_segs])
      have hxPext : x.path = P ++ "/" ++ joinSegs t := by
        calc x.path = joinSegs (segs x.path) := (joinSegs_segs x.path).symm
          _ = joinSegs (segs P ++ t) := by rw [ht]
          _ = joinSegs (segs P) ++ "/" ++ joinSegs t :=
              joinSegs_append _ _ (segs_ne_nil P) htne
          _ = P ++ "/" ++ joinSegs t := by rw [joinSegs_segs]
      have hlt : pathLt e₀ x = true := by
        unfold pathLt
        rw [hP₀, hxPext, data_append_slash]
        exact listLtb_self_append P.data _ (by intro hh; exact List.noConfusion hh)
      have he₀split : e₀ ∈ l₁ ++ x :: l₂ := by
        rw [← hsplit]
        exact he₀s
      rcases List.mem_append.mp he₀split with h1 | h2
      · have hfirst := hbefore e₀ h1
        rw [hreach₀] at hfirst
        exact Bool.noConfusion hfirst
      · rcases List.mem_cons.mp h2 with he | he
        · exact hxP (by rw [← he]; exact hP₀)
        · have hpw := sortFiles_pairwise files
          rw [hsplit] at hpw
          have hp2 : (x :: l₂).Pairwise (fun u v => pathLt v u = false) :=
            (List.pairwise_append.mp hpw).2.1
          have hxl₂ := (List.pairwise_cons.mp hp2).1 e₀ he
          rw [hlt] at hxl₂
          exact Bool.noConfusion hxl₂

/-- The node created at an actual entry path is a file carrying the
metadata of the first sorted entry with that path. -/
theorem node_at_entry_path (files : List FileInfo) (P : String)
    (hwf : ∀ e ∈ files, wfPath e.path)
    (e₀ : FileInfo) (he₀ : e₀ ∈ files) (hP₀ : e₀.path = P) :
    ∃ nd x l₁ l₂, (buildState files).nodes.lookup P = some nd
      ∧ sortFiles files = l₁ ++ x :: l₂ ∧ x.path = P ∧ (∀ y ∈ l₁, y.path ≠ P)
      ∧ nd.type = NodeType.file
      ∧ nd.size = some x.size ∧ nd.mimeType = some x.mimeType
      ∧ nd.contentType = some x.contentType ∧ nd.modified = some x.modified := by
  have hinv := buildState_inv files
  obtain ⟨x, l₁, l₂, hfind, hxP, hsplit, hbefore⟩ := findReacher_self files P hwf e₀ he₀ hP₀
  have hPkey : P ∈ (buildState files).nodes.map Prod.fst := by
    have hreach : P ∈ runPaths e₀.path :=
      (mem_runPaths_iff P e₀.path (hwf e₀ he₀)).mpr ⟨[], by rw [List.append_nil, hP₀]⟩
    have hm : P ∈ dedupFirst ((sortFiles files).flatMap (fun e => runPaths e.path)) :=
      (mem_dedupFirst _ _).mpr (List.mem_flatMap.mpr
        ⟨e₀, (sortFiles_perm files).mem_iff.mpr he₀, hreach⟩)
    rw [← hinv.trace] at hm
    exact List.mem_reverse.mp hm
  obtain ⟨nd, hnd⟩ := Option.isSome_iff_exists.mp ((lookup_isSome_iff P _).mpr hPkey)
  obtain ⟨x', hfx', hmk⟩ := hinv.dataChar P nd hnd
  rw [hfind] at hfx'
  injection hfx' with hxx
  have hx_mem : x ∈ files := (sortFiles_perm files).mem_iff.mp
    (by rw [hsplit]; exact List.mem_append_right _ (List.mem_cons_self _ _))
  have hwfx : wfPath x.path := hwf x hx_mem
  have hreachx : P ∈ runPaths x.path :=
    (mem_runPaths_iff P x.path hwfx).mpr ⟨[], by rw [List.append_nil, hxP]⟩
  have hmtype : (mkNodeData x P).type = NodeType.file :=
    (mkNodeData_type_wf x P hwfx hreachx).mpr hxP.symm
  obtain ⟨hs, hm', hc', hmo'⟩ := mkNodeData_file_fields x P hmtype
  refine ⟨nd, x, l₁, l₂, hnd, hsplit, hxP, hbefore, ?_, ?_, ?_, ?_, ?_⟩
  · rw [hmk, ← hxx]
    exact hmtype
  · rw [hmk, ← hxx]
    exact hs
  · rw [hmk, ← hxx]
    exact hm'
  · rw [hmk, ← hxx]
    exact hc'
  · rw [hmk, ← hxx]
    exact hmo'

/-- Every proper ancestor of a forest path at or below the subtree root has
a registered children array. -/
theorem mem_subtree_ancestor (st : BuildState)
    (hshape : ∀ p cs q, st.childrenOf.lookup p = some cs → q ∈ cs →
      (st.nodes.lookup q).isSome = true ∧ ∃ s, q = p ++ "/" ++ s ∧ '/' ∉ s.data) :
    ∀ (fuel : Nat) (q x : String), x ∈ subtreePaths st fuel q →
      ∀ k, (segs q).length ≤ k → k < (segs x).length →
        (st.childrenOf.lookup (joinSegs ((segs x).take k))).isSome = true := by
  intro fuel
  induction fuel with
  | zero =>
    intro q x hx k hk1 hk2
    rw [List.mem_singleton.mp hx] at hk2
    omega
  | succ f ih =>
    intro q x hx k hk1 hk2
    unfold subtreePaths at hx
    cases hnd : st.nodes.lookup q with
    | none =>
      rw [hnd] at hx
      rw [List.mem_singleton.mp hx] at hk2
      omega
    | some nd =>
      rw [hnd] at hx
      cases hcs : st.childrenOf.lookup q with
      | none =>
        rw [hcs] at hx
        rw [List.mem_singleton.mp hx] at hk2
        omega
      | some cs =>
        rw [hcs] at hx
        rcases List.mem_cons.mp hx with rfl | hx'
        · omega
        · obtain ⟨l, hl, hxl⟩ := List.mem_flatten.mp hx'
          obtain ⟨q', hq', hmap⟩ := List.mem_map.mp hl
          obtain ⟨hq'some, s, hqs, hsfree⟩ := hshape q cs q' hcs hq'
          have hsegq' : segs q' = segs q ++ [s] := by
            rw [hqs, segs_append_single q s hsfree]
          by_cases hk : (segs q').length ≤ k
          · exact ih q' x (by rw [hmap]; exact hxl) k hk hk2
          · have hkq : k = (segs q).length := by
              rw [hsegq'] at hk
              simp only [List.length_append, List.length_singleton] at hk
              omega
            obtain ⟨t, ht⟩ := subtreePaths_cone st hshape f q' x (by rw [hmap]; exact hxl)
            have htk : (segs x).take k = segs q := by
              rw [ht, hsegq', hkq, List.append_assoc, List.take_left]
            rw [htk, joinSegs_segs, hcs]
            rfl

/-- C8 (amended): for well-formed entries containing a file entry at `P`
and another entry extending `P ++ "/"`, the walk completes (the model is
total), the node at `P` is a file, the extending entry's first chain node
below `P` is created in the lookup table but attached nowhere, and no node
strictly below `P` appears in the returned forest. Well-formedness is
required: see the counterexample, where a leading-slash entry turns `P`
into a folder. -/
theorem belowFile_amended (files : List FileInfo) (P r : String)
    (hwf : ∀ e ∈ files, wfPath e.path)
    (f : FileInfo) (hf : f ∈ files) (hfP : f.path = P)
    (g : FileInfo) (hg : g ∈ files) (hgP : g.path = P ++ "/" ++ r) :
    (∃ nd, (buildState files).nodes.lookup P = some nd ∧ nd.type = NodeType.file)
    ∧ (((buildState files).nodes.lookup
        (joinSegs ((segs g.path).take ((segs P).length + 1)))).isSome = true)
    ∧ (joinSegs ((segs g.path).take ((segs P).length + 1))
        ∉ attachedList (buildState files))
    ∧ (∀ x, (∃ r', x = P ++ "/" ++ r') → x ∉ allNodesPaths (buildFileTree files)) := by
  have hinv := buildState_inv files
  obtain ⟨hshape, _, _, hrootsfree, _, _, _⟩ := buildState_facts files
  obtain ⟨nd, x, l₁, l₂, hnd, hsplit, hxP, hbefore, htypef, _, _, _, _⟩ :=
    node_at_entry_path files P hwf f hf hfP
  have hsegg : segs g.path = segs P ++ segs r := by
    rw [hgP, segs_append]
  obtain ⟨s₀, rrest, hsr⟩ : ∃ s₀ rrest, segs r = s₀ :: rrest := by
    cases hsr : segs r with
    | nil => exact absurd hsr (segs_ne_nil r)
    | cons a t => exact ⟨a, t, rfl⟩
  have htake : (segs g.path).take ((segs P).length + 1) = segs P ++ [s₀] := by
    rw [hsegg, hsr, List.take_append]
    rfl
  have hs₀free : '/' ∉ s₀.data := by
    apply no_slash_mem_segs r
    rw [hsr]
    exact List.mem_cons_self _ _
  have hq : joinSegs ((segs g.path).take ((segs P).length + 1)) = P ++ "/" ++ s₀ := by
    rw [htake, joinSegs_append (segs P) [s₀] (segs_ne_nil P)
      (by intro hh; exact List.noConfusion hh), joinSegs_segs, joinSegs_single]
  have hqrun : joinSegs ((segs g.path).take ((segs P).length + 1)) ∈ runPaths g.path := by
    apply (mem_runPaths_iff _ g.path (hwf g hg)).mpr
    have hsegq : segs (joinSegs ((segs g.path).take ((segs P).length + 1)))
        = (segs g.path).take ((segs P).length + 1) := by
      apply segs_joinSegs
      · rw [htake]
        intro hh
        have := congrArg List.length hh
        simp only [List.length_append, List.length_singleton, List.length_nil] at this
        omega
      · intro s hs
        exact no_slash_mem_segs g.path s (List.mem_of_mem_take hs)
    rw [hsegq]
    exact ⟨(segs g.path).drop ((segs P).length + 1), List.take_append_drop _ _⟩
  have hqkey : joinSegs ((segs g.path).take ((segs P).length + 1))
      ∈ (buildState files).nodes.map Prod.fst := by
    have hm : joinSegs ((segs g.path).take ((segs P).length + 1))
        ∈ dedupFirst ((sortFiles files).flatMap (fun e => runPaths e.path)) :=
      (mem_dedupFirst _ _).mpr (List.mem_flatMap.mpr
        ⟨g, (sortFiles_perm files).mem_iff.mpr hg, hqrun⟩)
    rw [← hinv.trace] at hm
    exact List.mem_reverse.mp hm
  have hPnotfold : ¬ ((buildState files).childrenOf.lookup P).isSome = true := by
    intro hfold
    obtain ⟨nd', hnd', hty⟩ := (hinv.folderIff P).mp hfold
    rw [hnd] at hnd'
    injection hnd' with hnd2
    rw [← hnd2] at hty
    rw [htypef] at hty
    exact NodeType.noConfusion hty
  refine ⟨⟨nd, hnd, htypef⟩, (lookup_isSome_iff _ _).mpr hqkey, ?_, ?_⟩
  · intro hqatt
    rcases List.mem_append.mp hqatt with hroot | hchild
    · have hfree := hrootsfree _ hroot
      have hmemslash : '/' ∈ (P ++ "/" ++ s₀).data := by
        rw [data_append_slash]
        exact List.mem_append_right _ (List.mem_cons_self _ _)
      rw [← hq] at hmemslash
      exact hfree hmemslash
    · obtain ⟨l, hl, hql⟩ := List.mem_flatten.mp hchild
      obtain ⟨pc, hpcs, hsnd⟩ := List.mem_map.mp hl
      have hlk : (buildState files).childrenOf.lookup pc.1 = some pc.2 :=
        lookup_of_mem_nodup _ pc.1 pc.2 hinv.childKeysNodup hpcs
      have hqc : joinSegs ((segs g.path).take ((segs P).length + 1)) ∈ pc.2 := by
        rw [hsnd]
        exact hql
      obtain ⟨_, s', hqs', hs'free⟩ := hshape pc.1 pc.2 _ hlk hqc
      have heq2 : P ++ "/" ++ s₀ = pc.1 ++ "/" ++ s' := by
        rw [← hq]
        exact hqs'
      obtain ⟨hPp, _⟩ := split_slash_inj P s₀ pc.1 s' hs₀free hs'free heq2
      rw [← hPp] at hlk
      exact hPnotfold (by rw [hlk]; rfl)
  · intro y hy hymem
    obtain ⟨r', hyr⟩ := hy
    rw [allNodesPaths_eq] at hymem
    obtain ⟨l, hl, hyl⟩ := List.mem_flatten.mp hymem
    obtain ⟨r₀, hr₀, hmapr⟩ := List.mem_map.mp hl
    have hmapr' : subtreePaths (buildState files)
        ((buildState files).nodes.length + 1) r₀ = l := hmapr
    have hsy : segs y = segs P ++ segs r' := by
      rw [hyr, segs_append]
    have hr₀free : segs r₀ = [r₀] := segs_of_no_slash r₀ (hrootsfree r₀ hr₀)
    have hanc := mem_subtree_ancestor (buildState files) hshape _ r₀ y
      (by rw [hmapr']; exact hyl) (segs P).length
      (by
        rw [hr₀free]
        have h0 := List.length_pos.mpr (segs_ne_nil P)
        simp only [List.length_singleton]
        omega)
      (by
        rw [hsy, List.length_append]
        have h0 := List.length_pos.mpr (segs_ne_nil r')
        omega)
    have htky : (segs y).take (segs P).length = segs P := by
      rw [hsy, List.take_left]
    rw [htky, joinSegs_segs] at hanc
    exact hPnotfold hanc

theorem belowFile_amended_witness :
    (∀ e ∈ [mkFi "a" 1, mkFi "a/x" 2], wfPath e.path)
    ∧ mkFi "a" 1 ∈ [mkFi "a" 1, mkFi "a/x" 2]
    ∧ (mkFi "a" 1).path = "a"
    ∧ mkFi "a/x" 2 ∈ [mkFi "a" 1, mkFi "a/x" 2]
    ∧ (mkFi "a/x" 2).path = "a" ++ "/" ++ "x"
    ∧ ((∃ nd, (buildState [mkFi "a" 1, mkFi "a/x" 2]).nodes.lookup "a" = some nd
          ∧ nd.type = NodeType.file)
      ∧ (((buildState [mkFi "a" 1, mkFi "a/x" 2]).nodes.lookup
          (joinSegs ((segs (mkFi "a/x" 2).path).take ((segs "a").length + 1)))).isSome
            = true)
      ∧ (joinSegs ((segs (mkFi "a/x" 2).path).take ((segs "a").length + 1))
          ∉ attachedList (buildState [mkFi "a" 1, mkFi "a/x" 2]))
      ∧ (∀ x, (∃ r', x = "a" ++ "/" ++ r') →
          x ∉ allNodesPaths (buildFileTree [mkFi "a" 1, mkFi "a/x" 2]))) :=
  ⟨by decide, by decide, by decide, by decide, by decide,
    belowFile_amended [mkFi "a" 1, mkFi "a/x" 2] "a" "x" (by decide)
      (mkFi "a" 1) (by decide) (by decide)
      (mkFi "a/x" 2) (by decide) (by decide)⟩

/-- C9 (amended): for well-formed entries with a duplicated path `P`, the
walk completes (the model is total), the node table binds `P` exactly once,
its node is a file carrying the metadata of the sorted-first entry with
path `P` (later duplicates are no-ops), and the forest shows at most one
node at `P`. The amendment weakens "exactly one node" to "exactly one
table binding, at most one forest node": when the parent of `P` is a file,
the node is created but dropped — see the counterexample. -/
theorem duplicate_amended (files : List FileInfo) (P : String)
    (hwf : ∀ e ∈ files, wfPath e.path)
    (hdup : 2 ≤ (files.map FileInfo.path).count P) :
    ((buildState files).nodes.map Prod.fst).count P = 1
    ∧ (∃ nd x l₁ l₂, (buildState files).nodes.lookup P = some nd
        ∧ sortFiles files = l₁ ++ x :: l₂ ∧ x.path = P ∧ (∀ y ∈ l₁, y.path ≠ P)
        ∧ nd.type = NodeType.file
        ∧ nd.size = some x.size ∧ nd.mimeType = some x.mimeType
        ∧ nd.contentType = some x.contentType ∧ nd.modified = some x.modified)
    ∧ (allNodesPaths (buildFileTree files)).count P ≤ 1 := by
  have hPex : ∃ e ∈ files, e.path = P := by
    by_contra hnone
    push_neg at hnone
    have hnot : P ∉ files.map FileInfo.path := by
      intro hm
      obtain ⟨e, he, hep⟩ := List.mem_map.mp hm
      exact hnone e he hep
    rw [List.count_eq_zero.mpr hnot] at hdup
    omega
  obtain ⟨e₀, he₀, hP₀⟩ := hPex
  obtain ⟨nd, x, l₁, l₂, hnd, hsplit, hxP, hbefore, htypef, hs, hm', hc', hmo'⟩ :=
    node_at_entry_path files P hwf e₀ he₀ hP₀
  have hPkey : P ∈ (buildState files).nodes.map Prod.fst :=
    (lookup_isSome_iff P _).mp (by rw [hnd]; rfl)
  refine ⟨?_,
    ⟨nd, x, l₁, l₂, hnd, hsplit, hxP, hbefore, htypef, hs, hm', hc', hmo'⟩, ?_⟩
  · exact List.count_eq_one_of_mem (buildState_facts files).2.2.2.2.2.2 hPkey
  · exact (List.nodup_iff_count_le_one.mp (forest_nodup files)) P

theorem duplicate_amended_witness :
    (∀ e ∈ [mkFi "a/b" 1, mkFi "a/b" 2], wfPath e.path)
    ∧ 2 ≤ (([mkFi "a/b" 1, mkFi "a/b" 2]).map FileInfo.path).count "a/b"
    ∧ (((buildState [mkFi "a/b" 1, mkFi "a/b" 2]).nodes.map Prod.fst).count "a/b" = 1
      ∧ (∃ nd x l₁ l₂,
          (buildState [mkFi "a/b" 1, mkFi "a/b" 2]).nodes.lookup "a/b" = some nd
          ∧ sortFiles [mkFi "a/b" 1, mkFi "a/b" 2] = l₁ ++ x :: l₂ ∧ x.path = "a/b"
          ∧ (∀ y ∈ l₁, y.path ≠ "a/b")
          ∧ nd.type = NodeType.file
          ∧ nd.size = some x.size ∧ nd.mimeType = some x.mimeType
          ∧ nd.contentType = some x.contentType ∧ nd.modified = some x.modified)
      ∧ (allNodesPaths (buildFileTree [mkFi "a/b" 1, mkFi "a/b" 2])).count "a/b" ≤ 1) :=
  ⟨by decide, by decide, duplicate_amended [mkFi "a/b" 1, mkFi "a/b" 2] "a/b"
    (by decide) (by decide)⟩

end GitVault
